import Mathlib

/-! # NumericMonoid: a shallow embedding of `src/Cilk++/mon.cpp`

The program walks the tree of numerical monoids.  A monoid is stored as the
byte array `decs` (number of decompositions of each index as a sum of two
elements) together with `conductor`, `min` and `genus`.

Conventions of the embedding:
* a byte is a `Nat`, every byte operation reduces modulo `256`;
* an `unsigned long` is a `Nat`, every operation reduces modulo `2 ^ 64`;
* a 16-byte vector (`epi8`) is a `List Nat` of length 16;
* the array `decs` is a `List Nat` of length `SIZE`;
* an access outside an array and a failed `assert` give `none`.
-/

set_option maxRecDepth 100000

namespace NumericMonoid

/-! ## Constants (mon.cpp, lines 21-24 and 43) -/

/-- Source: `#define MAX_GENUS 40`. -/
def MAX_GENUS : Nat := 40

/-- Source: `#define SIZE_BOUND (3*(MAX_GENUS-1))`. -/
def SIZE_BOUND : Nat := 3 * (MAX_GENUS - 1)

/-- Source: `#define NBLOCKS ((SIZE_BOUND+15) >> 4)`. -/
def NBLOCKS : Nat := (SIZE_BOUND + 15) >>> 4

/-- Source: `#define SIZE (NBLOCKS << 4)`. -/
def SIZE : Nat := NBLOCKS <<< 4

/-- Source: `const unsigned long int target_genus = MAX_GENUS;`. -/
def target_genus : Nat := MAX_GENUS

/-- Source: `const int stack_bound = 11;`. -/
def stack_bound : Nat := 11

/-- Source: `#define STACK_SIZE 50`. -/
def STACK_SIZE : Nat := 50

/-- Range of an `unsigned long int`. -/
def U64 : Nat := 2 ^ 64

/-! ## The block kernel: 16-byte vectors -/

/-- The type `epi8`: sixteen unsigned bytes. -/
abbrev epi8 := List Nat

/-- The constant `zero`. -/
def zero : epi8 := [0,0,0,0,0,0,0,0,0,0,0,0,0,0,0,0]

/-- The constant `block1`. -/
def block1 : epi8 := [1,1,1,1,1,1,1,1,1,1,1,1,1,1,1,1]

/-- The constant `m1 = 255`. -/
def m1 : Nat := 255

/-- The table `shift16`. -/
def shift16 : List epi8 :=
  [ [ 0, 1, 2, 3, 4, 5, 6, 7, 8, 9,10,11,12,13,14,15],
    [m1, 0, 1, 2, 3, 4, 5, 6, 7, 8, 9,10,11,12,13,14],
    [m1,m1, 0, 1, 2, 3, 4, 5, 6, 7, 8, 9,10,11,12,13],
    [m1,m1,m1, 0, 1, 2, 3, 4, 5, 6, 7, 8, 9,10,11,12],
    [m1,m1,m1,m1, 0, 1, 2, 3, 4, 5, 6, 7, 8, 9,10,11],
    [m1,m1,m1,m1,m1, 0, 1, 2, 3, 4, 5, 6, 7, 8, 9,10],
    [m1,m1,m1,m1,m1,m1, 0, 1, 2, 3, 4, 5, 6, 7, 8, 9],
    [m1,m1,m1,m1,m1,m1,m1, 0, 1, 2, 3, 4, 5, 6, 7, 8],
    [m1,m1,m1,m1,m1,m1,m1,m1, 0, 1, 2, 3, 4, 5, 6, 7],
    [m1,m1,m1,m1,m1,m1,m1,m1,m1, 0, 1, 2, 3, 4, 5, 6],
    [m1,m1,m1,m1,m1,m1,m1,m1,m1,m1, 0, 1, 2, 3, 4, 5],
    [m1,m1,m1,m1,m1,m1,m1,m1,m1,m1,m1, 0, 1, 2, 3, 4],
    [m1,m1,m1,m1,m1,m1,m1,m1,m1,m1,m1,m1, 0, 1, 2, 3],
    [m1,m1,m1,m1,m1,m1,m1,m1,m1,m1,m1,m1,m1, 0, 1, 2],
    [m1,m1,m1,m1,m1,m1,m1,m1,m1,m1,m1,m1,m1,m1, 0, 1],
    [m1,m1,m1,m1,m1,m1,m1,m1,m1,m1,m1,m1,m1,m1,m1, 0] ]

/-- The table `mask16`. -/
def mask16 : List epi8 :=
  [ [m1,m1,m1,m1,m1,m1,m1,m1,m1,m1,m1,m1,m1,m1,m1,m1],
    [ 0,m1,m1,m1,m1,m1,m1,m1,m1,m1,m1,m1,m1,m1,m1,m1],
    [ 0, 0,m1,m1,m1,m1,m1,m1,m1,m1,m1,m1,m1,m1,m1,m1],
    [ 0, 0, 0,m1,m1,m1,m1,m1,m1,m1,m1,m1,m1,m1,m1,m1],
    [ 0, 0, 0, 0,m1,m1,m1,m1,m1,m1,m1,m1,m1,m1,m1,m1],
    [ 0, 0, 0, 0, 0,m1,m1,m1,m1,m1,m1,m1,m1,m1,m1,m1],
    [ 0, 0, 0, 0, 0, 0,m1,m1,m1,m1,m1,m1,m1,m1,m1,m1],
    [ 0, 0, 0, 0, 0, 0, 0,m1,m1,m1,m1,m1,m1,m1,m1,m1],
    [ 0, 0, 0, 0, 0, 0, 0, 0,m1,m1,m1,m1,m1,m1,m1,m1],
    [ 0, 0, 0, 0, 0, 0, 0, 0, 0,m1,m1,m1,m1,m1,m1,m1],
    [ 0, 0, 0, 0, 0, 0, 0, 0, 0, 0,m1,m1,m1,m1,m1,m1],
    [ 0, 0, 0, 0, 0, 0, 0, 0, 0, 0, 0,m1,m1,m1,m1,m1],
    [ 0, 0, 0, 0, 0, 0, 0, 0, 0, 0, 0, 0,m1,m1,m1,m1],
    [ 0, 0, 0, 0, 0, 0, 0, 0, 0, 0, 0, 0, 0,m1,m1,m1],
    [ 0, 0, 0, 0, 0, 0, 0, 0, 0, 0, 0, 0, 0, 0,m1,m1],
    [ 0, 0, 0, 0, 0, 0, 0, 0, 0, 0, 0, 0, 0, 0, 0,m1] ]

/-- Lane-wise `a == b` on vectors: a lane is `0xFF` where equal, `0` elsewhere. -/
def cmpeq_epi8 (a b : epi8) : epi8 :=
  List.zipWith (fun x y => if x = y then 255 else 0) a b

/-- Lane-wise `a != b` on vectors: a lane is `0xFF` where different, `0` elsewhere. -/
def cmpneq_epi8 (a b : epi8) : epi8 :=
  List.zipWith (fun x y => if x = y then 0 else 255) a b

/-- Lane-wise `a & b`. -/
def and_epi8 (a b : epi8) : epi8 :=
  List.zipWith (fun x y => x &&& y) a b

/-- Lane-wise wrapping byte subtraction `a - b`. -/
def sub_epi8 (a b : epi8) : epi8 :=
  List.zipWith (fun x y => (x + 256 - y) % 256) a b

/-- Lane-wise wrapping byte addition `_mm_add_epi8`. -/
def add_epi8 (a b : epi8) : epi8 :=
  List.zipWith (fun x y => (x + y) % 256) a b

/-- Byte shuffle `_mm_shuffle_epi8 (a, b)`: lane `j` of the result is `0` when
the high bit of `b[j]` is set and `a[b[j] & 15]` otherwise. -/
def shuffle_epi8 (a b : epi8) : epi8 :=
  b.map (fun c => if c &&& 128 = 0 then a.getD (c &&& 15) 0 else 0)

/-- Move mask `_mm_movemask_epi8`: bit `j` of the result is the high bit of lane `j`. -/
def movemask_epi8 (a : epi8) : Nat :=
  a.foldr (fun x acc => x / 128 % 2 + 2 * acc) 0

/-- Loop of `popcnt_u32` over the 32 bits. -/
def popcnt_bits : Nat → Nat → Nat
  | 0, _ => 0
  | n + 1, x => x % 2 + popcnt_bits n (x / 2)

/-- Population count `_mm_popcnt_u32` of the low 32 bits. -/
def popcnt_u32 (x : Nat) : Nat := popcnt_bits 32 (x % 2 ^ 32)

/-- Loop of `bsfd` over the 32 bits. -/
def bsfd_bits : Nat → Nat → Nat
  | 0, _ => 0
  | n + 1, x => if x % 2 = 1 then 0 else 1 + bsfd_bits n (x / 2)

/-- Bit scan forward `__bsfd`: index of the lowest set bit of the low 32 bits
(the code calls it on non-zero masks only). -/
def bsfd (x : Nat) : Nat := bsfd_bits 32 (x % 2 ^ 32)

/-- The macro `nth_block(st, i)` as a read: block `i` of the array, bytes
`16 i .. 16 i + 15`; `none` outside the `NBLOCKS` blocks. -/
def nth_block (st : List Nat) (i : Nat) : Option epi8 :=
  if i < NBLOCKS then some ((st.drop (i <<< 4)).take 16) else none

/-- The macro `nth_block(st, i)` as a write: store `b` as block `i`; `none`
outside the `NBLOCKS` blocks. -/
def set_block (st : List Nat) (i : Nat) (b : epi8) : Option (List Nat) :=
  if i < NBLOCKS then some (st.take (i <<< 4) ++ b ++ st.drop ((i <<< 4) + 16)) else none

/-- The macro `load_unaligned_epi8(st + off)`: the sixteen bytes from offset
`off`; `none` when the read leaves the array. -/
def load_unaligned_epi8 (st : List Nat) (off : Nat) : Option epi8 :=
  if off + 16 ≤ SIZE then some ((st.drop off).take 16) else none

/-! ## Monoid state -/

/-- The struct `monoid`. -/
structure monoid where
  /-- Field `nb_decompositions decs`. -/
  decs : List Nat
  /-- Field `conductor`. -/
  conductor : Nat
  /-- Field `min`. -/
  min : Nat
  /-- Field `genus`. -/
  genus : Nat
deriving DecidableEq, Repr

/-- Values a `monoid` struct can hold: `SIZE` bytes and three `unsigned long`. -/
def monoid.wf (m : monoid) : Prop :=
  m.decs.length = SIZE ∧ (∀ x ∈ m.decs, x < 256) ∧
    m.conductor < U64 ∧ m.min < U64 ∧ m.genus < U64

/-- The element `a[i]` of a byte array of `SIZE` bytes; `none` outside the array. -/
def byte_at (a : List Nat) (i : Nat) : Option Nat :=
  if i < SIZE then a.get? i else none

/-- Loop of `copy_decs`: `n` more blocks, from block `i` on, are copied. -/
def copy_decs_loop (src : List Nat) : Nat → Nat → List Nat
  | 0, _ => []
  | n + 1, i => (src.drop (i <<< 4)).take 16 ++ copy_decs_loop src n (i + 1)

/-- The function `copy_decs(dst, src)`:
`for (i=0; i<NBLOCKS; i++) nth_block(dst, i) = nth_block(src, i)`.
The result is the array `dst` after the call: its `NBLOCKS` blocks, each
read from `src`. -/
def copy_decs (src : List Nat) : List Nat :=
  copy_decs_loop src NBLOCKS 0

/-- The local `block8` of `init_full_N`. -/
def block8 : epi8 := [8,8,8,8,8,8,8,8,8,8,8,8,8,8,8,8]

/-- The loop of `init_full_N`: `n` more times, store `block` as the next block
and add `block8` to it.  The result is the sequence of blocks stored. -/
def init_full_N_loop : Nat → epi8 → List Nat
  | 0, _ => []
  | n + 1, block => block ++ init_full_N_loop n (add_epi8 block block8)

/-- The local `block` of `init_full_N` after `n` passes of its loop. -/
def init_block : Nat → epi8
  | 0 => [1,1,2,2,3,3,4,4,5,5,6,6,7,7,8,8]
  | n + 1 => add_epi8 (init_block n) block8

/-- The function `init_full_N(m)`, returning `m`. -/
def init_full_N : monoid :=
  { decs := init_full_N_loop NBLOCKS [1,1,2,2,3,3,4,4,5,5,6,6,7,7,8,8],
    genus := 0, conductor := 1, min := 1 }

/-- The statement `nth_block(dst, i) -= ((block != zero) & block1)`. -/
def sub_clamp (dst : List Nat) (i : Nat) (block : epi8) : Option (List Nat) := do
  let d ← nth_block dst i
  set_block dst i (sub_epi8 d (and_epi8 (cmpneq_epi8 block zero) block1))

/-- The fall-through `switch (start_block)` of `remove_generator`, written as
the cases it expands to: entering at `case i_loop`, every case from there on
subtracts the clamp of the sixteen bytes at `srcblock` from block
`i_loop + 1` of `dst` and advances `srcblock` by 16; `n` counts the cases
left. -/
def case_unroll (src : List Nat) : Nat → Nat → Nat → List Nat → Option (List Nat)
  | 0, _, _, dst => some dst
  | n + 1, i_loop, srcblock, dst => do
      let s ← load_unaligned_epi8 src srcblock
      let dst1 ← sub_clamp dst (i_loop + 1) s
      case_unroll src n (i_loop + 1) (srcblock + 16) dst1

/-- Number of `case` labels of the switch: `0 .. 3` and one more for each
`#if NBLOCKS > k`, `5 ≤ k ≤ 15`, that holds. -/
def unroll_cases : Nat := 4 + ((List.range 11).filter (fun k => NBLOCKS > k + 5)).length

/-- The statement `switch(start_block) { CASE_UNROLL(0); ... }` with
`srcblock = src.decs + 16 - decal`: from `case start_block` the cases fall
through to the last one; no label matches from `unroll_cases` on. -/
def unrolled_switch (src : List Nat) (start_block decal : Nat) (dst : List Nat) :
    Option (List Nat) :=
  if start_block < unroll_cases then
    case_unroll src (unroll_cases - start_block) start_block (16 - decal) dst
  else some dst

/-- The function `remove_generator(dst, src, gen)`, returning `dst` (all of
`dst` is overwritten).  `none` when an `assert` fails or an access leaves an
array. -/
def remove_generator (src : monoid) (gen : Nat) : Option monoid := do
  -- assert(src.decs[gen] == 1);
  let v ← byte_at src.decs gen
  if v ≠ 1 then none else
  let conductor := (gen + 1) % U64
  let genus := (src.genus + 1) % U64
  let min := if gen = src.min then conductor else src.min
  let d0 := copy_decs src.decs
  let start_block := gen >>> 4
  let decal := gen &&& 0xF
  let b0 ← nth_block src.decs 0
  let sh ← shift16.get? decal
  let d1 ← sub_clamp d0 start_block (shuffle_epi8 b0 sh)
  let d2 ← unrolled_switch src.decs start_block decal d1
  -- assert(dst.decs[dst.conductor-1] == 0);
  let w ← byte_at d2 ((conductor + U64 - 1) % U64)
  if w ≠ 0 then none else
  some { decs := d2, conductor := conductor, min := min, genus := genus }

/-- The bytes of `dst.decs` that the specification gives for
`remove_generator(dst, src, g)`: below `g` the byte of `src`, from `g` on the
byte of `src` minus one (as a byte) where `i - g` is an element of `src`. -/
def removed_decs (d : List Nat) (g : Nat) : List Nat :=
  (List.range SIZE).map (fun i =>
    if i < g then d.getD i 0
    else (d.getD i 0 + 256 - (if d.getD (i - g) 0 = 0 then 0 else 1)) % 256)

/-! ## Generator iterator -/

/-- The class `generator_iter`, without its reference `m`: every operation
takes the monoid referred to as an argument. -/
structure generator_iter where
  /-- Field `iblock`. -/
  iblock : Nat
  /-- Field `mask`. -/
  mask : Nat
  /-- Field `gen`. -/
  gen : Nat
  /-- Field `bound`. -/
  bound : Nat
deriving DecidableEq, Repr

/-- The constructor of `generator_iter`: `bound((mon.conductor+mon.min+15) >> 4)`. -/
def iter_bound (mon : monoid) : Nat := ((mon.conductor + mon.min + 15) % U64) >>> 4

/-- The function `generator_iter::all_count`. -/
def all_count (m : monoid) : Option generator_iter := do
  let block ← nth_block m.decs 0
  let mask := movemask_epi8 (cmpeq_epi8 block block1)
  some { iblock := 1, mask := mask &&& 0xFE, gen := U64 - 1, bound := iter_bound m }

/-- The function `generator_iter::children_count`. -/
def children_count (m : monoid) : Option generator_iter := do
  let iblock := m.conductor >>> 4
  let b ← nth_block m.decs iblock
  let mk ← mask16.get? (m.conductor &&& 0xF)
  let mask := movemask_epi8 (cmpeq_epi8 (and_epi8 b mk) block1)
  some { iblock := (iblock + 1) % U64, mask := mask,
         gen := ((iblock <<< 4) % U64 + U64 - 1) % U64, bound := iter_bound m }

/-- The `while (!mask)` loop of `operator++` followed by the three statements
after it; `fuel` bounds the number of loop tests. -/
def operator_inc_loop (m : monoid) : Nat → generator_iter → Option generator_iter
  | 0, _ => none
  | fuel + 1, it =>
    if it.mask = 0 then
      if it.iblock > it.bound then some it
      else do
        let block ← nth_block m.decs it.iblock
        operator_inc_loop m fuel
          { iblock := (it.iblock + 1) % U64,
            mask := movemask_epi8 (cmpeq_epi8 block block1),
            gen := ((it.iblock <<< 4) % U64 + U64 - 1) % U64,
            bound := it.bound }
    else
      let shift := bsfd it.mask + 1
      some { iblock := it.iblock, mask := it.mask >>> shift,
             gen := (it.gen + shift) % U64, bound := it.bound }

/-- The function `generator_iter::operator++`.  Every pass of the loop
increases `iblock`, which leaves the loop once above `bound`, so
`bound + 1 - iblock + 1` tests are enough. -/
def operator_inc (m : monoid) (it : generator_iter) : Option generator_iter :=
  operator_inc_loop m (it.bound + 1 - it.iblock + 1) it

/-- The function `generator_iter::all`. -/
def all (m : monoid) : Option generator_iter := do
  let it ← all_count m
  operator_inc m it

/-- The function `generator_iter::children`. -/
def children (m : monoid) : Option generator_iter := do
  let it ← children_count m
  operator_inc m it

/-- The loop of `count()`; `nbr` is an `unsigned char`. -/
def count_loop (m : monoid) (bound : Nat) : Nat → Nat → Nat → Option Nat
  | 0, _, _ => none
  | fuel + 1, iblock, nbr =>
    if iblock ≤ bound then do
      let block ← nth_block m.decs iblock
      count_loop m bound fuel ((iblock + 1) % U64)
        ((nbr + popcnt_u32 (movemask_epi8 (cmpeq_epi8 block block1))) % 256)
    else some nbr

/-- The function `generator_iter::count`. -/
def count (m : monoid) (it : generator_iter) : Option Nat :=
  count_loop m it.bound (it.bound + 1 - it.iblock + 1) it.iblock (popcnt_u32 it.mask % 256)

/-- The function `generator_iter::is_finished`. -/
def is_finished (it : generator_iter) : Bool := it.iblock > it.bound

/-- The function `generator_iter::get_gen`. -/
def get_gen (it : generator_iter) : Nat := it.gen

/-- The values of `get_gen()` seen by the body of
`for (it = ..; not it.is_finished(); ++it)`, in order, from the iterator `it`. -/
def visited : monoid → Nat → generator_iter → Option (List Nat)
  | _, 0, _ => none
  | m, fuel + 1, it =>
    if is_finished it then some []
    else do
      let it1 ← operator_inc m it
      let rest ← visited m fuel it1
      some (get_gen it :: rest)

/-- The values of `get_gen()` in `for (it = children(m); not it.is_finished(); ++it)`.
An iterator yields at most 16 generators from each of the `NBLOCKS` blocks. -/
def children_visited (m : monoid) : Option (List Nat) := do
  let it ← children m
  visited m (SIZE + 1) it

/-- The values of `get_gen()` in `for (it = all(m); not it.is_finished(); ++it)`. -/
def all_visited (m : monoid) : Option (List Nat) := do
  let it ← all m
  visited m (SIZE + 1) it

/-! ## Results -/

/-- The statement `res[i] += v` on the array `Results::type` of `MAX_GENUS`
counters of type `unsigned long`. -/
def res_add (res : List Nat) (i v : Nat) : Option (List Nat) :=
  if i < MAX_GENUS ∧ i < res.length then some (res.set i ((res.getD i 0 + v) % U64)) else none

/-- The constructor `Results()`: all counters zero. -/
def Results : List Nat := List.replicate MAX_GENUS 0

/-! ## Sequential sub-walker -/

/-- Memory of `walk_children_stack`.  A pointer to a monoid is the number of
its slot: slot `0` is the parameter `m`, slot `i + 1` is `data[i]`; a slot
never written holds `none`. -/
structure walk_state where
  /-- The monoids `m` and `data[0 .. STACK_SIZE-2]`. -/
  slots : List (Option monoid)
  /-- The array `stack` of `STACK_SIZE` pointers. -/
  stack : List Nat
  /-- The variable `stack_pointer`. -/
  stack_pointer : Nat
  /-- The array `res`. -/
  res : List Nat
deriving DecidableEq, Repr

/-- Read `stack[i]`; `none` outside the array. -/
def stack_at (stack : List Nat) (i : Nat) : Option Nat :=
  if i < STACK_SIZE then stack.get? i else none

/-- Write `stack[i] = p`; `none` outside the array. -/
def stack_set (stack : List Nat) (i p : Nat) : Option (List Nat) :=
  if i < STACK_SIZE ∧ i < stack.length then some (stack.set i p) else none

/-- Read the monoid `*p`; `none` when the slot was never written. -/
def slot_at (slots : List (Option monoid)) (p : Nat) : Option monoid :=
  (slots.get? p).join

/-- Write the monoid `*p`. -/
def slot_set (slots : List (Option monoid)) (p : Nat) (m : monoid) :
    Option (List (Option monoid)) :=
  if p < slots.length then some (slots.set p (some m)) else none

/-- The `for` loop of `walk_children_stack` over `children(*current)`, from
the iterator `it`; returns the memory and `nbr`.  The two arguments of
`remove_generator` are `__restrict__`: equal pointers give `none`. -/
def walk_for (current : Nat) : Nat → generator_iter → walk_state → Nat →
    Option (walk_state × Nat)
  | 0, _, _, _ => none
  | fuel + 1, it, st, nbr =>
    if is_finished it then some (st, nbr)
    else do
      -- stack[stack_pointer] = stack[stack_pointer+1];
      let top ← stack_at st.stack ((st.stack_pointer + 1) % U64)
      let stack1 ← stack_set st.stack st.stack_pointer top
      -- remove_generator(*stack[stack_pointer], *current, it.get_gen());
      let src ← slot_at st.slots current
      let dst ← if top = current then none else remove_generator src (get_gen it)
      let slots1 ← slot_set st.slots top dst
      -- ++it
      let cur ← slot_at slots1 current
      let it1 ← operator_inc cur it
      walk_for current fuel it1
        { slots := slots1, stack := stack1,
          stack_pointer := (st.stack_pointer + 1) % U64, res := st.res }
        ((nbr + 1) % U64)

/-- The `while (stack_pointer)` loop of `walk_children_stack`; `fuel` bounds
the number of passes. -/
def walk_while (bound : Nat) : Nat → walk_state → Option (List Nat)
  | 0, _ => none
  | fuel + 1, st =>
    if st.stack_pointer = 0 then some st.res
    else
      let sp := st.stack_pointer - 1
      match stack_at st.stack sp with
      | none => none
      | some current =>
        match slot_at st.slots current with
        | none => none
        | some cur =>
          if cur.genus < (bound + U64 - 1) % U64 then
            match children cur with
            | none => none
            | some it =>
              match walk_for current (SIZE + 1) it
                  { slots := st.slots, stack := st.stack, stack_pointer := sp, res := st.res } 0 with
              | none => none
              | some (st1, nbr) =>
                -- stack[stack_pointer] = current; res[current->genus] += nbr;
                match stack_set st1.stack st1.stack_pointer current,
                    slot_at st1.slots current with
                | some stack2, some cur2 =>
                  match res_add st1.res cur2.genus nbr with
                  | none => none
                  | some res2 =>
                    walk_while bound fuel
                      { slots := st1.slots, stack := stack2,
                        stack_pointer := st1.stack_pointer, res := res2 }
                | _, _ => none
          else
            -- res[current->genus] += generator_iter::children_count(*current).count();
            match (children_count cur).bind (count cur) with
            | none => none
            | some c =>
              match res_add st.res cur.genus c with
              | none => none
              | some res2 =>
                walk_while bound fuel
                  { slots := st.slots, stack := st.stack, stack_pointer := sp, res := res2 }

/-- The function `walk_children_stack(m, bound)`, run on the results `res`;
returns the results after the call. -/
def walk_children_stack (fuel : Nat) (m : monoid) (bound : Nat) (res : List Nat) :
    Option (List Nat) :=
  walk_while bound fuel
    { slots := some m :: List.replicate (STACK_SIZE - 1) none,
      stack := List.range STACK_SIZE, stack_pointer := 1, res := res }

/-! ## Parallel walker

`cilk_spawn` is modelled by its serial elision; the reducer `cilk_results`
sums the contributions of the spawned calls element-wise, which is what
threading one results array through the calls computes. -/

/-- The `for` loop of `walk_children` over `children(m)`, from the iterator
`it`; `walk` is the recursive call `walk_children`. -/
def spawn_for (walk : monoid → List Nat → Option (List Nat)) (m : monoid) :
    Nat → generator_iter → List Nat → Nat → Option (List Nat × Nat)
  | 0, _, _, _ => none
  | fuel + 1, it, res, nbr =>
    if is_finished it then some (res, nbr)
    else do
      -- cilk_spawn walk_children(remove_generator(m, it.get_gen()));
      let child ← remove_generator m (get_gen it)
      let res1 ← walk child res
      let it1 ← operator_inc m it
      spawn_for walk m fuel it1 res1 ((nbr + 1) % U64)

/-- The function `walk_children(m)` for the constants `target_genus = tg` and
`stack_bound = sb`, run on the results `res`; `fuel` bounds the depth of
the recursion and the passes of each sequential sub-walk. -/
def walk_children (tg sb : Nat) : Nat → monoid → List Nat → Option (List Nat)
  | 0, _, _ => none
  | fuel + 1, m, res =>
    if m.genus < (tg + U64 - sb % U64) % U64 then
      match children m with
      | none => none
      | some it =>
        match spawn_for (walk_children tg sb fuel) m (SIZE + 1) it res 0 with
        | none => none
        | some (res1, nbr) => res_add res1 m.genus nbr
    else walk_children_stack fuel m tg res

/-- The function `main` for the constants `target_genus = tg` and
`stack_bound = sb`, returning the array `cilk_results` it prints:
`init_full_N(N); N1 = remove_generator(N, 1); cilk_results[0]++;
cilk_spawn walk_children(N1); cilk_sync;`. -/
def root_walk (tg sb fuel : Nat) : Option (List Nat) :=
  match remove_generator init_full_N 1 with
  | none => none
  | some N1 =>
    match res_add Results 0 1 with
    | none => none
    | some res => walk_children tg sb fuel N1 res

/-- The function `main`, returning the array `cilk_results` it prints. -/
def main (fuel : Nat) : Option (List Nat) :=
  root_walk target_genus stack_bound fuel

/-! ## The monoids the walk observes, and the reference counts -/

/-- The monoids observed by the walk: the root `N` written by `init_full_N`
and, from an observed monoid `m`, the child `remove_generator(m, g)` for a
generator `g ≥ m.conductor` (the call returns only if `g < SIZE` and
`m.decs[g] = 1`). -/
inductive reachable : monoid → Prop
  | root : reachable init_full_N
  | child (m dst : monoid) (g : Nat) : reachable m → m.conductor ≤ g →
      remove_generator m g = some dst → reachable dst

/-- The monoids derived from the root by at least one child removal. -/
inductive derived : monoid → Prop
  | child (m dst : monoid) (g : Nat) : reachable m → m.conductor ≤ g →
      remove_generator m g = some dst → derived dst

/-- The monoid `N1 = remove_generator(N, 1)` of `main`, as the bytes and
scalars the specification gives. -/
def N1 : monoid :=
  { decs := removed_decs init_full_N.decs 1, conductor := 2, min := 2, genus := 1 }

/-- The monoid reached from `N` by removing `1, 2, .., n` in turn: `{0, n+1, n+2, ..}`. -/
def ordinary : Nat → Option monoid
  | 0 => some init_full_N
  | n + 1 => (ordinary n).bind (fun m => remove_generator m (n + 1))

/-- A struct with `decs[5] = 1` and every other byte `0`: index `5` passes the
opening `assert` of `remove_generator`, and `decs[0] = 0`. -/
def lone_five : monoid :=
  { decs := [0, 0, 0, 0, 0, 1] ++ List.replicate 122 0, conductor := 6, min := 5, genus := 0 }

/-- The root `N` with its `genus` field set to the largest `unsigned long`. -/
def full_genus : monoid :=
  { decs := init_full_N.decs, conductor := 1, min := 1, genus := U64 - 1 }

/-- Slow reference: the number of unordered pairs `{a, b}`, `a ≤ b`,
`a + b = i`, of elements of the monoid with bytes `d` (an index is an
element when its byte is not zero). -/
def pair_count (d : List Nat) (i : Nat) : Nat :=
  (List.range (i / 2 + 1)).countP (fun a => decide (d.getD a 0 ≠ 0 ∧ d.getD (i - a) 0 ≠ 0))

/-- The number of gaps below the conductor: indices `i` in `[1, conductor)`
with `decs[i] = 0`. -/
def gap_count (m : monoid) : Nat :=
  (List.range m.conductor).countP (fun i => decide (1 ≤ i ∧ m.decs.getD i 0 = 0))

/-- The list of children generators: indices `i ≥ conductor` of the array with `decs[i] = 1`,
in increasing order. -/
def child_gens (m : monoid) : List Nat :=
  (List.range SIZE).filter (fun i => decide (m.conductor ≤ i ∧ m.decs.getD i 0 = 1))

/-- The list of generators: indices `i > 0` of the array with `decs[i] = 1`, in
increasing order. -/
def all_gens (m : monoid) : List Nat :=
  (List.range SIZE).filter (fun i => decide (0 < i ∧ m.decs.getD i 0 = 1))

/-- The mask with bit `t` set exactly when `P (pos + t)`, for `t < n`. -/
def bits (P : Nat → Bool) (pos : Nat) : Nat → Nat
  | 0 => 0
  | n + 1 => (if P pos then 1 else 0) + 2 * bits P (pos + 1) n

/-- The invariant of an iterator over the indices `k` with `P k`: the next
index to examine is `pos`, and `mask` holds the indices from `pos` to the
end of block `iblock - 1`. -/
structure IterInv (P : Nat → Bool) (m : monoid) (it : generator_iter) (pos : Nat) : Prop where
  /-- `gen` is `pos - 1` as an `unsigned long`. -/
  gen_eq : it.gen = (pos + U64 - 1) % U64
  /-- A block has been loaded. -/
  blk_pos : 1 ≤ it.iblock
  /-- `pos` is at most the end of the loaded block. -/
  pos_le : pos ≤ 16 * it.iblock
  /-- `pos` is in the loaded block or at its end. -/
  pos_ge : 16 * (it.iblock - 1) ≤ pos
  /-- The bits of `mask`. -/
  mask_eq : it.mask = bits P pos (16 * it.iblock - pos)
  /-- `iblock` is at most one above `bound`. -/
  blk_le : it.iblock ≤ it.bound + 1
  /-- `bound` is a block of the array. -/
  bound_le : it.bound ≤ 7
  /-- The array has `SIZE` bytes. -/
  len : m.decs.length = 128
  /-- In the blocks still to load, `P` is `decs[k] = 1`. -/
  later : ∀ k, 16 * it.iblock ≤ k → P k = decide (m.decs.getD k 0 = 1)

/-- The invariant of the observed monoids. -/
structure Inv (m : monoid) : Prop where
  /-- The struct holds `SIZE` bytes and three `unsigned long`. -/
  wf : m.wf
  /-- `decs[0] = 1`. -/
  zero : m.decs.getD 0 0 = 1
  /-- The conductor is positive. -/
  cond_pos : 1 ≤ m.conductor
  /-- The conductor is at most `SIZE`. -/
  cond_le : m.conductor ≤ 128
  /-- Every index from the conductor on is an element. -/
  above : ∀ i, m.conductor ≤ i → i < 128 → 1 ≤ m.decs.getD i 0
  /-- `min` is positive. -/
  min_pos : 1 ≤ m.min
  /-- `min ≤ conductor`. -/
  min_le : m.min ≤ m.conductor
  /-- No positive index below `min` is an element. -/
  below_min : ∀ i, 1 ≤ i → i < m.min → m.decs.getD i 0 = 0
  /-- `min` is an element when it is an index of the array. -/
  at_min : m.min < 128 → 1 ≤ m.decs.getD m.min 0
  /-- Every byte is the number of decompositions. -/
  pairs : ∀ i, i < 128 → m.decs.getD i 0 = pair_count m.decs i
  /-- `genus` counts the gaps. -/
  genus_eq : m.genus = gap_count m

/-! ## Reference walk -/

/-- The function `ResultsReducer::Monoid::reduce`, returning `left`: the
element-wise sum of two arrays of counters. -/
def reduce (left right : List Nat) : List Nat :=
  List.zipWith (fun a b => (a + b) % U64) left right

/-- Values an array `Results::type` can hold: `MAX_GENUS` counters of type
`unsigned long`. -/
def counters (res : List Nat) : Prop :=
  res.length = MAX_GENUS ∧ ∀ k, res.getD k 0 < U64

/-- Map a fallible function over a list; `none` as soon as one call fails. -/
def all_some {α β : Type} (f : α → Option β) : List α → Option (List β)
  | [] => some []
  | a :: as =>
    match f a with
    | none => none
    | some b =>
      match all_some f as with
      | none => none
      | some bs => some (b :: bs)

/-- Reference for a sub-walk from `m` with genus bound `bound`, as the array
of counters it contributes: a monoid of genus below `bound - 1` counts its
children and adds the contributions of their sub-walks, any other monoid
counts its children; `none` when a step of the code fails on a monoid of
the sub-tree.  `d` bounds the depth. -/
def tree_walk (bound : Nat) : Nat → monoid → Option (List Nat)
  | 0, _ => none
  | d + 1, m =>
    if m.genus < (bound + U64 - 1) % U64 then
      match children_visited m with
      | none => none
      | some gens =>
        match all_some (remove_generator m) gens with
        | none => none
        | some cs =>
          match all_some (tree_walk bound d) cs with
          | none => none
          | some vs =>
            match res_add Results m.genus (gens.length % U64) with
            | none => none
            | some u => some (vs.foldl reduce u)
    else
      match (children_count m).bind (count m) with
      | none => none
      | some c => res_add Results m.genus c

/-- The body of the `for` loop of `walk_children`, run for the generators `gens`. -/
def spawn_list (walk : monoid → List Nat → Option (List Nat)) (m : monoid) :
    List Nat → List Nat → Nat → Option (List Nat × Nat)
  | [], res, nbr => some (res, nbr)
  | g :: gs, res, nbr =>
    match remove_generator m g with
    | none => none
    | some child =>
      match walk child res with
      | none => none
      | some res1 => spawn_list walk m gs res1 ((nbr + 1) % U64)

/-- The body of the `for` loop of `walk_children_stack`, run for the generators
`gens` of the monoid `src` in slot `current`. -/
def push_list (current : Nat) (src : monoid) : List Nat → walk_state → Nat →
    Option (walk_state × Nat)
  | [], st, nbr => some (st, nbr)
  | g :: gs, st, nbr =>
    match stack_at st.stack ((st.stack_pointer + 1) % U64) with
    | none => none
    | some top =>
      match stack_set st.stack st.stack_pointer top with
      | none => none
      | some stack1 =>
        match (if top = current then none else remove_generator src g) with
        | none => none
        | some dst =>
          match slot_set st.slots top dst with
          | none => none
          | some slots1 =>
            push_list current src gs
              { slots := slots1, stack := stack1,
                stack_pointer := (st.stack_pointer + 1) % U64, res := st.res }
              ((nbr + 1) % U64)

/-- The memory of `walk_children_stack` at the top of its `while` loop holds the
frames `F`, bottom first: the `STACK_SIZE` pointers of `stack` are distinct
slots, and the first `stack_pointer` of them point to the monoids of `F`. -/
structure Frames (st : walk_state) (F : List monoid) : Prop where
  /-- The array `stack` has `STACK_SIZE` entries. -/
  stack_len : st.stack.length = 50
  /-- There are `STACK_SIZE` slots. -/
  slots_len : st.slots.length = 50
  /-- Every pointer is a slot. -/
  ptr_lt : ∀ i, i < 50 → st.stack.getD i 0 < 50
  /-- The pointers are pairwise distinct. -/
  inj : ∀ i j, i < 50 → j < 50 → i ≠ j → st.stack.getD i 0 ≠ st.stack.getD j 0
  /-- The frames fit the stack. -/
  len_le : F.length ≤ 50
  /-- `stack_pointer` is the number of frames. -/
  sp_eq : st.stack_pointer = F.length
  /-- The pointers below `stack_pointer` point to the frames. -/
  frame : ∀ i f, F.get? i = some f → slot_at st.slots (st.stack.getD i 0) = some f

/-- The memory of `walk_children_stack` inside its `for` loop over the
children of the monoid `m` in slot `current`, with the frames `F` below it
and the children `cs` pushed so far: the entry at `stack_pointer` is the one
being overwritten, every other pointer is distinct from the others and from
`current`. -/
structure Pushing (st : walk_state) (F : List monoid) (current : Nat) (m : monoid)
    (cs : List monoid) : Prop where
  /-- The array `stack` has `STACK_SIZE` entries. -/
  stack_len : st.stack.length = 50
  /-- There are `STACK_SIZE` slots. -/
  slots_len : st.slots.length = 50
  /-- Every pointer is a slot. -/
  ptr_lt : ∀ i, i < 50 → st.stack.getD i 0 < 50
  /-- The pointer `current` is a slot. -/
  cur_lt : current < 50
  /-- `stack_pointer` counts the frames and the children pushed. -/
  sp_eq : st.stack_pointer = F.length + cs.length
  /-- `stack_pointer` is an index of `stack`. -/
  sp_lt : st.stack_pointer < 50
  /-- The pointers other than the one at `stack_pointer` are pairwise distinct. -/
  inj : ∀ i j, i < 50 → j < 50 → i ≠ st.stack_pointer → j ≠ st.stack_pointer → i ≠ j →
    st.stack.getD i 0 ≠ st.stack.getD j 0
  /-- The pointers other than the one at `stack_pointer` differ from `current`. -/
  cur_fresh : ∀ i, i < 50 → i ≠ st.stack_pointer → st.stack.getD i 0 ≠ current
  /-- The slot `current` holds `m`. -/
  cur_slot : slot_at st.slots current = some m
  /-- The pointers below `stack_pointer` point to the frames and the children. -/
  frame : ∀ i f, (F ++ cs).get? i = some f → slot_at st.slots (st.stack.getD i 0) = some f

/-- The sub-walk from `m`, entered with `base` frames below it, stays inside
the array `stack`: a monoid that is expanded has its children pushed at
`base .. base + k - 1` and itself stored at `base + k`, and the sub-walk of
each child fits above the children pushed before it. -/
def fits (bound : Nat) : Nat → Nat → monoid → Prop
  | 0, _, _ => True
  | d + 1, base, m =>
    m.genus < (bound + U64 - 1) % U64 →
      base + (child_gens m).length ≤ 49 ∧
        ∀ l1 x l2 c, child_gens m = l1 ++ x :: l2 → remove_generator m x = some c →
          fits bound d (base + l1.length) c

/-- The outcome `o` of a loop run with fuel: what every large enough fuel gives. -/
def eventually {α : Type} (run : Nat → Option α) (o : Option α) : Prop :=
  ∃ n, ∀ fuel, n ≤ fuel → run fuel = o

/-! ## The tree of children and numerical monoids -/

/-- The children of `m` in the tree: `remove_generator(m, g)` for the children
generators `g` of `m`, in increasing order of `g`. -/
def children_of (m : monoid) : List monoid :=
  (child_gens m).filterMap (remove_generator m)

/-- The descendants of `m` at depth `t` in the tree of children, `m` itself at
depth `0`. -/
def level : Nat → monoid → List monoid
  | 0, m => [m]
  | t + 1, m => (children_of m).flatMap (level t)

/-- The gaps of `m`: the indices below the conductor whose byte is zero. -/
def gapset (m : monoid) : Finset ℕ :=
  (Finset.range m.conductor).filter (fun i => m.decs.getD i 0 = 0)

/-- Numerical monoids of genus `g`, each given by its set of gaps `s`: the
complement of `s` in the natural numbers contains `0` and is closed under
addition, and `s` has `g` elements. -/
def is_gap_set (s : Finset ℕ) (g : ℕ) : Prop :=
  s.card = g ∧ 0 ∉ s ∧ ∀ a b, a ∉ s → b ∉ s → a + b ∉ s

/-- The conductor is sharp: it is `1`, or the index below it is a gap. -/
def sharp (m : monoid) : Prop :=
  m.conductor = 1 ∨ m.decs.getD (m.conductor - 1) 0 = 0

/-! ## The loop of `remove_generator` that is not unrolled -/

/-- The `for` loop that `remove_generator` compiles when `NBLOCKS < 5`
("Loop not unrolled"), from block `i` on:
`for (i=start_block+1; i<NBLOCKS; i++) { block = load_unaligned_epi8(src.decs +
((i-start_block)<<4) - decal); nth_block(dst, i) -= ((block != zero) & block1); }`.
A pointer before `src.decs` gives `none`; `fuel` bounds the number of tests. -/
def plain_loop (src : List Nat) (start_block decal : Nat) :
    Nat → Nat → List Nat → Option (List Nat)
  | 0, _, _ => none
  | fuel + 1, i, dst =>
    if i < NBLOCKS then
      if decal ≤ ((i - start_block) <<< 4) then do
        let block ← load_unaligned_epi8 src (((i - start_block) <<< 4) - decal)
        let dst1 ← sub_clamp dst i block
        plain_loop src start_block decal fuel ((i + 1) % U64) dst1
      else none
    else some dst

/-- The loop above as a statement: `i` starts at `start_block + 1`, and
`NBLOCKS + 1` tests are enough. -/
def plain_loop_stmt (src : List Nat) (start_block decal : Nat) (dst : List Nat) :
    Option (List Nat) :=
  plain_loop src start_block decal (NBLOCKS + 1) ((start_block + 1) % U64) dst

/-! ## The loops of `walk_children_stack`, pass by pass -/

/-- The memory of `walk_children_stack(m, bound)` when its `while` loop is
entered: `stack[0] = &m`, `stack[i] = &data[i-1]`, `stack_pointer = 1`. -/
def walk_init (m : monoid) (res : List Nat) : walk_state :=
  { slots := some m :: List.replicate (STACK_SIZE - 1) none,
    stack := List.range STACK_SIZE, stack_pointer := 1, res := res }

/-- One pass of the `for` loop of `walk_children_stack`, on an iterator that is
not finished: `stack[stack_pointer] = stack[stack_pointer+1];
remove_generator(*stack[stack_pointer], *current, it.get_gen());
stack_pointer++; nbr++;` and `++it`. -/
def for_body (current : Nat) (it : generator_iter) (st : walk_state) (nbr : Nat) :
    Option (generator_iter × walk_state × Nat) :=
  match stack_at st.stack ((st.stack_pointer + 1) % U64) with
  | none => none
  | some top =>
    match stack_set st.stack st.stack_pointer top with
    | none => none
    | some stack1 =>
      match slot_at st.slots current with
      | none => none
      | some src =>
        match (if top = current then none else remove_generator src (get_gen it)) with
        | none => none
        | some dst =>
          match slot_set st.slots top dst with
          | none => none
          | some slots1 =>
            match slot_at slots1 current with
            | none => none
            | some cur =>
              match operator_inc cur it with
              | none => none
              | some it1 =>
                some (it1,
                  { slots := slots1, stack := stack1,
                    stack_pointer := (st.stack_pointer + 1) % U64, res := st.res },
                  (nbr + 1) % U64)

/-- One pass of the `while` loop of `walk_children_stack`, on a memory with
`stack_pointer != 0`. -/
def while_body (bound : Nat) (st : walk_state) : Option walk_state :=
  match stack_at st.stack (st.stack_pointer - 1) with
  | none => none
  | some current =>
    match slot_at st.slots current with
    | none => none
    | some cur =>
      if cur.genus < (bound + U64 - 1) % U64 then
        match children cur with
        | none => none
        | some it =>
          match walk_for current (SIZE + 1) it
              { slots := st.slots, stack := st.stack, stack_pointer := st.stack_pointer - 1,
                res := st.res } 0 with
          | none => none
          | some (st1, nbr) =>
            match stack_set st1.stack st1.stack_pointer current,
                slot_at st1.slots current with
            | some stack2, some cur2 =>
              match res_add st1.res cur2.genus nbr with
              | none => none
              | some res2 =>
                some { slots := st1.slots, stack := stack2,
                       stack_pointer := st1.stack_pointer, res := res2 }
            | _, _ => none
      else
        match (children_count cur).bind (count cur) with
        | none => none
        | some c =>
          match res_add st.res cur.genus c with
          | none => none
          | some res2 =>
            some { slots := st.slots, stack := st.stack,
                   stack_pointer := st.stack_pointer - 1, res := res2 }

/-- The memories at the test of the `while` loop, from the memory `st0`. -/
inductive while_reach (bound : Nat) (st0 : walk_state) : walk_state → Prop
  | start : while_reach bound st0 st0
  | step (st st1 : walk_state) : while_reach bound st0 st → st.stack_pointer ≠ 0 →
      while_body bound st = some st1 → while_reach bound st0 st1

/-- The iterators, memories and values of `nbr` at the test of the `for` loop,
from the iterator `it0` and the memory `st0`. -/
inductive for_reach (current : Nat) (it0 : generator_iter) (st0 : walk_state) :
    generator_iter → walk_state → Nat → Prop
  | start : for_reach current it0 st0 it0 st0 0
  | step (it : generator_iter) (st : walk_state) (nbr : Nat) (it1 : generator_iter)
      (st1 : walk_state) (nbr1 : Nat) : for_reach current it0 st0 it st nbr →
      is_finished it = false → for_body current it st nbr = some (it1, st1, nbr1) →
      for_reach current it0 st0 it1 st1 nbr1

/-- The iterators and memories at the test of the `for` loop during
`walk_children_stack(m, bound)` run on the results `res`: the `while` loop has
reached a memory `stw`, popped `current`, found its genus below `bound - 1`
and built the iterator `children(*current)`. -/
def for_state (bound : Nat) (m : monoid) (res : List Nat) (current : Nat)
    (it : generator_iter) (st : walk_state) (nbr : Nat) : Prop :=
  ∃ stw cur it0, while_reach bound (walk_init m res) stw ∧ stw.stack_pointer ≠ 0 ∧
    stack_at stw.stack (stw.stack_pointer - 1) = some current ∧
    slot_at stw.slots current = some cur ∧ cur.genus < (bound + U64 - 1) % U64 ∧
    children cur = some it0 ∧
    for_reach current it0
      { slots := stw.slots, stack := stw.stack, stack_pointer := stw.stack_pointer - 1,
        res := stw.res } it st nbr

/-- An iterator with its `bound` cut to the last block of the array. -/
def clamp (it : generator_iter) : generator_iter :=
  { iblock := it.iblock, mask := it.mask, gen := it.gen, bound := min it.bound 7 }

/-- The children pushed so far by the `for` loop over the children of `m`, at
the test of the loop: `cs` are the children by the first generators of
`child_gens m`, and an iterator that is not finished stands on the next one. -/
structure Pushed (m : monoid) (it : generator_iter) (cs : List monoid) : Prop where
  /-- The field `bound` is the one computed from `m`. -/
  bound_eq : it.bound = iter_bound m
  /-- The children pushed and the generator the iterator stands on. -/
  kids : ∃ l1 l2, child_gens m = l1 ++ l2 ∧ all_some (remove_generator m) l1 = some cs ∧
    (is_finished it = false → ∃ l3, l2 = it.gen :: l3)
  /-- The state of an iterator that is not finished. -/
  inv : is_finished it = false →
    IterInv (fun k => decide (m.conductor ≤ k ∧ m.decs.getD k 0 = 1)) m (clamp it) (it.gen + 1)

/-- The frames of the stack at the test of the `while` loop: every frame is an
observed monoid whose sub-walk fits the part of the stack above it. -/
def Counted (bound : Nat) (st : walk_state) (F : List monoid) : Prop :=
  Frames st F ∧
    ∀ F1 c F2, F = F1 ++ c :: F2 → Inv c ∧ ∀ d, fits bound d F1.length c

/-! # Proofs -/

/-! ## Constants evaluated -/

theorem NBLOCKS_eq : NBLOCKS = 8 := by decide

theorem SIZE_eq : SIZE = 128 := by decide

theorem unroll_cases_eq : unroll_cases = 7 := by decide

theorem U64_eq : U64 = 18446744073709551616 := by decide

/-! ## Reading lists -/

theorem getD_take_drop (st : List Nat) (a j : Nat) (hj : j < 16) :
    ((st.drop a).take 16).getD j 0 = st.getD (a + j) 0 := by
  simp [List.getD_eq_getElem?_getD, List.getElem?_take, hj]

theorem length_take_drop (st : List Nat) (a : Nat) (h : a + 16 ≤ st.length) :
    ((st.drop a).take 16).length = 16 := by
  simp; omega

theorem getD_splice (st b : List Nat) (a k : Nat) (ha : a + 16 ≤ st.length)
    (hb : b.length = 16) :
    (st.take a ++ b ++ st.drop (a + 16)).getD k 0 =
      if a ≤ k ∧ k < a + 16 then b.getD (k - a) 0 else st.getD k 0 := by
  have hta : (st.take a).length = a := by simp; omega
  by_cases h1 : k < a
  · have : ¬ (a ≤ k ∧ k < a + 16) := by omega
    rw [if_neg this]; simp only [List.getD_eq_getElem?_getD]
    rw [List.append_assoc, List.getElem?_append_left (by omega)]
    simp [List.getElem?_take, h1]
  · by_cases h2 : k < a + 16
    · have : (a ≤ k ∧ k < a + 16) := by omega
      rw [if_pos this]; simp only [List.getD_eq_getElem?_getD]
      rw [List.append_assoc, List.getElem?_append_right (by omega), hta,
        List.getElem?_append_left (by omega)]
    · have : ¬ (a ≤ k ∧ k < a + 16) := by omega
      rw [if_neg this]; simp only [List.getD_eq_getElem?_getD]
      rw [List.getElem?_append_right (by simp; omega)]
      simp only [List.length_append, hta, hb, List.getElem?_drop]
      congr 2; omega

theorem length_splice (st b : List Nat) (a : Nat) (ha : a + 16 ≤ st.length)
    (hb : b.length = 16) :
    (st.take a ++ b ++ st.drop (a + 16)).length = st.length := by
  simp; omega

theorem getD_zipWith16 (f : Nat → Nat → Nat) (a b : List Nat) (j : Nat)
    (ha : a.length = 16) (hb : b.length = 16) (hj : j < 16) :
    (List.zipWith f a b).getD j 0 = f (a.getD j 0) (b.getD j 0) := by
  have h1 : j < a.length := by omega
  have h2 : j < b.length := by omega
  simp [List.getD_eq_getElem?_getD, List.getElem?_zipWith, List.getElem?_eq_getElem, h1, h2]

theorem getD_clamp (s : List Nat) (j : Nat) (hs : s.length = 16) (hj : j < 16) :
    (and_epi8 (cmpneq_epi8 s zero) block1).getD j 0 = if s.getD j 0 = 0 then 0 else 1 := by
  unfold and_epi8 cmpneq_epi8
  rw [getD_zipWith16 _ _ _ _ (by simp [hs, zero]) (by simp [block1]) hj,
    getD_zipWith16 _ _ _ _ hs (by simp [zero]) hj]
  have hz : zero.getD j 0 = 0 := by
    unfold zero; interval_cases j <;> rfl
  have ho : block1.getD j 0 = 1 := by
    unfold block1; interval_cases j <;> rfl
  rw [hz, ho]
  split <;> simp

theorem length_clamp (s : List Nat) (hs : s.length = 16) :
    (and_epi8 (cmpneq_epi8 s zero) block1).length = 16 := by
  simp [and_epi8, cmpneq_epi8, hs, zero, block1]

theorem sub_clamp_spec (dst block : List Nat) (i : Nat) (hd : dst.length = 128)
    (hb : block.length = 16) (hi : i < 8) :
    ∃ r, sub_clamp dst i block = some r ∧ r.length = 128 ∧
      ∀ k, r.getD k 0 =
        if 16 * i ≤ k ∧ k < 16 * i + 16 then
          (dst.getD k 0 + 256 - (if block.getD (k - 16 * i) 0 = 0 then 0 else 1)) % 256
        else dst.getD k 0 := by
  have hi4 : i <<< 4 = 16 * i := by rw [Nat.shiftLeft_eq]; omega
  have hlt : i < NBLOCKS := by rw [NBLOCKS_eq]; exact hi
  have hlen : ((dst.drop (16 * i)).take 16).length = 16 :=
    length_take_drop _ _ (by omega)
  refine ⟨dst.take (16 * i) ++ sub_epi8 ((dst.drop (16 * i)).take 16)
      (and_epi8 (cmpneq_epi8 block zero) block1) ++ dst.drop (16 * i + 16), ?_, ?_, ?_⟩
  · simp only [sub_clamp, nth_block, set_block, hlt, if_true, hi4, Option.bind_eq_bind,
      Option.some_bind]
  · rw [length_splice _ _ _ (by omega)]
    · exact hd
    · simp [sub_epi8, hlen, length_clamp _ hb]
  · intro k
    rw [getD_splice _ _ _ _ (by omega) (by simp [sub_epi8, hlen, length_clamp _ hb])]
    split
    · rename_i h
      unfold sub_epi8
      rw [getD_zipWith16 _ _ _ _ hlen (length_clamp _ hb) (by omega),
        getD_take_drop _ _ _ (by omega), getD_clamp _ _ hb (by omega)]
      have e : 16 * i + (k - 16 * i) = k := by omega
      rw [e]
    · rfl

theorem copy_decs_loop_eq (src : List Nat) (n i : Nat) (h : 16 * (i + n) = src.length) :
    copy_decs_loop src n i = src.drop (16 * i) := by
  induction n generalizing i with
  | zero =>
    simp only [copy_decs_loop]
    exact (List.drop_eq_nil_of_le (by omega)).symm
  | succ n ih =>
    simp only [copy_decs_loop]
    rw [ih (i + 1) (by omega)]
    have hi4 : i <<< 4 = 16 * i := by rw [Nat.shiftLeft_eq]; omega
    rw [hi4]
    have : List.drop (16 * (i + 1)) src = List.drop 16 (List.drop (16 * i) src) := by
      rw [List.drop_drop]; exact congrArg (fun t => List.drop t src) (by omega)
    rw [this, List.take_append_drop]

theorem copy_decs_eq (src : List Nat) (h : src.length = 128) : copy_decs src = src := by
  unfold copy_decs
  rw [NBLOCKS_eq, copy_decs_loop_eq src 8 0 (by omega)]
  simp

theorem getD_shuffle_shift (a : List Nat) (decal : Nat) (hd : decal < 16) :
    ∃ sh, shift16.get? decal = some sh ∧ sh.length = 16 ∧
      ∀ j, j < 16 →
        (shuffle_epi8 a sh).getD j 0 = if j < decal then 0 else a.getD (j - decal) 0 := by
  interval_cases decal <;> refine ⟨_, rfl, rfl, ?_⟩ <;> intro j hj <;> interval_cases j <;> rfl

theorem length_shuffle (a sh : List Nat) (h : sh.length = 16) :
    (shuffle_epi8 a sh).length = 16 := by
  simp [shuffle_epi8, h]

theorem case_unroll_spec (src : List Nat) (hs : src.length = 128) (n : Nat) :
    ∀ (i_loop srcblock : Nat) (dst : List Nat), dst.length = 128 → i_loop + n ≤ 7 →
      srcblock + 16 * n ≤ 128 →
      ∃ r, case_unroll src n i_loop srcblock dst = some r ∧ r.length = 128 ∧
        ∀ k, r.getD k 0 =
          if 16 * (i_loop + 1) ≤ k ∧ k < 16 * (i_loop + 1 + n) then
            (dst.getD k 0 + 256 -
              (if src.getD (k - 16 * (i_loop + 1) + srcblock) 0 = 0 then 0 else 1)) % 256
          else dst.getD k 0 := by
  induction n with
  | zero =>
    intro i_loop srcblock dst hd _ _
    refine ⟨dst, rfl, hd, ?_⟩
    intro k
    rw [if_neg (by omega)]
  | succ n ih =>
    intro i_loop srcblock dst hd hi hsb
    have hload : load_unaligned_epi8 src srcblock = some ((src.drop srcblock).take 16) := by
      unfold load_unaligned_epi8
      rw [if_pos (by rw [SIZE_eq]; omega)]
    obtain ⟨d1, h1, hl1, hg1⟩ := sub_clamp_spec dst ((src.drop srcblock).take 16) (i_loop + 1) hd
      (length_take_drop _ _ (by omega)) (by omega)
    obtain ⟨r, h2, hl2, hg2⟩ := ih (i_loop + 1) (srcblock + 16) d1 hl1 (by omega) (by omega)
    refine ⟨r, ?_, hl2, ?_⟩
    · simp only [case_unroll, hload, h1, Option.bind_eq_bind, Option.some_bind]
      exact h2
    · intro k
      rw [hg2 k, hg1 k]
      by_cases c1 : 16 * (i_loop + 1) ≤ k ∧ k < 16 * (i_loop + 1) + 16
      · have c2 : ¬ (16 * (i_loop + 1 + 1) ≤ k ∧ k < 16 * (i_loop + 1 + 1 + n)) := by omega
        have c3 : 16 * (i_loop + 1) ≤ k ∧ k < 16 * (i_loop + 1 + (n + 1)) := by omega
        rw [if_neg c2, if_pos c1, if_pos c3, getD_take_drop _ _ _ (by omega)]
        have e : srcblock + (k - 16 * (i_loop + 1)) = k - 16 * (i_loop + 1) + srcblock := by
          omega
        rw [e]
      · by_cases c2 : 16 * (i_loop + 1 + 1) ≤ k ∧ k < 16 * (i_loop + 1 + 1 + n)
        · have c3 : 16 * (i_loop + 1) ≤ k ∧ k < 16 * (i_loop + 1 + (n + 1)) := by omega
          rw [if_pos c2, if_neg c1, if_pos c3]
          have e : k - 16 * (i_loop + 1 + 1) + (srcblock + 16)
              = k - 16 * (i_loop + 1) + srcblock := by omega
          rw [e]
        · have c3 : ¬ (16 * (i_loop + 1) ≤ k ∧ k < 16 * (i_loop + 1 + (n + 1))) := by omega
          rw [if_neg c2, if_neg c1, if_neg c3]

theorem list_ext_getD (a b : List Nat) (h : a.length = b.length)
    (hg : ∀ k, k < a.length → a.getD k 0 = b.getD k 0) : a = b := by
  apply List.ext_getElem h
  intro k h1 h2
  have := hg k h1
  simpa [List.getD_eq_getElem?_getD, List.getElem?_eq_getElem, h1, h2] using this

theorem byte_at_eq (a : List Nat) (i : Nat) (ha : a.length = 128) (hi : i < 128) :
    byte_at a i = some (a.getD i 0) := by
  unfold byte_at
  rw [if_pos (by rw [SIZE_eq]; exact hi)]
  simp [List.getD_eq_getElem?_getD, List.getElem?_eq_getElem, ha, hi]

theorem byte_at_none (a : List Nat) (i : Nat) (hi : 128 ≤ i) : byte_at a i = none := by
  unfold byte_at
  rw [if_neg (by rw [SIZE_eq]; omega)]

theorem length_removed_decs (d : List Nat) (g : Nat) : (removed_decs d g).length = 128 := by
  simp [removed_decs, SIZE_eq]

theorem getD_removed_decs (d : List Nat) (g k : Nat) (hk : k < 128) :
    (removed_decs d g).getD k 0 =
      if k < g then d.getD k 0
      else (d.getD k 0 + 256 - (if d.getD (k - g) 0 = 0 then 0 else 1)) % 256 := by
  simp [removed_decs, SIZE_eq, List.getD_eq_getElem?_getD, List.getElem?_map,
    List.getElem?_range, hk]

/-- The bytes computed by `remove_generator` before its closing `assert`. -/
theorem remove_generator_bytes (src : List Nat) (gen : Nat) (hs : src.length = 128)
    (hbytes : ∀ x ∈ src, x < 256) (hg : gen < 128) :
    ∃ b0 sh d1, nth_block src 0 = some b0 ∧ shift16.get? (gen &&& 0xF) = some sh ∧
      sub_clamp (copy_decs src) (gen >>> 4) (shuffle_epi8 b0 sh) = some d1 ∧
      unrolled_switch src (gen >>> 4) (gen &&& 0xF) d1 = some (removed_decs src gen) := by
  unfold unrolled_switch
  have hsb : gen >>> 4 = gen / 16 := by rw [Nat.shiftRight_eq_div_pow]
  have hdec : gen &&& 0xF = gen % 16 := by
    have := Nat.and_pow_two_sub_one_eq_mod gen 4
    simpa using this
  rw [hsb, hdec, unroll_cases_eq, copy_decs_eq src hs]
  obtain ⟨sh, hsh, hshl, hshg⟩ := getD_shuffle_shift ((src.drop 0).take 16) (gen % 16)
    (Nat.mod_lt _ (by norm_num))
  obtain ⟨d1, h1, hl1, hg1⟩ := sub_clamp_spec src (shuffle_epi8 ((src.drop 0).take 16) sh)
    (gen / 16) hs (length_shuffle _ _ hshl) (by omega)
  refine ⟨(src.drop 0).take 16, sh, d1, ?_, hsh, h1, ?_⟩
  · unfold nth_block
    rw [if_pos (by rw [NBLOCKS_eq]; norm_num)]
    rfl
  have hbyte : ∀ k, k < 128 → src.getD k 0 < 256 := by
    intro k hk
    apply hbytes
    rw [List.getD_eq_getElem?_getD, List.getElem?_eq_getElem (by omega)]
    simp
  -- the head block
  have hhead : ∀ k, k < 128 → d1.getD k 0 =
      if 16 * (gen / 16) ≤ k ∧ k < 16 * (gen / 16) + 16 then
        (if k < gen then src.getD k 0
          else (src.getD k 0 + 256 - (if src.getD (k - gen) 0 = 0 then 0 else 1)) % 256)
      else src.getD k 0 := by
    intro k hk
    rw [hg1 k]
    by_cases c : 16 * (gen / 16) ≤ k ∧ k < 16 * (gen / 16) + 16
    · rw [if_pos c, if_pos c, hshg _ (by omega)]
      by_cases c2 : k < gen
      · have c3 : k - 16 * (gen / 16) < gen % 16 := by omega
        rw [if_pos c2, if_pos c3]
        have := hbyte k hk
        simp only [if_true]
        omega
      · have c3 : ¬ k - 16 * (gen / 16) < gen % 16 := by omega
        rw [if_neg c2, if_neg c3, getD_take_drop _ _ _ (by omega)]
        have e : 0 + (k - 16 * (gen / 16) - gen % 16) = k - gen := by omega
        rw [e]
    · rw [if_neg c, if_neg c]
  by_cases hc : gen / 16 < 7
  · rw [if_pos hc]
    obtain ⟨r, h2, hl2, hg2⟩ := case_unroll_spec src hs (7 - gen / 16) (gen / 16)
      (16 - gen % 16) d1 hl1 (by omega) (by omega)
    rw [h2]
    congr 1
    apply list_ext_getD _ _ (by rw [hl2, length_removed_decs])
    intro k hk
    rw [hl2] at hk
    rw [hg2 k, getD_removed_decs _ _ _ hk, hhead k hk]
    by_cases c : 16 * (gen / 16 + 1) ≤ k ∧ k < 16 * (gen / 16 + 1 + (7 - gen / 16))
    · have c1 : ¬ (16 * (gen / 16) ≤ k ∧ k < 16 * (gen / 16) + 16) := by omega
      have c2 : ¬ k < gen := by omega
      rw [if_pos c, if_neg c1, if_neg c2]
      have e : k - 16 * (gen / 16 + 1) + (16 - gen % 16) = k - gen := by omega
      rw [e]
    · rw [if_neg c]
      by_cases c1 : 16 * (gen / 16) ≤ k ∧ k < 16 * (gen / 16) + 16
      · rw [if_pos c1]
      · have c2 : k < gen := by omega
        rw [if_neg c1, if_pos c2]
  · rw [if_neg hc]
    congr 1
    apply list_ext_getD _ _ (by rw [hl1, length_removed_decs])
    intro k hk
    rw [hl1] at hk
    rw [getD_removed_decs _ _ _ hk, hhead k hk]
    by_cases c1 : 16 * (gen / 16) ≤ k ∧ k < 16 * (gen / 16) + 16
    · rw [if_pos c1]
    · have c2 : k < gen := by omega
      rw [if_neg c1, if_pos c2]

/-- Closed form of `remove_generator` on a well-formed struct. -/
theorem remove_generator_eq (src : monoid) (gen : Nat) (hw : src.wf) :
    remove_generator src gen =
      if gen < 128 ∧ src.decs.getD gen 0 = 1 ∧ src.decs.getD 0 0 ≠ 0 then
        some { decs := removed_decs src.decs gen, conductor := gen + 1,
               min := if gen = src.min then gen + 1 else src.min,
               genus := (src.genus + 1) % U64 }
      else none := by
  obtain ⟨hlen, hbytes, -, -, -⟩ := hw
  rw [SIZE_eq] at hlen
  by_cases hg : gen < 128
  · obtain ⟨b0, sh, d1, hb0, hsh, hd1, hd2⟩ := remove_generator_bytes src.decs gen hlen hbytes hg
    have hc : (gen + 1) % U64 = gen + 1 := Nat.mod_eq_of_lt (by rw [U64_eq]; omega)
    have hc1 : (gen + 1 + U64 - 1) % U64 = gen := by
      have : gen + 1 + U64 - 1 = gen + U64 := by omega
      rw [this, Nat.add_mod_right]
      exact Nat.mod_eq_of_lt (by rw [U64_eq]; omega)
    have hfin : byte_at (removed_decs src.decs gen) gen =
        some ((src.decs.getD gen 0 + 256 - (if src.decs.getD 0 0 = 0 then 0 else 1)) % 256) := by
      rw [byte_at_eq _ _ (length_removed_decs _ _) hg, getD_removed_decs _ _ _ hg,
        if_neg (lt_irrefl _), Nat.sub_self]
    unfold remove_generator
    simp only [Option.bind_eq_bind, byte_at_eq _ _ hlen hg, Option.some_bind, hc, hc1, hb0, hsh,
      hd1, hd2, hfin]
    by_cases h1 : src.decs.getD gen 0 = 1
    · by_cases h0 : src.decs.getD 0 0 = 0
      · have hC : ¬ (gen < 128 ∧ src.decs.getD gen 0 = 1 ∧ src.decs.getD 0 0 ≠ 0) :=
          fun h => h.2.2 h0
        rw [if_neg hC, h1, h0]
        rfl
      · have hC : gen < 128 ∧ src.decs.getD gen 0 = 1 ∧ src.decs.getD 0 0 ≠ 0 := ⟨hg, h1, h0⟩
        rw [if_pos hC, h1, if_neg h0]
        rfl
    · have hC : ¬ (gen < 128 ∧ src.decs.getD gen 0 = 1 ∧ src.decs.getD 0 0 ≠ 0) :=
        fun h => h1 h.2.1
      have h1' : src.decs.getD gen 0 ≠ 1 := h1
      rw [if_neg hC, if_pos h1']
  · unfold remove_generator
    have hC : ¬ (gen < 128 ∧ src.decs.getD gen 0 = 1 ∧ src.decs.getD 0 0 ≠ 0) :=
      fun h => hg h.1
    rw [byte_at_none _ _ (by omega), if_neg hC]
    rfl

/-! ## Counting over ranges -/

theorem countP_range_congr (p q : Nat → Bool) (n : Nat) (h : ∀ a, a < n → p a = q a) :
    (List.range n).countP p = (List.range n).countP q := by
  apply List.countP_congr
  intro a ha
  rw [List.mem_range] at ha
  rw [h a ha]

theorem countP_range_diff (p q : Nat → Bool) (n a0 : Nat) (h0 : a0 < n) (hp : p a0 = true)
    (hq : q a0 = false) (h : ∀ a, a < n → a ≠ a0 → p a = q a) :
    (List.range n).countP p = (List.range n).countP q + 1 := by
  induction n with
  | zero => omega
  | succ n ih =>
    rw [List.range_succ, List.countP_append, List.countP_append]
    by_cases hn : a0 = n
    · subst hn
      have e := countP_range_congr p q a0 (fun a ha => h a (by omega) (by omega))
      rw [e]
      simp [hp, hq]
    · have e := ih (by omega) (fun a ha hne => h a (by omega) hne)
      have hpq := h n (by omega) (fun hh => hn hh.symm)
      rw [e, List.countP_singleton, List.countP_singleton, hpq]
      omega

theorem countP_range_le (p : Nat → Bool) (n : Nat) : (List.range n).countP p ≤ n := by
  have := List.countP_le_length p (l := List.range n)
  simpa using this

theorem countP_range_pos (p : Nat → Bool) (n a0 : Nat) (h0 : a0 < n) (hp : p a0 = true) :
    1 ≤ (List.range n).countP p := by
  have h := countP_range_diff p (fun a => if a = a0 then false else p a) n a0 h0 hp (by simp)
    (fun a _ hne => by simp [hne])
  omega

theorem countP_range_two (p : Nat → Bool) (n a0 a1 : Nat) (h0 : a0 < n) (h1 : a1 < n)
    (hne : a0 ≠ a1) (hp0 : p a0 = true) (hp1 : p a1 = true) :
    2 ≤ (List.range n).countP p := by
  have h := countP_range_diff p (fun a => if a = a0 then false else p a) n a0 h0 hp0 (by simp)
    (fun a _ hne => by simp [hne])
  have h2 := countP_range_pos (fun a => if a = a0 then false else p a) n a1 h1
    (by simp [hp1, Ne.symm hne])
  omega

theorem countP_range_all (p : Nat → Bool) (n : Nat) (h : ∀ a, a < n → p a = true) :
    (List.range n).countP p = n := by
  induction n with
  | zero => rfl
  | succ n ih =>
    rw [List.range_succ, List.countP_append, ih (fun a ha => h a (by omega))]
    simp [h n (by omega)]

theorem countP_range_extend (p : Nat → Bool) (n k : Nat)
    (h : ∀ a, n ≤ a → a < n + k → p a = false) :
    (List.range (n + k)).countP p = (List.range n).countP p := by
  induction k with
  | zero => rfl
  | succ k ih =>
    rw [← Nat.add_assoc, List.range_succ, List.countP_append, ih (fun a h1 h2 => h a h1 (by omega))]
    simp [h (n + k) (by omega) (by omega)]

theorem getD_lt_of_bytes (d : List Nat) (hb : ∀ x ∈ d, x < 256) (k : Nat) : d.getD k 0 < 256 := by
  rw [List.getD_eq_getElem?_getD]
  by_cases h : k < d.length
  · rw [List.getElem?_eq_getElem h]
    exact hb _ (List.getElem_mem h)
  · rw [List.getElem?_eq_none (by omega)]
    simp

theorem init_decs : init_full_N.decs = (List.range 128).map (fun i => i / 2 + 1) := by
  decide

theorem getD_init (i : Nat) (h : i < 128) : init_full_N.decs.getD i 0 = i / 2 + 1 := by
  rw [init_decs]
  simp [List.getD_eq_getElem?_getD, List.getElem?_map, List.getElem?_range, h]

theorem pair_count_le (d : List Nat) (i : Nat) : pair_count d i ≤ i / 2 + 1 :=
  countP_range_le _ _

theorem wf_init : init_full_N.wf := by
  refine ⟨?_, ?_, by decide, by decide, by decide⟩
  · rw [init_decs]; simp [SIZE_eq]
  · intro x hx
    rw [init_decs, List.mem_map] at hx
    obtain ⟨i, hi, rfl⟩ := hx
    rw [List.mem_range] at hi
    omega

theorem Inv_init : Inv init_full_N := by
  refine ⟨wf_init, by decide, by decide, by decide, ?_, by decide, by decide, ?_, ?_, ?_, by decide⟩
  · intro i _ h2
    rw [getD_init i h2]; omega
  · intro i h1 h2
    have : init_full_N.min = 1 := rfl
    omega
  · intro _
    decide
  · intro i hi
    rw [getD_init i hi]
    unfold pair_count
    rw [countP_range_all]
    intro a ha
    have h1 : init_full_N.decs.getD a 0 = a / 2 + 1 := getD_init a (by omega)
    have h2 : init_full_N.decs.getD (i - a) 0 = (i - a) / 2 + 1 := getD_init (i - a) (by omega)
    exact decide_eq_true ⟨by rw [h1]; omega, by rw [h2]; omega⟩

/-- What a successful call of `remove_generator` computed. -/
theorem child_form (m dst : monoid) (g : Nat) (hw : m.wf)
    (h : remove_generator m g = some dst) :
    g < 128 ∧ m.decs.getD g 0 = 1 ∧ m.decs.getD 0 0 ≠ 0 ∧
      dst = { decs := removed_decs m.decs g, conductor := g + 1,
              min := if g = m.min then g + 1 else m.min,
              genus := (m.genus + 1) % U64 } := by
  rw [remove_generator_eq m g hw] at h
  by_cases hC : g < 128 ∧ m.decs.getD g 0 = 1 ∧ m.decs.getD 0 0 ≠ 0
  · rw [if_pos hC] at h
    exact ⟨hC.1, hC.2.1, hC.2.2, (Option.some.inj h).symm⟩
  · rw [if_neg hC] at h
    exact absurd h (by simp)

/-- The bytes of a child, without byte wrap-around. -/
theorem child_getD (m : monoid) (g : Nat) (hI : Inv m) (hc : m.conductor ≤ g)
    (k : Nat) (hk : k < 128) :
    (removed_decs m.decs g).getD k 0 =
      if k < g then m.decs.getD k 0
      else m.decs.getD k 0 - (if m.decs.getD (k - g) 0 = 0 then 0 else 1) := by
  rw [getD_removed_decs _ _ _ hk]
  by_cases h : k < g
  · rw [if_pos h, if_pos h]
  · rw [if_neg h, if_neg h]
    have h1 := hI.above k (by omega) hk
    have h2 := getD_lt_of_bytes m.decs hI.wf.2.1 k
    split <;> omega

/-- The elements of a child are the elements of its parent other than `g`. -/
theorem child_elem (m : monoid) (g : Nat) (hI : Inv m) (hc : m.conductor ≤ g)
    (hg : g < 128) (hg1 : m.decs.getD g 0 = 1) (a : Nat) (ha : a < 128) :
    (removed_decs m.decs g).getD a 0 ≠ 0 ↔ (m.decs.getD a 0 ≠ 0 ∧ a ≠ g) := by
  rw [child_getD m g hI hc a ha]
  have hz := hI.zero
  have hcp := hI.cond_pos
  by_cases h : a < g
  · rw [if_pos h]
    constructor
    · intro h1; exact ⟨h1, by omega⟩
    · intro h1; exact h1.1
  · rw [if_neg h]
    by_cases e : a = g
    · subst e
      rw [Nat.sub_self, hz, hg1]
      simp
    · have h1 := hI.above a (by omega) ha
      by_cases h0 : m.decs.getD (a - g) 0 = 0
      · rw [if_pos h0]
        constructor
        · intro _; exact ⟨by omega, e⟩
        · intro _; omega
      · rw [if_neg h0]
        have h2 : 2 ≤ m.decs.getD a 0 := by
          rw [hI.pairs a ha]
          unfold pair_count
          by_cases hh : g ≤ a - g
          · apply countP_range_two _ _ 0 g (by omega) (by omega) (by omega)
            · exact decide_eq_true ⟨by rw [hz]; omega, by rw [Nat.sub_zero]; omega⟩
            · exact decide_eq_true ⟨by rw [hg1]; omega, h0⟩
          · apply countP_range_two _ _ 0 (a - g) (by omega) (by omega) (by omega)
            · exact decide_eq_true ⟨by rw [hz]; omega, by rw [Nat.sub_zero]; omega⟩
            · have e2 : a - (a - g) = g := by omega
              exact decide_eq_true ⟨h0, by rw [e2, hg1]; omega⟩
        constructor
        · intro _; exact ⟨by omega, e⟩
        · intro _; omega

/-- The bytes of a child are its numbers of decompositions. -/
theorem child_pairs (m : monoid) (g : Nat) (hI : Inv m) (hc : m.conductor ≤ g)
    (hg : g < 128) (hg1 : m.decs.getD g 0 = 1) (i : Nat) (hi : i < 128) :
    (removed_decs m.decs g).getD i 0 = pair_count (removed_decs m.decs g) i := by
  have hel := child_elem m g hI hc hg hg1
  rw [child_getD m g hI hc i hi]
  unfold pair_count
  by_cases h : i < g
  · rw [if_pos h, hI.pairs i hi]
    unfold pair_count
    apply countP_range_congr
    intro a ha
    apply Bool.decide_congr
    rw [hel a (by omega), hel (i - a) (by omega)]
    constructor
    · intro hh; exact ⟨⟨hh.1, by omega⟩, ⟨hh.2, by omega⟩⟩
    · intro hh; exact ⟨hh.1.1, hh.2.1⟩
  · rw [if_neg h, hI.pairs i hi]
    unfold pair_count
    by_cases h0 : m.decs.getD (i - g) 0 = 0
    · rw [if_pos h0, Nat.sub_zero]
      apply countP_range_congr
      intro a ha
      apply Bool.decide_congr
      rw [hel a (by omega), hel (i - a) (by omega)]
      constructor
      · intro hh
        refine ⟨⟨hh.1, ?_⟩, ⟨hh.2, ?_⟩⟩
        · intro e; subst e; exact hh.2 h0
        · intro e
          have e2 : a = i - g := by omega
          rw [e2] at hh; exact hh.1 h0
      · intro hh; exact ⟨hh.1.1, hh.2.1⟩
    · rw [if_neg h0]
      have key : ∀ a0, a0 < i / 2 + 1 → (a0 = g ∨ a0 = i - g) →
          (∀ a, a < i / 2 + 1 → a ≠ a0 → a ≠ g ∧ i - a ≠ g) →
          (List.range (i / 2 + 1)).countP
              (fun a => decide (m.decs.getD a 0 ≠ 0 ∧ m.decs.getD (i - a) 0 ≠ 0)) - 1 =
            (List.range (i / 2 + 1)).countP
              (fun a => decide ((removed_decs m.decs g).getD a 0 ≠ 0 ∧
                (removed_decs m.decs g).getD (i - a) 0 ≠ 0)) := by
        intro a0 ha0 hor hoth
        rw [countP_range_diff _ (fun a => decide ((removed_decs m.decs g).getD a 0 ≠ 0 ∧
                (removed_decs m.decs g).getD (i - a) 0 ≠ 0)) _ a0 ha0]
        · omega
        · apply decide_eq_true
          rcases hor with e | e
          · subst e; exact ⟨by rw [hg1]; omega, h0⟩
          · subst e
            have e2 : i - (i - g) = g := by omega
            exact ⟨h0, by rw [e2, hg1]; omega⟩
        · apply decide_eq_false
          rw [hel a0 (by omega), hel (i - a0) (by omega)]
          intro hh
          rcases hor with e | e
          · exact hh.1.2 e
          · exact hh.2.2 (by omega)
        · intro a ha hne
          apply Bool.decide_congr
          rw [hel a (by omega), hel (i - a) (by omega)]
          have := hoth a ha hne
          constructor
          · intro hh; exact ⟨⟨hh.1, this.1⟩, ⟨hh.2, this.2⟩⟩
          · intro hh; exact ⟨hh.1.1, hh.2.1⟩
      by_cases hh : g ≤ i - g
      · exact key g (by omega) (Or.inl rfl) (fun a ha hne => ⟨hne, by omega⟩)
      · exact key (i - g) (by omega) (Or.inr rfl) (fun a ha hne => ⟨by omega, by omega⟩)

theorem gap_count_le (m : monoid) (h : 1 ≤ m.conductor) : gap_count m + 1 ≤ m.conductor := by
  unfold gap_count
  obtain ⟨c, hc⟩ : ∃ c, m.conductor = c + 1 := ⟨m.conductor - 1, by omega⟩
  rw [hc, List.range_succ_eq_map, List.countP_cons, List.countP_map]
  have := List.countP_le_length
    ((fun i => decide (1 ≤ i ∧ m.decs.getD i 0 = 0)) ∘ Nat.succ) (l := List.range c)
  simp only [List.length_range] at this
  have h0 : (decide (1 ≤ 0 ∧ m.decs.getD 0 0 = 0)) = false := by simp
  rw [h0]
  simp only [Bool.false_eq_true, if_false]
  omega

/-- The invariant passes from a monoid to each of its children. -/
theorem Inv_child (m dst : monoid) (g : Nat) (hI : Inv m) (hc : m.conductor ≤ g)
    (h : remove_generator m g = some dst) : Inv dst := by
  obtain ⟨hg, hg1, -, rfl⟩ := child_form m dst g hI.wf h
  have hget := child_getD m g hI hc
  have hel := child_elem m g hI hc hg hg1
  have hcp := hI.cond_pos
  have hgen : m.genus + 1 < U64 := by
    have := gap_count_le m hI.cond_pos
    have := hI.genus_eq
    have := hI.cond_le
    rw [U64_eq]; omega
  have hmin_lt : m.min < U64 := hI.wf.2.2.2.1
  have hpos : ∀ i, g + 1 ≤ i → i < 128 → 1 ≤ (removed_decs m.decs g).getD i 0 := by
    intro i h1 h2
    have := (hel i h2).2 ⟨by have := hI.above i (by omega) h2; omega, by omega⟩
    omega
  have hzero : (removed_decs m.decs g).getD g 0 = 0 := by
    by_contra hne
    exact ((hel g hg).1 hne).2 rfl
  refine ⟨⟨?_, ?_, ?_, ?_, ?_⟩, ?_, ?_, ?_, ?_, ?_, ?_, ?_, ?_, ?_, ?_⟩
  · show (removed_decs m.decs g).length = SIZE
    rw [length_removed_decs, SIZE_eq]
  · show ∀ x ∈ removed_decs m.decs g, x < 256
    intro x hx
    unfold removed_decs at hx
    rw [List.mem_map] at hx
    obtain ⟨i, -, rfl⟩ := hx
    have := getD_lt_of_bytes m.decs hI.wf.2.1 i
    split
    · exact this
    · exact Nat.mod_lt _ (by norm_num)
  · show g + 1 < U64
    rw [U64_eq]; omega
  · show (if g = m.min then g + 1 else m.min) < U64
    split
    · rw [U64_eq]; omega
    · exact hmin_lt
  · show (m.genus + 1) % U64 < U64
    exact Nat.mod_lt _ (by rw [U64_eq]; norm_num)
  · show (removed_decs m.decs g).getD 0 0 = 1
    rw [hget 0 (by omega), if_pos (by omega)]
    exact hI.zero
  · show 1 ≤ g + 1
    omega
  · show g + 1 ≤ 128
    omega
  · exact hpos
  · show 1 ≤ (if g = m.min then g + 1 else m.min)
    have := hI.min_pos
    split <;> omega
  · show (if g = m.min then g + 1 else m.min) ≤ g + 1
    have := hI.min_le
    split <;> omega
  · show ∀ i, 1 ≤ i → i < (if g = m.min then g + 1 else m.min) →
      (removed_decs m.decs g).getD i 0 = 0
    intro i h1 h2
    have hml := hI.min_le
    by_cases e : g = m.min
    · rw [if_pos e] at h2
      by_cases e2 : i = g
      · rw [e2]; exact hzero
      · rw [hget i (by omega), if_pos (by omega)]
        exact hI.below_min i h1 (by omega)
    · rw [if_neg e] at h2
      rw [hget i (by omega), if_pos (by omega)]
      exact hI.below_min i h1 h2
  · show (if g = m.min then g + 1 else m.min) < 128 →
      1 ≤ (removed_decs m.decs g).getD (if g = m.min then g + 1 else m.min) 0
    intro h2
    have hml := hI.min_le
    by_cases e : g = m.min
    · rw [if_pos e] at h2 ⊢
      exact hpos _ (le_refl _) h2
    · rw [if_neg e] at h2 ⊢
      rw [hget _ h2, if_pos (by omega)]
      exact hI.at_min h2
  · exact child_pairs m g hI hc hg hg1
  · show (m.genus + 1) % U64 = gap_count _
    rw [Nat.mod_eq_of_lt hgen, hI.genus_eq]
    unfold gap_count
    show _ = (List.range (g + 1)).countP
      (fun i => decide (1 ≤ i ∧ (removed_decs m.decs g).getD i 0 = 0))
    rw [List.range_succ, List.countP_append, List.countP_singleton]
    have e1 : decide (1 ≤ g ∧ (removed_decs m.decs g).getD g 0 = 0) = true :=
      decide_eq_true ⟨by omega, hzero⟩
    rw [e1]
    simp only [if_true]
    congr 1
    have e2 : (List.range g).countP
          (fun i => decide (1 ≤ i ∧ (removed_decs m.decs g).getD i 0 = 0))
        = (List.range g).countP (fun i => decide (1 ≤ i ∧ m.decs.getD i 0 = 0)) := by
      apply countP_range_congr
      intro a ha
      rw [hget a (by omega), if_pos ha]
    rw [e2]
    obtain ⟨k, hk⟩ : ∃ k, g = m.conductor + k := ⟨g - m.conductor, by omega⟩
    rw [hk, countP_range_extend]
    intro a h1 h2
    apply decide_eq_false
    intro hh
    have := hI.above a h1 (by omega)
    omega

/-- Every observed monoid satisfies the invariant. -/
theorem Inv_of_reachable (m : monoid) (h : reachable m) : Inv m := by
  induction h with
  | root => exact Inv_init
  | child m dst g _ hc hr ih => exact Inv_child m dst g ih hc hr

/-! ## Bit masks -/

theorem bits_congr (P Q : Nat → Bool) (n : Nat) :
    ∀ pos pos2, (∀ t, t < n → P (pos + t) = Q (pos2 + t)) → bits P pos n = bits Q pos2 n := by
  induction n with
  | zero => intro _ _ _; rfl
  | succ n ih =>
    intro pos pos2 h
    simp only [bits]
    have h0 := h 0 (by omega)
    rw [Nat.add_zero, Nat.add_zero] at h0
    rw [h0, ih (pos + 1) (pos2 + 1)]
    intro t ht
    have := h (t + 1) (by omega)
    rw [show pos + 1 + t = pos + (t + 1) by omega, show pos2 + 1 + t = pos2 + (t + 1) by omega]
    exact this

theorem bits_lt (P : Nat → Bool) (n : Nat) : ∀ pos, bits P pos n < 2 ^ n := by
  induction n with
  | zero => intro _; simp [bits]
  | succ n ih =>
    intro pos
    simp only [bits]
    have := ih (pos + 1)
    rw [pow_succ]
    split <;> omega

theorem bits_eq_zero (P : Nat → Bool) (n : Nat) :
    ∀ pos, bits P pos n = 0 → ∀ t, t < n → P (pos + t) = false := by
  induction n with
  | zero => intro _ _ t ht; omega
  | succ n ih =>
    intro pos h t ht
    simp only [bits] at h
    by_cases hp : P pos = true
    · rw [if_pos hp] at h; omega
    · rw [if_neg hp] at h
      rcases t with _ | t
      · simpa using hp
      · have := ih (pos + 1) (by omega) t (by omega)
        rw [show pos + (t + 1) = pos + 1 + t by omega]
        exact this

theorem bits_zero_of (P : Nat → Bool) (n : Nat) :
    ∀ pos, (∀ t, t < n → P (pos + t) = false) → bits P pos n = 0 := by
  induction n with
  | zero => intro _ _; rfl
  | succ n ih =>
    intro pos h
    simp only [bits]
    have h0 := h 0 (by omega)
    rw [Nat.add_zero] at h0
    rw [h0, ih (pos + 1)]
    · simp
    · intro t ht
      have := h (t + 1) (by omega)
      rw [show pos + 1 + t = pos + (t + 1) by omega]
      exact this

/-- Bit scan forward on a mask: the first set bit, and the mask left after the shift. -/
theorem bsfd_bits_spec (P : Nat → Bool) (n : Nat) :
    ∀ pos fuel, n ≤ fuel → bits P pos n ≠ 0 →
      ∃ t, t < n ∧ bsfd_bits fuel (bits P pos n) = t ∧ P (pos + t) = true ∧
        (∀ s, s < t → P (pos + s) = false) ∧
        bits P pos n >>> (t + 1) = bits P (pos + t + 1) (n - (t + 1)) := by
  induction n with
  | zero => intro _ _ _ h; exact absurd rfl h
  | succ n ih =>
    intro pos fuel hf h
    obtain ⟨f, rfl⟩ : ∃ f, fuel = f + 1 := ⟨fuel - 1, by omega⟩
    simp only [bits] at h ⊢
    by_cases hp : P pos = true
    · refine ⟨0, by omega, ?_, by simpa using hp, by intro s hs; omega, ?_⟩
      · rw [if_pos hp]
        simp only [bsfd_bits]
        rw [if_pos (by omega)]
      · rw [if_pos hp, Nat.shiftRight_eq_div_pow]
        simp only [Nat.zero_add, pow_one, Nat.add_zero, Nat.add_sub_cancel]
        omega
    · rw [if_neg hp] at h ⊢
      have hr : bits P (pos + 1) n ≠ 0 := by omega
      obtain ⟨t, ht, hb, hpt, hlt, hsh⟩ := ih (pos + 1) f (by omega) hr
      refine ⟨t + 1, by omega, ?_, ?_, ?_, ?_⟩
      · simp only [bsfd_bits]
        rw [if_neg (by omega)]
        have : (0 + 2 * bits P (pos + 1) n) / 2 = bits P (pos + 1) n := by omega
        rw [this, hb]; omega
      · rw [show pos + (t + 1) = pos + 1 + t by omega]; exact hpt
      · intro s hs
        rcases s with _ | s
        · simpa using hp
        · rw [show pos + (s + 1) = pos + 1 + s by omega]
          exact hlt s (by omega)
      · rw [show pos + (t + 1) + 1 = pos + 1 + t + 1 by omega,
          show n + 1 - (t + 1 + 1) = n - (t + 1) by omega, ← hsh,
          Nat.shiftRight_eq_div_pow, Nat.shiftRight_eq_div_pow, pow_succ (n := t + 1)]
        have : 0 + 2 * bits P (pos + 1) n = bits P (pos + 1) n * 2 := by omega
        rw [this, Nat.mul_comm (2 ^ (t + 1)) 2, ← Nat.div_div_eq_div_mul,
          Nat.mul_div_cancel _ (by norm_num)]

theorem popcnt_bits_spec (P : Nat → Bool) (n : Nat) :
    ∀ pos fuel, n ≤ fuel →
      popcnt_bits fuel (bits P pos n) = (List.range n).countP (fun t => P (pos + t)) := by
  induction n with
  | zero =>
    intro pos fuel _
    simp only [bits, List.range_zero, List.countP_nil]
    clear * -
    induction fuel with
    | zero => rfl
    | succ f ihf => simp only [popcnt_bits]; rw [ihf]
  | succ n ih =>
    intro pos fuel hf
    obtain ⟨f, rfl⟩ : ∃ f, fuel = f + 1 := ⟨fuel - 1, by omega⟩
    simp only [bits, popcnt_bits]
    rw [List.range_succ_eq_map, List.countP_cons, List.countP_map]
    have e : ((if P pos = true then 1 else 0) + 2 * bits P (pos + 1) n) / 2
        = bits P (pos + 1) n := by split <;> omega
    have e2 : ((if P pos = true then 1 else 0) + 2 * bits P (pos + 1) n) % 2
        = (if P pos = true then 1 else 0) := by split <;> omega
    rw [e, e2, ih (pos + 1) f (by omega)]
    have e3 : (List.range n).countP ((fun t => P (pos + t)) ∘ Nat.succ)
        = (List.range n).countP (fun t => P (pos + 1 + t)) := by
      apply countP_range_congr
      intro a _
      show P (pos + (a + 1)) = P (pos + 1 + a)
      rw [show pos + (a + 1) = pos + 1 + a by omega]
    rw [e3]
    simp only [Nat.add_zero]
    omega

theorem block1_eq : block1 = List.replicate 16 1 := by decide

theorem movemask_cmpeq_ones (l : List Nat) :
    movemask_epi8 (cmpeq_epi8 l (List.replicate l.length 1)) =
      bits (fun j => decide (l.getD j 0 = 1)) 0 l.length := by
  induction l with
  | nil => rfl
  | cons x xs ih =>
    simp only [List.length_cons, List.replicate_succ, cmpeq_epi8, List.zipWith_cons_cons,
      movemask_epi8, List.foldr_cons, bits]
    have ih2 : List.foldr (fun x acc => x / 128 % 2 + 2 * acc) 0
        (List.zipWith (fun x y => if x = y then 255 else 0) xs (List.replicate xs.length 1))
        = bits (fun j => decide (xs.getD j 0 = 1)) 0 xs.length := ih
    rw [ih2]
    have e : bits (fun j => decide ((x :: xs).getD j 0 = 1)) (0 + 1) xs.length
        = bits (fun j => decide (xs.getD j 0 = 1)) 0 xs.length := by
      apply bits_congr
      intro t _
      rw [show 0 + 1 + t = t + 1 by omega, Nat.zero_add]
      rfl
    rw [e]
    show (if x = 1 then 255 else 0) / 128 % 2 + _ = (if decide (x = 1) = true then 1 else 0) + _
    by_cases hx : x = 1
    · simp [hx]
    · simp [hx]

/-- The mask of a block: bit `j` is set exactly when byte `16 i + j` is `1`. -/
theorem movemask_block (d : List Nat) (i : Nat) (hd : d.length = 128) (hi : i < 8) :
    ∃ b, nth_block d i = some b ∧ b.length = 16 ∧
      (∀ j, j < 16 → b.getD j 0 = d.getD (16 * i + j) 0) ∧
      movemask_epi8 (cmpeq_epi8 b block1) = bits (fun k => decide (d.getD k 0 = 1)) (16 * i) 16 := by
  have hi4 : i <<< 4 = 16 * i := by rw [Nat.shiftLeft_eq]; omega
  have hlen : ((d.drop (16 * i)).take 16).length = 16 := length_take_drop _ _ (by omega)
  refine ⟨(d.drop (16 * i)).take 16, ?_, hlen, fun j hj => getD_take_drop _ _ _ hj, ?_⟩
  · unfold nth_block
    rw [if_pos (by rw [NBLOCKS_eq]; exact hi), hi4]
  · have := movemask_cmpeq_ones ((d.drop (16 * i)).take 16)
    rw [hlen, ← block1_eq] at this
    rw [this]
    apply bits_congr
    intro t ht
    rw [Nat.zero_add, getD_take_drop _ _ _ ht]

theorem getD_mask16 (k : Nat) (hk : k < 16) :
    ∃ mk, mask16.get? k = some mk ∧ mk.length = 16 ∧
      ∀ j, j < 16 → mk.getD j 0 = if j < k then 0 else 255 := by
  interval_cases k <;> refine ⟨_, rfl, rfl, ?_⟩ <;> intro j hj <;> interval_cases j <;> rfl

/-- The mask computed by `children_count`: the bytes equal to `1` at or above the conductor. -/
theorem movemask_masked (d : List Nat) (c : Nat) (hd : d.length = 128)
    (hb : ∀ x ∈ d, x < 256) (hc : c < 128) :
    ∃ b mk, nth_block d (c >>> 4) = some b ∧ mask16.get? (c &&& 0xF) = some mk ∧
      movemask_epi8 (cmpeq_epi8 (and_epi8 b mk) block1) =
        bits (fun k => decide (c ≤ k ∧ d.getD k 0 = 1)) (16 * (c / 16)) 16 := by
  have hsb : c >>> 4 = c / 16 := by rw [Nat.shiftRight_eq_div_pow]
  have hdec : c &&& 0xF = c % 16 := by
    have := Nat.and_pow_two_sub_one_eq_mod c 4
    simpa using this
  rw [hsb, hdec]
  obtain ⟨b, hb1, hbl, hbg, -⟩ := movemask_block d (c / 16) hd (by omega)
  obtain ⟨mk, hm1, hml, hmg⟩ := getD_mask16 (c % 16) (Nat.mod_lt _ (by norm_num))
  refine ⟨b, mk, hb1, hm1, ?_⟩
  have hal : (and_epi8 b mk).length = 16 := by simp [and_epi8, hbl, hml]
  have := movemask_cmpeq_ones (and_epi8 b mk)
  rw [hal, ← block1_eq] at this
  rw [this]
  apply bits_congr
  intro t ht
  rw [Nat.zero_add]
  unfold and_epi8
  rw [getD_zipWith16 _ _ _ _ hbl hml ht, hbg t ht, hmg t ht]
  apply Bool.decide_congr
  by_cases h : t < c % 16
  · rw [if_pos h, Nat.and_zero]
    constructor
    · intro hh; omega
    · intro hh; omega
  · rw [if_neg h]
    have hx := getD_lt_of_bytes d hb (16 * (c / 16) + t)
    have e : d.getD (16 * (c / 16) + t) 0 &&& 255 = d.getD (16 * (c / 16) + t) 0 := by
      have := Nat.and_pow_two_sub_one_eq_mod (d.getD (16 * (c / 16) + t) 0) 8
      simp only [Nat.reducePow, Nat.add_one_sub_one] at this
      rw [this]
      exact Nat.mod_eq_of_lt hx
    rw [e]
    constructor
    · intro hh; exact ⟨by omega, hh⟩
    · intro hh; exact hh.2

/-- The last three statements of `operator++`, on a mask that is not zero. -/
theorem operator_inc_nonzero (P : Nat → Bool) (m : monoid) (it : generator_iter) (pos f : Nat)
    (hI : IterInv P m it pos) (hm : it.mask ≠ 0) :
    ∃ it1, operator_inc_loop m (f + 1) it = some it1 ∧ it1.bound = it.bound ∧
      ∃ x, pos ≤ x ∧ x < 16 * it.iblock ∧ P x = true ∧
        (∀ y, pos ≤ y → y < x → P y = false) ∧ it1.gen = x ∧ IterInv P m it1 (x + 1) ∧
        16 * (it1.iblock - 1) ≤ x := by
  have hble := hI.blk_le
  have hpg := hI.pos_ge
  have hpl := hI.pos_le
  have hbp := hI.blk_pos
  have hb7 := hI.bound_le
  rw [hI.mask_eq] at hm
  obtain ⟨t, ht, hbs, hpt, hlt, hsh⟩ := bsfd_bits_spec P _ pos 32 (by omega) hm
  have hlt16 : bits P pos (16 * it.iblock - pos) < 2 ^ 32 :=
    lt_of_lt_of_le (bits_lt P _ pos) (Nat.pow_le_pow_right (by norm_num) (by omega))
  have hbsf : bsfd it.mask = t := by
    unfold bsfd
    rw [hI.mask_eq, Nat.mod_eq_of_lt hlt16, hbs]
  have hgen : (it.gen + (t + 1)) % U64 = pos + t := by
    rw [hI.gen_eq, Nat.add_mod, Nat.mod_mod, ← Nat.add_mod,
      show pos + U64 - 1 + (t + 1) = pos + t + U64 by rw [U64_eq]; omega,
      Nat.add_mod_right]
    exact Nat.mod_eq_of_lt (by rw [U64_eq]; omega)
  refine ⟨{ iblock := it.iblock, mask := it.mask >>> (bsfd it.mask + 1),
            gen := (it.gen + (bsfd it.mask + 1)) % U64, bound := it.bound }, ?_, rfl,
          ⟨pos + t, by omega, by omega, hpt, ?_, ?_, ?_, ?_⟩⟩
  · simp only [operator_inc_loop]
    rw [if_neg (by rw [hI.mask_eq]; exact hm)]
  · intro y h1 h2
    have := hlt (y - pos) (by omega)
    rw [show pos + (y - pos) = y by omega] at this
    exact this
  · show (it.gen + (bsfd it.mask + 1)) % U64 = pos + t
    rw [hbsf, hgen]
  · refine ⟨?_, hbp, ?_, ?_, ?_, hble, hb7, hI.len, hI.later⟩
    · show (it.gen + (bsfd it.mask + 1)) % U64 = (pos + t + 1 + U64 - 1) % U64
      rw [hbsf, hgen, show pos + t + 1 + U64 - 1 = pos + t + U64 by omega,
        Nat.add_mod_right]
      exact (Nat.mod_eq_of_lt (by rw [U64_eq]; omega)).symm
    · show pos + t + 1 ≤ 16 * it.iblock
      omega
    · show 16 * (it.iblock - 1) ≤ pos + t + 1
      omega
    · show it.mask >>> (bsfd it.mask + 1) = bits P (pos + t + 1) (16 * it.iblock - (pos + t + 1))
      rw [hbsf, hI.mask_eq, hsh]
      congr 1
      omega
  · show 16 * (it.iblock - 1) ≤ pos + t
    omega

/-- One call of `operator++`: it stops on the next index with `P`, or
finishes when there is none up to the end of block `bound`. -/
theorem operator_inc_loop_spec (P : Nat → Bool) (m : monoid) (n : Nat) :
    ∀ (it : generator_iter) (pos fuel : Nat), IterInv P m it pos →
      it.bound + 1 - it.iblock = n → n + 1 ≤ fuel →
      ∃ it1, operator_inc_loop m fuel it = some it1 ∧ it1.bound = it.bound ∧
        ((∃ x, pos ≤ x ∧ x < 16 * (it.bound + 1) ∧ P x = true ∧
            (∀ y, pos ≤ y → y < x → P y = false) ∧ it1.gen = x ∧ IterInv P m it1 (x + 1) ∧
            16 * (it1.iblock - 1) ≤ x) ∨
          ((∀ y, pos ≤ y → y < 16 * (it.bound + 1) → P y = false) ∧
            it1.iblock = it.bound + 1 ∧ it1.mask = 0)) := by
  induction n with
  | zero =>
    intro it pos fuel hI hn hf
    obtain ⟨f, rfl⟩ : ∃ f, fuel = f + 1 := ⟨fuel - 1, by omega⟩
    have hble := hI.blk_le
    have hpg := hI.pos_ge
    have hpl := hI.pos_le
    have hbp := hI.blk_pos
    have hb7 := hI.bound_le
    by_cases hm : it.mask = 0
    · -- finished
      refine ⟨it, ?_, rfl, Or.inr ⟨?_, by omega, hm⟩⟩
      · simp only [operator_inc_loop]
        rw [if_pos hm, if_pos (by omega)]
      · intro y h1 h2
        have hz := bits_eq_zero P _ pos (by rw [← hI.mask_eq]; exact hm) (y - pos) (by omega)
        rw [show pos + (y - pos) = y by omega] at hz
        exact hz
    · obtain ⟨it1, h1, hb, x, hx1, hx2, hx3, hx4, hx5, hx6, hx7⟩ :=
        operator_inc_nonzero P m it pos f hI hm
      exact ⟨it1, h1, hb, Or.inl ⟨x, hx1, by omega, hx3, hx4, hx5, hx6, hx7⟩⟩
  | succ n ih =>
    intro it pos fuel hI hn hf
    obtain ⟨f, rfl⟩ : ∃ f, fuel = f + 1 := ⟨fuel - 1, by omega⟩
    have hble := hI.blk_le
    have hpg := hI.pos_ge
    have hpl := hI.pos_le
    have hbp := hI.blk_pos
    have hb7 := hI.bound_le
    by_cases hm : it.mask = 0
    · -- load the next block
      obtain ⟨b, hb1, -, -, hmm⟩ := movemask_block m.decs it.iblock hI.len (by omega)
      have hz : ∀ y, pos ≤ y → y < 16 * it.iblock → P y = false := by
        intro y h1 h2
        have hz := bits_eq_zero P _ pos (by rw [← hI.mask_eq]; exact hm) (y - pos) (by omega)
        rw [show pos + (y - pos) = y by omega] at hz
        exact hz
      have e1 : (it.iblock + 1) % U64 = it.iblock + 1 :=
        Nat.mod_eq_of_lt (by rw [U64_eq]; omega)
      have e2 : (it.iblock <<< 4) % U64 = 16 * it.iblock := by
        rw [Nat.shiftLeft_eq]
        rw [Nat.mod_eq_of_lt (by rw [U64_eq]; omega)]
        omega
      have hI1 : IterInv P m
          { iblock := it.iblock + 1, mask := movemask_epi8 (cmpeq_epi8 b block1),
            gen := (16 * it.iblock + U64 - 1) % U64, bound := it.bound } (16 * it.iblock) := by
        refine ⟨rfl, by show 1 ≤ it.iblock + 1; omega, by show _ ≤ 16 * (it.iblock + 1); omega,
          by show 16 * (it.iblock + 1 - 1) ≤ _; omega, ?_, by show it.iblock + 1 ≤ it.bound + 1; omega,
          hb7, hI.len, ?_⟩
        · show movemask_epi8 (cmpeq_epi8 b block1)
            = bits P (16 * it.iblock) (16 * (it.iblock + 1) - 16 * it.iblock)
          rw [hmm, show 16 * (it.iblock + 1) - 16 * it.iblock = 16 by omega]
          apply bits_congr
          intro t _
          exact (hI.later _ (by omega)).symm
        · intro k hk
          exact hI.later k (by show 16 * it.iblock ≤ k; have : 16 * (it.iblock + 1) ≤ k := hk; omega)
      obtain ⟨it1, h1, hb, hcase⟩ := ih _ (16 * it.iblock) f hI1
        (by show it.bound + 1 - (it.iblock + 1) = n; omega) (by omega)
      refine ⟨it1, ?_, hb, ?_⟩
      · simp only [operator_inc_loop]
        rw [if_pos hm, if_neg (by omega), hb1]
        simp only [Option.bind_eq_bind, Option.some_bind, e1, e2]
        exact h1
      · rcases hcase with ⟨x, hx1, hx2, hx3, hx4, hx5, hx6, hx7⟩ | ⟨hy, hib, hmk⟩
        · refine Or.inl ⟨x, by omega, hx2, hx3, ?_, hx5, hx6, hx7⟩
          intro y h1 h2
          by_cases hy : y < 16 * it.iblock
          · exact hz y h1 hy
          · exact hx4 y (by omega) h2
        · refine Or.inr ⟨?_, hib, hmk⟩
          intro y h1 h2
          by_cases hy2 : y < 16 * it.iblock
          · exact hz y h1 hy2
          · exact hy y (by omega) h2
    · obtain ⟨it1, h1, hb, x, hx1, hx2, hx3, hx4, hx5, hx6, hx7⟩ :=
        operator_inc_nonzero P m it pos f hI hm
      exact ⟨it1, h1, hb, Or.inl ⟨x, hx1, by omega, hx3, hx4, hx5, hx6, hx7⟩⟩

/-- The function `operator++` on an iterator that satisfies the invariant. -/
theorem operator_inc_spec (P : Nat → Bool) (m : monoid) (it : generator_iter) (pos : Nat)
    (hI : IterInv P m it pos) :
    ∃ it1, operator_inc m it = some it1 ∧ it1.bound = it.bound ∧
      ((∃ x, pos ≤ x ∧ x < 16 * (it.bound + 1) ∧ P x = true ∧
          (∀ y, pos ≤ y → y < x → P y = false) ∧ it1.gen = x ∧ IterInv P m it1 (x + 1) ∧
          16 * (it1.iblock - 1) ≤ x) ∨
        ((∀ y, pos ≤ y → y < 16 * (it.bound + 1) → P y = false) ∧
          it1.iblock = it.bound + 1 ∧ it1.mask = 0)) :=
  operator_inc_loop_spec P m _ it pos _ hI rfl (le_refl _)

/-! ## Filtering a range -/

theorem filter_range_nil (q : Nat → Bool) (hi : Nat) (h : ∀ k, k < hi → q k = false) :
    (List.range hi).filter q = [] := by
  rw [List.filter_eq_nil_iff]
  intro a ha
  rw [List.mem_range] at ha
  rw [h a ha]
  simp

theorem filter_range_first (q : Nat → Bool) (hi x : Nat) (hx : x < hi) (hq : q x = true)
    (hlt : ∀ y, y < x → q y = false) :
    (List.range hi).filter q = x :: (List.range hi).filter (fun k => decide (x + 1 ≤ k) && q k) := by
  induction hi with
  | zero => omega
  | succ hi ih =>
    rw [List.range_succ, List.filter_append, List.filter_append]
    by_cases e : x = hi
    · subst e
      rw [filter_range_nil q x hlt, filter_range_nil _ x (fun k hk => by simp; intro; omega)]
      simp [hq]
    · rw [ih (by omega)]
      have : (decide (x + 1 ≤ hi) && q hi) = q hi := by
        have : decide (x + 1 ≤ hi) = true := decide_eq_true (by omega)
        rw [this, Bool.true_and]
      simp [List.filter_cons, this]

theorem filter_range_congr (p q : Nat → Bool) (n : Nat) (h : ∀ a, a < n → p a = q a) :
    (List.range n).filter p = (List.range n).filter q := by
  apply List.filter_congr
  intro a ha
  rw [List.mem_range] at ha
  exact h a ha

theorem filter_range_extend (p : Nat → Bool) (n k : Nat)
    (h : ∀ a, n ≤ a → a < n + k → p a = false) :
    (List.range (n + k)).filter p = (List.range n).filter p := by
  induction k with
  | zero => rfl
  | succ k ih =>
    rw [← Nat.add_assoc, List.range_succ, List.filter_append, ih (fun a h1 h2 => h a h1 (by omega))]
    simp [h (n + k) (by omega) (by omega)]

/-- The values seen by a `for` loop over an iterator that stands on a generator. -/
theorem visited_spec (P : Nat → Bool) (m : monoid) (n : Nat) :
    ∀ (it : generator_iter) (pos fuel : Nat), IterInv P m it pos →
      (∀ y, 16 * it.bound ≤ y → y < 16 * (it.bound + 1) → P y = false) →
      it.iblock ≤ it.bound → 16 * (it.bound + 1) - pos ≤ n → n + 2 ≤ fuel →
      visited m fuel it = some (it.gen ::
        (List.range (16 * (it.bound + 1))).filter (fun k => decide (pos ≤ k) && P k)) := by
  induction n with
  | zero =>
    intro it pos fuel hI _ hnf hn _
    have := hI.pos_le
    omega
  | succ n ih =>
    intro it pos fuel hI hlast hnf hn hf
    obtain ⟨f, rfl⟩ : ∃ f, fuel = f + 1 := ⟨fuel - 1, by omega⟩
    obtain ⟨it1, h1, hb, hcase⟩ := operator_inc_spec P m it pos hI
    have hfin : is_finished it = false := by
      unfold is_finished
      exact decide_eq_false (by omega)
    simp only [visited]
    rw [hfin, h1]
    simp only [Bool.false_eq_true, if_false, Option.bind_eq_bind, Option.some_bind]
    rcases hcase with ⟨x, hx1, hx2, hx3, hx4, hx5, hx6, hx7⟩ | ⟨hy, hib, hmk⟩
    · have hxb : x < 16 * it.bound := by
        by_contra hh
        have := hlast x (by omega) hx2
        rw [hx3] at this
        exact absurd this (by simp)
      have hrec := ih it1 (x + 1) f hx6 (by rw [hb]; exact hlast) (by rw [hb]; omega)
        (by rw [hb]; omega) (by omega)
      rw [hrec, hx5, hb]
      simp only [Option.some_bind, get_gen]
      congr 2
      rw [filter_range_first (fun k => decide (pos ≤ k) && P k) _ x (by omega)
        (by simp [hx3, hx1])
        (fun y hy => by
          by_cases hpy : pos ≤ y
          · simp [hx4 y hpy hy]
          · simp [hpy])]
      congr 1
      apply filter_range_congr
      intro a _
      by_cases ha : x + 1 ≤ a
      · have : pos ≤ a := by omega
        simp [ha, this]
      · simp [ha]
    · have hfin1 : is_finished it1 = true := by
        unfold is_finished
        exact decide_eq_true (by omega)
      obtain ⟨f2, rfl⟩ : ∃ f2, f = f2 + 1 := ⟨f - 1, by omega⟩
      simp only [visited]
      rw [hfin1]
      simp only [if_true, Option.some_bind, get_gen]
      congr 2
      symm
      apply filter_range_nil
      intro k hk
      by_cases hpk : pos ≤ k
      · simp [hy k hpk hk]
      · simp [hpk]

/-- A `for` loop over `it = ++it0` sees the indices with `P` from `pos` on. -/
theorem visited_inc_spec (P : Nat → Bool) (m : monoid) (it0 : generator_iter) (pos fuel : Nat)
    (hI : IterInv P m it0 pos)
    (hlast : ∀ y, 16 * it0.bound ≤ y → y < 16 * (it0.bound + 1) → P y = false)
    (hf : 16 * (it0.bound + 1) - pos + 1 ≤ fuel) :
    (operator_inc m it0).bind (visited m fuel) =
      some ((List.range (16 * (it0.bound + 1))).filter (fun k => decide (pos ≤ k) && P k)) := by
  obtain ⟨it1, h1, hb, hcase⟩ := operator_inc_spec P m it0 pos hI
  rw [h1, Option.some_bind]
  rcases hcase with ⟨x, hx1, hx2, hx3, hx4, hx5, hx6, hx7⟩ | ⟨hy, hib, hmk⟩
  · have hxb : x < 16 * it0.bound := by
      by_contra hh
      have := hlast x (by omega) hx2
      rw [hx3] at this
      exact absurd this (by simp)
    rw [visited_spec P m (16 * (it0.bound + 1) - (x + 1)) it1 (x + 1) fuel hx6
      (by rw [hb]; exact hlast) (by rw [hb]; omega) (by rw [hb]) (by omega), hx5, hb]
    congr 1
    rw [filter_range_first (fun k => decide (pos ≤ k) && P k) _ x (by omega)
      (by simp [hx3, hx1])
      (fun y hy => by
        by_cases hpy : pos ≤ y
        · simp [hx4 y hpy hy]
        · simp [hpy])]
    congr 1
    apply filter_range_congr
    intro a _
    by_cases ha : x + 1 ≤ a
    · have : pos ≤ a := by omega
      simp [ha, this]
    · simp [ha]
  · have hfin1 : is_finished it1 = true := by
      unfold is_finished
      exact decide_eq_true (by omega)
    obtain ⟨f2, rfl⟩ : ∃ f2, fuel = f2 + 1 := ⟨fuel - 1, by omega⟩
    simp only [visited]
    rw [hfin1]
    simp only [if_true]
    congr 1
    symm
    apply filter_range_nil
    intro k hk
    by_cases hpk : pos ≤ k
    · simp [hy k hpk hk]
    · simp [hpk]

/-- No index at or above `conductor + min` is a generator. -/
theorem no_gen_above (m : monoid) (hI : Inv m) (i : Nat) (h1 : m.conductor + m.min ≤ i)
    (h2 : i < 128) : 2 ≤ m.decs.getD i 0 := by
  rw [hI.pairs i h2]
  unfold pair_count
  have hmp := hI.min_pos
  have hml := hI.min_le
  apply countP_range_two _ _ 0 m.min (by omega) (by omega) (by omega)
  · exact decide_eq_true ⟨by rw [hI.zero]; omega,
      by rw [Nat.sub_zero]; have := hI.above i (by omega) h2; omega⟩
  · exact decide_eq_true ⟨by have := hI.at_min (by omega); omega,
      by have := hI.above (i - m.min) (by omega) (by omega); omega⟩

theorem iter_bound_eq (m : monoid) (hI : Inv m) :
    iter_bound m = (m.conductor + m.min + 15) / 16 := by
  unfold iter_bound
  have := hI.cond_le
  have := hI.min_le
  rw [Nat.mod_eq_of_lt (by rw [U64_eq]; omega), Nat.shiftRight_eq_div_pow]

/-- The state built by `children_count`. -/
theorem children_count_spec (m : monoid) (hI : Inv m) (hb : iter_bound m < NBLOCKS) :
    ∃ it0, children_count m = some it0 ∧ it0.bound = iter_bound m ∧
      it0.iblock = m.conductor / 16 + 1 ∧
      IterInv (fun k => decide (m.conductor ≤ k ∧ m.decs.getD k 0 = 1)) m it0
        (16 * (m.conductor / 16)) := by
  have hbe := iter_bound_eq m hI
  rw [NBLOCKS_eq] at hb
  have hlen : m.decs.length = 128 := by have := hI.wf.1; rw [SIZE_eq] at this; exact this
  have hmp := hI.min_pos
  have hc : m.conductor < 128 := by omega
  obtain ⟨b, mk, hb1, hm1, hmm⟩ := movemask_masked m.decs m.conductor hlen hI.wf.2.1 hc
  have hsb : m.conductor >>> 4 = m.conductor / 16 := by rw [Nat.shiftRight_eq_div_pow]
  have e1 : (m.conductor / 16 + 1) % U64 = m.conductor / 16 + 1 :=
    Nat.mod_eq_of_lt (by rw [U64_eq]; omega)
  have e2 : ((m.conductor / 16) <<< 4) % U64 = 16 * (m.conductor / 16) := by
    rw [Nat.shiftLeft_eq, Nat.mod_eq_of_lt (by rw [U64_eq]; omega)]
    omega
  refine ⟨{ iblock := (m.conductor >>> 4 + 1) % U64,
            mask := movemask_epi8 (cmpeq_epi8 (and_epi8 b mk) block1),
            gen := ((m.conductor >>> 4) <<< 4 % U64 + U64 - 1) % U64,
            bound := iter_bound m }, ?_, rfl, ?_, ?_⟩
  · simp only [children_count, hb1, hm1, Option.bind_eq_bind, Option.some_bind]
  · show (m.conductor >>> 4 + 1) % U64 = _
    rw [hsb, e1]
  · rw [hsb, e1, e2]
    refine ⟨rfl, by show 1 ≤ m.conductor / 16 + 1; omega,
      by show _ ≤ 16 * (m.conductor / 16 + 1); omega,
      by show 16 * (m.conductor / 16 + 1 - 1) ≤ _; omega, ?_, ?_, ?_, hlen, ?_⟩
    · show movemask_epi8 (cmpeq_epi8 (and_epi8 b mk) block1) = _
      rw [hmm, show 16 * (m.conductor / 16 + 1) - 16 * (m.conductor / 16) = 16 by omega]
    · show m.conductor / 16 + 1 ≤ iter_bound m + 1
      omega
    · show iter_bound m ≤ 7
      omega
    · intro k hk
      have hk2 : 16 * (m.conductor / 16 + 1) ≤ k := hk
      apply Bool.decide_congr
      constructor
      · intro h; exact h.2
      · intro h; exact ⟨by omega, h⟩

theorem child_gens_eq (m : monoid) (hI : Inv m) (hb : iter_bound m < NBLOCKS) :
    (List.range (16 * (iter_bound m + 1))).filter
        (fun k => decide (16 * (m.conductor / 16) ≤ k) &&
          decide (m.conductor ≤ k ∧ m.decs.getD k 0 = 1)) = child_gens m := by
  have hbe := iter_bound_eq m hI
  rw [NBLOCKS_eq] at hb
  unfold child_gens
  rw [SIZE_eq]
  obtain ⟨k, hk⟩ : ∃ k, 128 = 16 * (iter_bound m + 1) + k :=
    ⟨128 - 16 * (iter_bound m + 1), by omega⟩
  rw [hk, filter_range_extend]
  · apply filter_range_congr
    intro a _
    by_cases h : m.conductor ≤ a
    · have : 16 * (m.conductor / 16) ≤ a := by omega
      simp [h, this]
    · simp [h]
  · intro a h1 h2
    apply decide_eq_false
    intro hh
    have := no_gen_above m hI a (by omega) (by omega)
    omega

/-- The loop over `children(m)` visits the children generators, in increasing order. -/
theorem children_visited_eq (m : monoid) (hI : Inv m) (hb : iter_bound m < NBLOCKS) :
    children_visited m = some (child_gens m) := by
  obtain ⟨it0, h0, hbd, -, hI0⟩ := children_count_spec m hI hb
  have hbe := iter_bound_eq m hI
  have hb8 := hb
  rw [NBLOCKS_eq] at hb8
  unfold children_visited children
  rw [h0]
  simp only [Option.bind_eq_bind, Option.some_bind]
  rw [visited_inc_spec _ m it0 _ (SIZE + 1) hI0 ?_ (by rw [SIZE_eq, hbd]; omega), hbd,
    child_gens_eq m hI hb]
  intro y h1 h2
  rw [hbd] at h1 h2
  apply decide_eq_false
  intro hh
  have := no_gen_above m hI y (by omega) (by omega)
  omega

theorem countP_range_add (p : Nat → Bool) (a b : Nat) :
    (List.range (a + b)).countP p =
      (List.range a).countP p + (List.range b).countP (fun t => p (a + t)) := by
  induction b with
  | zero => simp
  | succ b ih =>
    rw [← Nat.add_assoc, List.range_succ, List.countP_append, ih, List.range_succ,
      List.countP_append, List.countP_singleton, List.countP_singleton]
    omega

theorem popcnt_block (d : List Nat) (i : Nat) (hd : d.length = 128) (hi : i < 8) :
    ∃ b, nth_block d i = some b ∧
      popcnt_u32 (movemask_epi8 (cmpeq_epi8 b block1)) =
        (List.range 16).countP (fun t => decide (d.getD (16 * i + t) 0 = 1)) := by
  obtain ⟨b, hb1, -, -, hmm⟩ := movemask_block d i hd hi
  refine ⟨b, hb1, ?_⟩
  unfold popcnt_u32
  rw [hmm, Nat.mod_eq_of_lt (lt_of_lt_of_le (bits_lt _ _ _)
    (Nat.pow_le_pow_right (by norm_num) (by norm_num))), popcnt_bits_spec _ 16 _ 32 (by norm_num)]

/-- The loop of `count()`. -/
theorem count_loop_spec (m : monoid) (bound : Nat) (hlen : m.decs.length = 128)
    (hb : bound ≤ 7) (n : Nat) :
    ∀ (iblock nbr fuel : Nat), bound + 1 - iblock = n → iblock ≤ bound + 1 → n + 1 ≤ fuel →
      nbr < 256 →
      count_loop m bound fuel iblock nbr = some ((nbr +
        (List.range (16 * n)).countP (fun t => decide (m.decs.getD (16 * iblock + t) 0 = 1)))
          % 256) := by
  induction n with
  | zero =>
    intro iblock nbr fuel hn hle hf hnbr
    obtain ⟨f, rfl⟩ : ∃ f, fuel = f + 1 := ⟨fuel - 1, by omega⟩
    simp only [count_loop]
    rw [if_neg (by omega)]
    simp only [Nat.mul_zero, List.range_zero, List.countP_nil, Nat.add_zero]
    rw [Nat.mod_eq_of_lt hnbr]
  | succ n ih =>
    intro iblock nbr fuel hn hle hf hnbr
    obtain ⟨f, rfl⟩ : ∃ f, fuel = f + 1 := ⟨fuel - 1, by omega⟩
    obtain ⟨b, hb1, hpc⟩ := popcnt_block m.decs iblock hlen (by omega)
    simp only [count_loop]
    rw [if_pos (by omega), hb1]
    simp only [Option.bind_eq_bind, Option.some_bind]
    rw [Nat.mod_eq_of_lt (show iblock + 1 < U64 by rw [U64_eq]; omega),
      ih (iblock + 1) _ f (by omega) (by omega) (by omega) (Nat.mod_lt _ (by norm_num)), hpc,
      show 16 * (n + 1) = 16 + 16 * n by omega, countP_range_add]
    have hcg : (List.range (16 * n)).countP
          (fun t => decide (m.decs.getD (16 * (iblock + 1) + t) 0 = 1))
        = (List.range (16 * n)).countP
          (fun t => decide (m.decs.getD (16 * iblock + (16 + t)) 0 = 1)) := by
      apply countP_range_congr
      intro a _
      rw [show 16 * (iblock + 1) + a = 16 * iblock + (16 + a) by omega]
    rw [hcg]
    apply congrArg some
    omega

/-- The shortcut `children_count(m).count()` is the number of children generators. -/
theorem children_count_count (m : monoid) (hI : Inv m) (hb : iter_bound m < NBLOCKS) :
    (children_count m).bind (count m) = some (child_gens m).length := by
  obtain ⟨it0, h0, hbd, hib, hI0⟩ := children_count_spec m hI hb
  have hbe := iter_bound_eq m hI
  have hb8 := hb
  rw [NBLOCKS_eq] at hb8
  have hlen := hI0.len
  have hpl := hI0.pos_le
  have hpg := hI0.pos_ge
  have hbp := hI0.blk_pos
  have hble := hI0.blk_le
  rw [hbd] at hble
  rw [h0, Option.some_bind]
  unfold count
  rw [hbd, count_loop_spec m (iter_bound m) hlen (by omega) _ it0.iblock _ _ rfl hble
    (le_refl _) (Nat.mod_lt _ (by norm_num))]
  apply congrArg some
  have hmask : popcnt_u32 it0.mask = (List.range (16 * it0.iblock - 16 * (m.conductor / 16))).countP
      (fun t => decide (m.conductor ≤ 16 * (m.conductor / 16) + t ∧
        m.decs.getD (16 * (m.conductor / 16) + t) 0 = 1)) := by
    unfold popcnt_u32
    rw [hI0.mask_eq, Nat.mod_eq_of_lt (lt_of_lt_of_le (bits_lt _ _ _)
      (Nat.pow_le_pow_right (by norm_num) (by omega))), popcnt_bits_spec _ _ _ 32 (by omega)]
  have htot : (child_gens m).length =
      (List.range (16 * it0.iblock - 16 * (m.conductor / 16))).countP
        (fun t => decide (m.conductor ≤ 16 * (m.conductor / 16) + t ∧
          m.decs.getD (16 * (m.conductor / 16) + t) 0 = 1)) +
      (List.range (16 * (iter_bound m + 1 - it0.iblock))).countP
        (fun t => decide (m.decs.getD (16 * it0.iblock + t) 0 = 1)) := by
    rw [← child_gens_eq m hI hb, ← List.countP_eq_length_filter,
      show 16 * (iter_bound m + 1) = 16 * (m.conductor / 16) +
        ((16 * it0.iblock - 16 * (m.conductor / 16)) + 16 * (iter_bound m + 1 - it0.iblock)) by
        omega,
      countP_range_add, countP_range_add]
    have z : (List.range (16 * (m.conductor / 16))).countP
        (fun k => decide (16 * (m.conductor / 16) ≤ k) &&
          decide (m.conductor ≤ k ∧ m.decs.getD k 0 = 1)) = 0 := by
      rw [List.countP_eq_zero]
      intro a ha
      rw [List.mem_range] at ha
      have : ¬ 16 * (m.conductor / 16) ≤ a := by omega
      simp [this]
    rw [z, Nat.zero_add]
    refine congrArg₂ (fun a b => a + b) ?_ ?_
    · apply countP_range_congr
      intro a _
      have h1 : 16 * (m.conductor / 16) ≤ 16 * (m.conductor / 16) + a := by omega
      simp only [h1, decide_True, Bool.true_and]
    · apply countP_range_congr
      intro a _
      have h1 : 16 * (m.conductor / 16) ≤
          16 * (m.conductor / 16) + (16 * it0.iblock - 16 * (m.conductor / 16) + a) := by omega
      have h2 : m.conductor ≤
          16 * (m.conductor / 16) + (16 * it0.iblock - 16 * (m.conductor / 16) + a) := by omega
      have h3 : 16 * (m.conductor / 16) + (16 * it0.iblock - 16 * (m.conductor / 16) + a)
          = 16 * it0.iblock + a := by omega
      rw [h3] at h1 h2
      rw [h3]
      simp only [h1, h2, decide_True, Bool.true_and, true_and]
  have hle : (child_gens m).length ≤ 128 := by
    unfold child_gens
    have := List.length_filter_le
      (fun i => decide (m.conductor ≤ i ∧ m.decs.getD i 0 = 1)) (List.range SIZE)
    rw [List.length_range, SIZE_eq] at this
    exact this
  rw [hmask]
  omega

/-- The `for` loop of `walk_children` is its body run over the visited generators. -/
theorem spawn_for_eq (walk : monoid → List Nat → Option (List Nat)) (m : monoid) (fuel : Nat) :
    ∀ (it : generator_iter) (res : List Nat) (nbr : Nat),
      spawn_for walk m fuel it res nbr =
        match visited m fuel it with
        | none => none
        | some gens => spawn_list walk m gens res nbr := by
  induction fuel with
  | zero => intro it res nbr; rfl
  | succ f ih =>
    intro it res nbr
    simp only [spawn_for, visited]
    by_cases hfin : is_finished it = true
    · rw [if_pos hfin, if_pos hfin]; rfl
    · rw [if_neg hfin, if_neg hfin]
      simp only [Option.bind_eq_bind]
      cases hi : operator_inc m it with
      | none =>
        simp only [Option.none_bind]
        cases remove_generator m (get_gen it) with
        | none => rfl
        | some child =>
          simp only [Option.some_bind]
          cases walk child res with
          | none => rfl
          | some res1 => rfl
      | some it1 =>
        simp only [Option.some_bind]
        cases hv : visited m f it1 with
        | none =>
          simp only [Option.none_bind]
          cases remove_generator m (get_gen it) with
          | none => rfl
          | some child =>
            simp only [Option.some_bind]
            cases walk child res with
            | none => rfl
            | some res1 =>
              simp only [Option.some_bind]
              rw [ih, hv]
        | some rest =>
          simp only [Option.some_bind, spawn_list]
          cases remove_generator m (get_gen it) with
          | none => rfl
          | some child =>
            simp only [Option.some_bind]
            cases walk child res with
            | none => rfl
            | some res1 =>
              simp only [Option.some_bind]
              rw [ih, hv]

theorem slot_at_set_ne (slots slots1 : List (Option monoid)) (top cur : Nat) (dst : monoid)
    (h : slot_set slots top dst = some slots1) (hne : top ≠ cur) :
    slot_at slots1 cur = slot_at slots cur := by
  unfold slot_set at h
  split at h
  · have := Option.some.inj h
    subst this
    unfold slot_at
    rw [List.get?_eq_getElem?, List.get?_eq_getElem?, List.getElem?_set_ne hne]
  · exact absurd h (by simp)

/-- The `for` loop of `walk_children_stack` is its body run over the visited generators. -/
theorem walk_for_eq (current : Nat) (src : monoid) (fuel : Nat) :
    ∀ (it : generator_iter) (st : walk_state) (nbr : Nat),
      slot_at st.slots current = some src →
      walk_for current fuel it st nbr =
        match visited src fuel it with
        | none => none
        | some gens => push_list current src gens st nbr := by
  induction fuel with
  | zero => intro it st nbr _; rfl
  | succ f ih =>
    intro it st nbr hsrc
    simp only [walk_for, visited]
    by_cases hfin : is_finished it = true
    · rw [if_pos hfin, if_pos hfin]; rfl
    · rw [if_neg hfin, if_neg hfin]
      simp only [Option.bind_eq_bind, hsrc, Option.some_bind]
      have hpl : ∀ rest, push_list current src (get_gen it :: rest) st nbr =
          (stack_at st.stack ((st.stack_pointer + 1) % U64)).bind fun top =>
            (stack_set st.stack st.stack_pointer top).bind fun stack1 =>
              (if top = current then none else remove_generator src (get_gen it)).bind fun dst =>
                (slot_set st.slots top dst).bind fun slots1 =>
                  push_list current src rest
                    { slots := slots1, stack := stack1,
                      stack_pointer := (st.stack_pointer + 1) % U64, res := st.res }
                    ((nbr + 1) % U64) := by
        intro rest
        simp only [push_list]
        cases stack_at st.stack ((st.stack_pointer + 1) % U64) with
        | none => rfl
        | some top =>
          simp only [Option.some_bind]
          cases stack_set st.stack st.stack_pointer top with
          | none => rfl
          | some stack1 =>
            simp only [Option.some_bind]
            cases (if top = current then none else remove_generator src (get_gen it)) with
            | none => rfl
            | some dst =>
              simp only [Option.some_bind]
              cases slot_set st.slots top dst with
              | none => rfl
              | some slots1 => rfl
      cases hs : stack_at st.stack ((st.stack_pointer + 1) % U64) with
      | none =>
        simp only [Option.none_bind]
        cases hi : operator_inc src it with
        | none => rfl
        | some it1 =>
          simp only [Option.some_bind]
          cases hv : visited src f it1 with
          | none => rfl
          | some rest => simp only [Option.some_bind, hpl, hs, Option.none_bind]
      | some top =>
        simp only [Option.some_bind]
        cases hss : stack_set st.stack st.stack_pointer top with
        | none =>
          simp only [Option.none_bind]
          cases hi : operator_inc src it with
          | none => rfl
          | some it1 =>
            simp only [Option.some_bind]
            cases hv : visited src f it1 with
            | none => rfl
            | some rest => simp only [Option.some_bind, hpl, hs, hss, Option.none_bind]
        | some stack1 =>
          simp only [Option.some_bind]
          by_cases htc : top = current
          · subst htc
            simp only [if_true, Option.none_bind]
            cases hi : operator_inc src it with
            | none => rfl
            | some it1 =>
              simp only [Option.some_bind]
              cases hv : visited src f it1 with
              | none => rfl
              | some rest =>
                simp only [Option.some_bind, hpl, hs, hss, if_true, Option.none_bind]
          · simp only [htc, if_false]
            cases hr : remove_generator src (get_gen it) with
            | none =>
              simp only [Option.none_bind]
              cases hi : operator_inc src it with
              | none => rfl
              | some it1 =>
                simp only [Option.some_bind]
                cases hv : visited src f it1 with
                | none => rfl
                | some rest =>
                  simp only [Option.some_bind, hpl, hs, hss, htc, if_false, hr, Option.none_bind]
            | some dst =>
              simp only [Option.some_bind]
              cases hsl : slot_set st.slots top dst with
              | none =>
                simp only [Option.none_bind]
                cases hi : operator_inc src it with
                | none => rfl
                | some it1 =>
                  simp only [Option.some_bind]
                  cases hv : visited src f it1 with
                  | none => rfl
                  | some rest =>
                    simp only [Option.some_bind, hpl, hs, hss, htc, if_false, hr, hsl,
                      Option.none_bind]
              | some slots1 =>
                have hcur : slot_at slots1 current = some src := by
                  rw [slot_at_set_ne _ _ _ _ _ hsl htc, hsrc]
                simp only [Option.some_bind, hcur]
                cases hi : operator_inc src it with
                | none => rfl
                | some it1 =>
                  simp only [Option.some_bind]
                  rw [ih it1 _ _ hcur]
                  cases hv : visited src f it1 with
                  | none => rfl
                  | some rest =>
                    simp only [Option.some_bind, hpl, hs, hss, htc, if_false, hr, hsl]

theorem nth_block_some (d : List Nat) (i : Nat) (b : epi8) (h : nth_block d i = some b) :
    i < 8 := by
  unfold nth_block at h
  split at h
  · rename_i hh; rw [NBLOCKS_eq] at hh; exact hh
  · exact absurd h (by simp)

theorem operator_inc_loop_oob (m : monoid) (fuel : Nat) :
    ∀ (it it1 : generator_iter), it.iblock ≤ 8 → 8 ≤ it.bound →
      operator_inc_loop m fuel it = some it1 → it1.iblock ≤ 8 ∧ it1.bound = it.bound := by
  induction fuel with
  | zero => intro it it1 _ _ h; exact absurd h (by simp [operator_inc_loop])
  | succ f ih =>
    intro it it1 h1 h2 h
    simp only [operator_inc_loop] at h
    by_cases hm : it.mask = 0
    · rw [if_pos hm, if_neg (by omega)] at h
      cases hb : nth_block m.decs it.iblock with
      | none => rw [hb] at h; exact absurd h (by simp)
      | some b =>
        rw [hb] at h
        simp only [Option.bind_eq_bind, Option.some_bind] at h
        have hlt := nth_block_some _ _ _ hb
        have e1 : (it.iblock + 1) % U64 = it.iblock + 1 :=
          Nat.mod_eq_of_lt (by rw [U64_eq]; omega)
        rw [e1] at h
        exact ih { iblock := it.iblock + 1, mask := movemask_epi8 (cmpeq_epi8 b block1),
                   gen := (it.iblock <<< 4 % U64 + U64 - 1) % U64, bound := it.bound } it1
          (by show it.iblock + 1 ≤ 8; omega) h2 h
    · rw [if_neg hm] at h
      have := Option.some.inj h
      subst this
      exact ⟨h1, rfl⟩

theorem visited_oob (m : monoid) (fuel : Nat) :
    ∀ (it : generator_iter), it.iblock ≤ 8 → 8 ≤ it.bound → visited m fuel it = none := by
  induction fuel with
  | zero => intro it _ _; rfl
  | succ f ih =>
    intro it h1 h2
    simp only [visited]
    have hfin : ¬ is_finished it = true := by
      unfold is_finished
      simp only [decide_eq_true_eq]
      omega
    rw [if_neg hfin]
    cases hi : operator_inc m it with
    | none => rfl
    | some it1 =>
      obtain ⟨h3, h4⟩ := operator_inc_loop_oob m _ it it1 h1 h2 hi
      simp only [Option.bind_eq_bind, Option.some_bind]
      rw [ih it1 h3 (by omega)]
      rfl

theorem children_count_iblock (m : monoid) (it0 : generator_iter)
    (h : children_count m = some it0) : it0.iblock ≤ 8 ∧ it0.bound = iter_bound m := by
  simp only [children_count, Option.bind_eq_bind] at h
  cases hb : nth_block m.decs (m.conductor >>> 4) with
  | none => rw [hb] at h; exact absurd h (by simp)
  | some b =>
    rw [hb] at h
    simp only [Option.some_bind] at h
    cases hm : mask16.get? (m.conductor &&& 15) with
    | none => rw [hm] at h; exact absurd h (by simp)
    | some mk =>
      rw [hm] at h
      simp only [Option.some_bind] at h
      have := Option.some.inj h
      subst this
      have hlt := nth_block_some _ _ _ hb
      refine ⟨?_, rfl⟩
      show (m.conductor >>> 4 + 1) % U64 ≤ 8
      rw [Nat.mod_eq_of_lt (by rw [U64_eq]; omega)]
      omega

theorem children_visited_oob (m : monoid) (h : NBLOCKS ≤ iter_bound m) :
    children_visited m = none := by
  rw [NBLOCKS_eq] at h
  unfold children_visited children
  cases h0 : children_count m with
  | none => rfl
  | some it0 =>
    obtain ⟨h1, h2⟩ := children_count_iblock m it0 h0
    simp only [Option.bind_eq_bind, Option.some_bind]
    cases hi : operator_inc m it0 with
    | none => rfl
    | some it1 =>
      obtain ⟨h3, h4⟩ := operator_inc_loop_oob m _ it0 it1 h1 (by omega) hi
      simp only [Option.some_bind]
      exact visited_oob m _ it1 h3 (by omega)

theorem count_loop_oob (m : monoid) (bound : Nat) (hb : 8 ≤ bound) (fuel : Nat) :
    ∀ (iblock nbr : Nat), iblock ≤ 8 → count_loop m bound fuel iblock nbr = none := by
  induction fuel with
  | zero => intro _ _ _; rfl
  | succ f ih =>
    intro iblock nbr h
    simp only [count_loop]
    rw [if_pos (by omega)]
    cases hbk : nth_block m.decs iblock with
    | none => rfl
    | some b =>
      have hlt := nth_block_some _ _ _ hbk
      simp only [Option.bind_eq_bind, Option.some_bind]
      rw [Nat.mod_eq_of_lt (show iblock + 1 < U64 by rw [U64_eq]; omega)]
      exact ih _ _ (by omega)

theorem children_count_count_oob (m : monoid) (h : NBLOCKS ≤ iter_bound m) :
    (children_count m).bind (count m) = none := by
  rw [NBLOCKS_eq] at h
  cases h0 : children_count m with
  | none => rfl
  | some it0 =>
    obtain ⟨h1, h2⟩ := children_count_iblock m it0 h0
    simp only [Option.some_bind]
    unfold count
    exact count_loop_oob m _ (by omega) _ _ _ h1

/-- The loop over `children(m)` on an observed monoid: the children
generators, or a read outside `decs`. -/
theorem children_visited_char (m : monoid) (hI : Inv m) :
    children_visited m = if iter_bound m < NBLOCKS then some (child_gens m) else none := by
  by_cases h : iter_bound m < NBLOCKS
  · rw [if_pos h]; exact children_visited_eq m hI h
  · rw [if_neg h]; exact children_visited_oob m (by omega)

/-- The shortcut `count()` on an observed monoid: the number of children, or a
read outside `decs`. -/
theorem children_count_count_char (m : monoid) (hI : Inv m) :
    (children_count m).bind (count m) =
      if iter_bound m < NBLOCKS then some (child_gens m).length else none := by
  by_cases h : iter_bound m < NBLOCKS
  · rw [if_pos h]; exact children_count_count m hI h
  · rw [if_neg h]; exact children_count_count_oob m (by omega)

/-- On an observed monoid `remove_generator` returns for every generator. -/
theorem remove_generator_some (m : monoid) (g : Nat) (hI : Inv m) (hg : g < 128)
    (h1 : m.decs.getD g 0 = 1) :
    remove_generator m g = some
      { decs := removed_decs m.decs g, conductor := g + 1,
        min := if g = m.min then g + 1 else m.min,
        genus := (m.genus + 1) % U64 } := by
  rw [remove_generator_eq m g hI.wf, if_pos ⟨hg, h1, by rw [hI.zero]; omega⟩]

/-- In a monoid with `min = conductor` the conductor is a generator. -/
theorem ordinary_gen (m : monoid) (hI : Inv m) (h : m.min = m.conductor)
    (hc : m.conductor < 128) : m.decs.getD m.conductor 0 = 1 := by
  have hge := hI.above m.conductor (le_refl _) hc
  have hle : m.decs.getD m.conductor 0 ≤ 1 := by
    rw [hI.pairs _ hc]
    unfold pair_count
    have hcp := hI.cond_pos
    have e : (List.range (m.conductor / 2 + 1)).countP
        (fun a => decide (m.decs.getD a 0 ≠ 0 ∧ m.decs.getD (m.conductor - a) 0 ≠ 0))
        = (List.range (m.conductor / 2 + 1)).countP (fun a => decide (a = 0)) := by
      apply countP_range_congr
      intro a ha
      apply Bool.decide_congr
      constructor
      · intro hh
        by_contra hne
        exact hh.1 (hI.below_min a (by omega) (by omega))
      · intro hh
        subst hh
        exact ⟨by rw [hI.zero]; omega, by rw [Nat.sub_zero]; omega⟩
    rw [e, show m.conductor / 2 + 1 = 1 + m.conductor / 2 by omega, countP_range_extend]
    · decide
    · intro a h1 _
      exact decide_eq_false (by omega)
  omega

/-- The monoids `{0, n+1, n+2, ..}` are observed, up to `n = 127`. -/
theorem ordinary_reachable (n : Nat) (hn : n ≤ 127) :
    ∃ m, ordinary n = some m ∧ reachable m ∧ m.conductor = n + 1 ∧ m.min = n + 1 ∧
      m.genus = n := by
  induction n with
  | zero => exact ⟨init_full_N, rfl, reachable.root, rfl, rfl, rfl⟩
  | succ n ih =>
    obtain ⟨m, h1, h2, h3, h4, h5⟩ := ih (by omega)
    have hI := Inv_of_reachable m h2
    have hgen := ordinary_gen m hI (by omega) (by omega)
    rw [h3] at hgen
    have hr := remove_generator_some m (n + 1) hI (by omega) hgen
    refine ⟨_, ?_, reachable.child m _ (n + 1) h2 (by omega) hr, rfl, ?_, ?_⟩
    · simp only [ordinary, h1, Option.some_bind]
      exact hr
    · show (if n + 1 = m.min then n + 1 + 1 else m.min) = n + 1 + 1
      rw [if_pos h4.symm]
    · show (m.genus + 1) % U64 = n + 1
      rw [h5, Nat.mod_eq_of_lt (by rw [U64_eq]; omega)]

theorem remove_N_1 : remove_generator init_full_N 1 = some N1 := by decide

theorem reachable_N1 : reachable N1 :=
  reachable.child init_full_N N1 1 reachable.root (by decide) remove_N_1

/-! ## Child derivation -/

/-- C2, as the code has it: for every monoid `src` with `src.decs[0] != 0` and
every `g < SIZE` with `src.decs[g] = 1`, `remove_generator(src, g)` returns a
`dst` with `dst.conductor = g + 1`, `dst.genus = src.genus + 1` modulo `2^64`,
`dst.min = (g == src.min ? g + 1 : src.min)`, and for every `i < SIZE`:
`dst.decs[i] = src.decs[i]` when `i < g`, `dst.decs[i] = src.decs[i] - 1` as a
byte when `i ≥ g` and `src.decs[i - g] != 0`, and `dst.decs[i] = src.decs[i]`
when `i ≥ g` and `src.decs[i - g] = 0`. -/
theorem remove_generator_spec (src : monoid) (g : Nat) (hw : src.wf) (hg : g < SIZE)
    (h1 : src.decs.getD g 0 = 1) (h0 : src.decs.getD 0 0 ≠ 0) :
    ∃ dst, remove_generator src g = some dst ∧ dst.conductor = g + 1 ∧
      dst.genus = (src.genus + 1) % U64 ∧
      dst.min = (if g = src.min then g + 1 else src.min) ∧
      dst.decs.length = SIZE ∧
      ∀ i, i < SIZE → dst.decs.getD i 0 =
        if i < g then src.decs.getD i 0
        else if src.decs.getD (i - g) 0 ≠ 0 then (src.decs.getD i 0 + 256 - 1) % 256
        else src.decs.getD i 0 := by
  rw [SIZE_eq] at hg
  refine ⟨_, by rw [remove_generator_eq src g hw, if_pos ⟨hg, h1, h0⟩], rfl, rfl, rfl, ?_, ?_⟩
  · rw [SIZE_eq]; exact length_removed_decs _ _
  · intro i hi
    rw [SIZE_eq] at hi
    show (removed_decs src.decs g).getD i 0 = _
    rw [getD_removed_decs _ _ _ hi]
    by_cases c : i < g
    · rw [if_pos c, if_pos c]
    · rw [if_neg c, if_neg c]
      by_cases z : src.decs.getD (i - g) 0 = 0
      · rw [if_pos z, if_neg (not_not.mpr z), Nat.sub_zero, Nat.add_mod_right]
        exact Nat.mod_eq_of_lt (getD_lt_of_bytes _ hw.2.1 i)
      · rw [if_neg z, if_pos z]

/-- C2, instance `src = N`, `g = 1`: the call returns a monoid of genus 1,
conductor 2, min 2 whose bytes start `1, 0, 1, 1, 2`. -/
theorem remove_generator_spec_witness :
    init_full_N.wf ∧ 1 < SIZE ∧ init_full_N.decs.getD 1 0 = 1 ∧ init_full_N.decs.getD 0 0 ≠ 0 ∧
      ∃ dst, remove_generator init_full_N 1 = some dst ∧ dst.conductor = 2 ∧ dst.genus = 1 ∧
        dst.min = 2 ∧ dst.decs.getD 0 0 = 1 ∧ dst.decs.getD 1 0 = 0 ∧ dst.decs.getD 2 0 = 1 ∧
        dst.decs.getD 3 0 = 1 ∧ dst.decs.getD 4 0 = 2 := by
  refine ⟨wf_init, by decide, by decide, by decide, ?_⟩
  obtain ⟨dst, h1, h2, h3, h4, -, h6⟩ :=
    remove_generator_spec init_full_N 1 wf_init (by decide) (by decide) (by decide)
  refine ⟨dst, h1, h2, ?_, ?_, ?_, ?_, ?_, ?_, ?_⟩
  · rw [h3]; decide
  · rw [h4]; decide
  · rw [h6 0 (by decide)]; decide
  · rw [h6 1 (by decide)]; decide
  · rw [h6 2 (by decide)]; decide
  · rw [h6 3 (by decide)]; decide
  · rw [h6 4 (by decide)]; decide

/-- C2 fails as stated: on a struct with `decs[5] = 1` and `decs[0] = 0` the
closing `assert` of `remove_generator` fails and no `dst` is returned; and on
a struct whose `genus` is `2^64 - 1` the returned genus is `0`. -/
theorem remove_generator_spec_fails :
    (lone_five.wf ∧ 5 < SIZE ∧ lone_five.decs.getD 5 0 = 1 ∧
        remove_generator lone_five 5 = none) ∧
      (full_genus.wf ∧ 1 < SIZE ∧ full_genus.decs.getD 1 0 = 1 ∧
        (remove_generator full_genus 1).map (fun d => d.genus) = some 0 ∧
        full_genus.genus + 1 ≠ 0) := by
  have w5 : lone_five.wf := by
    refine ⟨by decide, ?_, by decide, by decide, by decide⟩
    intro x hx
    have : x = 0 ∨ x = 1 := by
      simp only [lone_five, List.mem_append, List.mem_cons, List.mem_replicate] at hx
      rcases hx with h | h
      · rcases h with h | h | h | h | h | h | h
        · exact Or.inl h
        · exact Or.inl h
        · exact Or.inl h
        · exact Or.inl h
        · exact Or.inl h
        · exact Or.inr h
        · exact absurd h (List.not_mem_nil _)
      · exact Or.inl h.2
    omega
  have wg : full_genus.wf :=
    ⟨wf_init.1, wf_init.2.1, by decide, by decide, by decide⟩
  refine ⟨⟨w5, by decide, by decide, ?_⟩, ⟨wg, by decide, by decide, ?_, by decide⟩⟩
  · rw [remove_generator_eq lone_five 5 w5, if_neg (by decide)]
  · rw [remove_generator_eq full_genus 1 wg, if_pos (by decide)]
    decide

/-! ## Invariants of the observed monoids -/

/-- C3: for the root `N` and every monoid `M` derived from it by child
removals, and every `i < SIZE`, `M.decs[i]` is the number of unordered pairs
`{a, b}`, `a ≤ b`, `a + b = i`, with `M.decs[a] != 0` and `M.decs[b] != 0`. -/
theorem decs_eq_pair_count (M : monoid) (h : reachable M) (i : Nat) (hi : i < SIZE) :
    M.decs.getD i 0 = pair_count M.decs i :=
  (Inv_of_reachable M h).pairs i (by rw [SIZE_eq] at hi; exact hi)

/-- C3 at the monoid `{0, 4, 5, 6, ..}` and index `9 = 4 + 5`. -/
theorem decs_eq_pair_count_witness :
    ∃ M, ordinary 3 = some M ∧ reachable M ∧ 9 < SIZE ∧ M.decs.getD 9 0 = pair_count M.decs 9 := by
  obtain ⟨M, h1, h2, -⟩ := ordinary_reachable 3 (by decide)
  exact ⟨M, h1, h2, by decide, decs_eq_pair_count M h2 9 (by decide)⟩

/-- C4, as the code has it: every observed monoid has `decs[0] = 1`,
`decs[i] ≥ 1` for every `i` in `[conductor, SIZE)`, `min ≤ conductor`, `genus`
equal to the number of `i` in `[1, conductor)` with `decs[i] = 0`, no element
at a positive index below `min`, `min ≤ SIZE`, and `decs[min] ≥ 1` when
`min < SIZE`. -/
theorem observed_invariants (M : monoid) (h : reachable M) :
    M.decs.getD 0 0 = 1 ∧
      (∀ i, M.conductor ≤ i → i < SIZE → 1 ≤ M.decs.getD i 0) ∧
      M.min ≤ M.conductor ∧
      M.genus = gap_count M ∧
      1 ≤ M.min ∧ M.min ≤ SIZE ∧
      (∀ i, 1 ≤ i → i < M.min → M.decs.getD i 0 = 0) ∧
      (M.min < SIZE → 1 ≤ M.decs.getD M.min 0) := by
  have hI := Inv_of_reachable M h
  rw [SIZE_eq]
  exact ⟨hI.zero, hI.above, hI.min_le, hI.genus_eq, hI.min_pos,
    le_trans hI.min_le hI.cond_le, hI.below_min, hI.at_min⟩

/-- C4 at the monoid `{0, 4, 5, 6, ..}`: its `min` is `4`, below `SIZE`, and
`decs[4] ≥ 1`. -/
theorem observed_invariants_witness :
    ∃ M, ordinary 3 = some M ∧ reachable M ∧ M.min = 4 ∧ 1 ≤ M.decs.getD M.min 0 := by
  obtain ⟨M, h1, h2, -, h4, -⟩ := ordinary_reachable 3 (by decide)
  exact ⟨M, h1, h2, h4, (observed_invariants M h2).2.2.2.2.2.2.2 (by rw [h4]; decide)⟩

/-- C4 fails as stated: the monoid reached by removing `1, 2, .., 127` is
observed and has `min = 128 = SIZE`, which is no index of `decs`: no positive
index holds an element, so `min` is not the smallest one. -/
theorem observed_min_not_element :
    ∃ M, ordinary 127 = some M ∧ reachable M ∧ M.min = 128 ∧ byte_at M.decs M.min = none ∧
      ∀ i, 1 ≤ i → i < SIZE → M.decs.getD i 0 = 0 := by
  obtain ⟨M, h1, h2, -, h4, -⟩ := ordinary_reachable 127 (by decide)
  have hI := Inv_of_reachable M h2
  refine ⟨M, h1, h2, h4, ?_, ?_⟩
  · rw [h4]; exact byte_at_none _ _ (le_refl _)
  · intro i hi1 hi2
    rw [SIZE_eq] at hi2
    exact hI.below_min i hi1 (by omega)

/-- C5, as the code has it: every monoid derived from the root by at least one
child removal has `decs[conductor - 1] = 0`. -/
theorem conductor_sharp (M : monoid) (h : derived M) :
    M.decs.getD (M.conductor - 1) 0 = 0 := by
  cases h with
  | child m dst g hr hc hrem =>
    have hI := Inv_of_reachable m hr
    obtain ⟨hg, hg1, -, rfl⟩ := child_form m M g hI.wf hrem
    show (removed_decs m.decs g).getD (g + 1 - 1) 0 = 0
    rw [Nat.add_sub_cancel]
    by_contra hne
    exact ((child_elem m g hI hc hg hg1 g hg).1 hne).2 rfl

/-- C5 at `N1 = remove_generator(N, 1)`: `decs[1] = 0`. -/
theorem conductor_sharp_witness : derived N1 ∧ N1.decs.getD (N1.conductor - 1) 0 = 0 := by
  have h : derived N1 := derived.child init_full_N N1 1 reachable.root (by decide) remove_N_1
  exact ⟨h, conductor_sharp N1 h⟩

/-- C5 fails as stated at the root: `N` has `conductor = 1` and `decs[0] = 1`. -/
theorem conductor_not_sharp_root :
    reachable init_full_N ∧ init_full_N.decs.getD (init_full_N.conductor - 1) 0 = 1 :=
  ⟨reachable.root, by decide⟩

/-- C6: `init_full_N` sets `decs[i] = i / 2 + 1` for every `i < SIZE = 128`, no
byte addition of its loop overflows, and `genus = 0`, `conductor = 1`,
`min = 1`. -/
theorem init_full_N_spec :
    SIZE = 128 ∧ init_full_N.decs = (List.range SIZE).map (fun i => i / 2 + 1) ∧
      (List.range NBLOCKS).all (fun n =>
        (List.zipWith (fun x y => decide (x + y < 256)) (init_block n) block8).all id) = true ∧
      init_full_N.genus = 0 ∧ init_full_N.conductor = 1 ∧ init_full_N.min = 1 :=
  ⟨SIZE_eq, init_decs, by decide, rfl, rfl, rfl⟩

/-! ## The generator iterator -/

/-- C7: for every observed monoid `M` whose iterator bound is below `NBLOCKS`,
the loop `for (it = children(M); !it.is_finished(); ++it)` sees through
`get_gen()` exactly the indices `i ≥ M.conductor` of the array with
`M.decs[i] = 1`, each once, in strictly increasing order. -/
theorem children_loop_spec (M : monoid) (h : reachable M) (hb : iter_bound M < NBLOCKS) :
    ∃ gens, children_visited M = some gens ∧ gens.Pairwise (fun a b => a < b) ∧
      ∀ i, i ∈ gens ↔ (M.conductor ≤ i ∧ i < SIZE ∧ M.decs.getD i 0 = 1) := by
  refine ⟨child_gens M, children_visited_eq M (Inv_of_reachable M h) hb, ?_, ?_⟩
  · unfold child_gens
    exact List.Pairwise.filter _ (List.pairwise_lt_range _)
  · intro i
    unfold child_gens
    rw [List.mem_filter, List.mem_range, decide_eq_true_iff]
    constructor
    · intro hh; exact ⟨hh.2.1, hh.1, hh.2.2⟩
    · intro hh; exact ⟨hh.2.1, hh.1, hh.2.2⟩

/-- C7 at `N1 = {0, 2, 3, ..}`: the loop sees `2` and `3`. -/
theorem children_loop_spec_witness :
    reachable N1 ∧ iter_bound N1 < NBLOCKS ∧ children_visited N1 = some [2, 3] := by
  have h : reachable N1 := reachable_N1
  refine ⟨h, by decide, ?_⟩
  obtain ⟨gens, h1, -, -⟩ := children_loop_spec N1 h (by decide)
  rw [h1]
  exact h1.symm.trans (by decide)

/-- C8 fails in the code: on the observed monoid `{0, 8, 9, 10, ..}` of genus 7
(iterator bound 1), whose generators are `8 .. 15`, the loop over `all(M)`
sees no generator: `all_count` keeps bits `1 .. 7` of the mask of block 0
(`mask &= 0xFE`) and so drops the indices `8 .. 15` with index `0`. -/
theorem all_loop_drops_generators :
    (ordinary 7).map iter_bound = some 1 ∧
      (ordinary 7).map all_gens = some [8, 9, 10, 11, 12, 13, 14, 15] ∧
      (ordinary 7).bind all_visited = some [] := by
  refine ⟨by decide, by decide, by decide⟩

/-- C9: for every observed monoid `M` whose iterator bound is below `NBLOCKS`,
`children_count(M).count()` is the number of passes of the loop over
`children(M)`, which is the number of indices `i ≥ M.conductor` with
`M.decs[i] = 1`; the `unsigned char` holds it without truncation. -/
theorem count_spec (M : monoid) (h : reachable M) (hb : iter_bound M < NBLOCKS) :
    (children_count M).bind (count M) = some (child_gens M).length ∧
      (children_visited M).map List.length = some (child_gens M).length ∧
      (child_gens M).length =
        (List.range SIZE).countP (fun i => decide (M.conductor ≤ i ∧ M.decs.getD i 0 = 1)) ∧
      (child_gens M).length < 256 := by
  have hI := Inv_of_reachable M h
  refine ⟨children_count_count M hI hb, by rw [children_visited_eq M hI hb]; rfl, ?_, ?_⟩
  · unfold child_gens
    rw [List.countP_eq_length_filter]
  · unfold child_gens
    have := List.length_filter_le
      (fun i => decide (M.conductor ≤ i ∧ M.decs.getD i 0 = 1)) (List.range SIZE)
    rw [List.length_range] at this
    have e := SIZE_eq
    omega

/-- C9 at `N1 = {0, 2, 3, ..}`: `count()` returns `2`. -/
theorem count_spec_witness :
    reachable N1 ∧ iter_bound N1 < NBLOCKS ∧ (children_count N1).bind (count N1) = some 2 := by
  have h : reachable N1 := reachable_N1
  refine ⟨h, by decide, ?_⟩
  rw [(count_spec N1 h (by decide)).1]
  decide

/-! ## Outcomes of fuelled loops -/

theorem eventually_const {α : Type} (o : Option α) : eventually (fun _ => o) o :=
  ⟨0, fun _ _ => rfl⟩

theorem eventually_step {α : Type} (f g : Nat → Option α) (o : Option α)
    (h : ∀ fuel, f (fuel + 1) = g fuel) (hg : eventually g o) : eventually f o := by
  obtain ⟨n, hn⟩ := hg
  refine ⟨n + 1, fun fuel hf => ?_⟩
  obtain ⟨k, rfl⟩ : ∃ k, fuel = k + 1 := ⟨fuel - 1, by omega⟩
  rw [h k]
  exact hn k (by omega)

theorem eventually_map {α β : Type} (f : Nat → Option α) (h : Option α → Option β)
    (o : Option α) (hf : eventually f o) : eventually (fun fuel => h (f fuel)) (h o) := by
  obtain ⟨n, hn⟩ := hf
  exact ⟨n, fun fuel hfu => by show h (f fuel) = h o; rw [hn fuel hfu]⟩

theorem eventually_unique {α : Type} (f : Nat → Option α) (o1 o2 : Option α)
    (h1 : eventually f o1) (h2 : eventually f o2) : o1 = o2 := by
  obtain ⟨n1, hn1⟩ := h1
  obtain ⟨n2, hn2⟩ := h2
  rw [← hn1 (n1 + n2) (by omega), ← hn2 (n1 + n2) (by omega)]

/-! ## The reducer -/

theorem length_reduce (a b : List Nat) : (reduce a b).length = Nat.min a.length b.length := by
  simp [reduce]

theorem length_reduce_same (a b : List Nat) (n : Nat) (ha : a.length = n) (hb : b.length = n) :
    (reduce a b).length = n := by
  rw [length_reduce, ha, hb]; exact Nat.min_self n

theorem getD_reduce (a b : List Nat) (n i : Nat) (ha : a.length = n) (hb : b.length = n)
    (hi : i < n) : (reduce a b).getD i 0 = (a.getD i 0 + b.getD i 0) % U64 := by
  have h1 : i < a.length := by omega
  have h2 : i < b.length := by omega
  simp [reduce, List.getD_eq_getElem?_getD, List.getElem?_zipWith, List.getElem?_eq_getElem,
    h1, h2]

theorem list_ext_getD_n (a b : List Nat) (n : Nat) (ha : a.length = n) (hb : b.length = n)
    (hg : ∀ k, k < n → a.getD k 0 = b.getD k 0) : a = b :=
  list_ext_getD a b (by rw [ha, hb]) (fun k hk => hg k (by omega))

theorem reduce_assoc (a b c : List Nat) (n : Nat) (ha : a.length = n) (hb : b.length = n)
    (hc : c.length = n) : reduce (reduce a b) c = reduce a (reduce b c) := by
  apply list_ext_getD_n _ _ n (length_reduce_same _ _ n (length_reduce_same _ _ n ha hb) hc)
    (length_reduce_same _ _ n ha (length_reduce_same _ _ n hb hc))
  intro k hk
  rw [getD_reduce _ _ n k (length_reduce_same _ _ n ha hb) hc hk, getD_reduce _ _ n k ha hb hk,
    getD_reduce _ _ n k ha (length_reduce_same _ _ n hb hc) hk, getD_reduce _ _ n k hb hc hk]
  rw [Nat.add_mod, Nat.mod_mod, ← Nat.add_mod, Nat.add_mod (a.getD k 0), Nat.mod_mod,
    ← Nat.add_mod, Nat.add_assoc]

theorem reduce_comm (a b : List Nat) (n : Nat) (ha : a.length = n) (hb : b.length = n) :
    reduce a b = reduce b a := by
  apply list_ext_getD_n _ _ n (length_reduce_same _ _ n ha hb) (length_reduce_same _ _ n hb ha)
  intro k hk
  rw [getD_reduce _ _ n k ha hb hk, getD_reduce _ _ n k hb ha hk, Nat.add_comm]

theorem Results_length : Results.length = 40 := by decide

theorem getD_Results (i : Nat) : Results.getD i 0 = 0 := by
  unfold Results
  rw [List.getD_eq_getElem?_getD]
  by_cases h : i < MAX_GENUS
  · rw [List.getElem?_eq_getElem (by simpa using h)]
    simp
  · rw [List.getElem?_eq_none (by simpa using h)]
    rfl

theorem getD_set (a : List Nat) (i k v : Nat) (hi : i < a.length) :
    (a.set i v).getD k 0 = if k = i then v else a.getD k 0 := by
  rw [List.getD_eq_getElem?_getD, List.getD_eq_getElem?_getD, List.getElem?_set]
  by_cases h : i = k
  · subst h
    simp [hi]
  · rw [if_neg h, if_neg (fun e => h e.symm)]

/-- The statement `res[i] += v`, for `i < MAX_GENUS`. -/
theorem res_add_some (res : List Nat) (i v : Nat) (hr : res.length = 40) (hi : i < 40) :
    res_add res i v = some (res.set i ((res.getD i 0 + v) % U64)) := by
  unfold res_add
  rw [if_pos ⟨by rw [show MAX_GENUS = 40 from rfl]; exact hi, by omega⟩]

theorem res_add_none (res : List Nat) (i v : Nat) (hi : 40 ≤ i) : res_add res i v = none := by
  unfold res_add
  rw [if_neg (fun h => by have := h.1; rw [show MAX_GENUS = 40 from rfl] at this; omega)]

theorem counters_Results : counters Results :=
  ⟨rfl, fun k => by rw [getD_Results]; rw [U64_eq]; norm_num⟩

theorem counters_reduce (a b : List Nat) (ha : a.length = 40) (hb : b.length = 40) :
    counters (reduce a b) := by
  refine ⟨length_reduce_same _ _ 40 ha hb, fun k => ?_⟩
  by_cases hk : k < 40
  · rw [getD_reduce _ _ 40 k ha hb hk]
    exact Nat.mod_lt _ (by rw [U64_eq]; norm_num)
  · rw [List.getD_eq_getElem?_getD, List.getElem?_eq_none
      (by rw [length_reduce_same _ _ 40 ha hb]; omega)]
    show 0 < U64
    rw [U64_eq]; norm_num

theorem counters_res_add (res r : List Nat) (i v : Nat) (hr : counters res)
    (h : res_add res i v = some r) : counters r := by
  obtain ⟨hl, hv⟩ := hr
  have hl40 : res.length = 40 := hl
  by_cases hi : i < 40
  · rw [res_add_some res i v hl40 hi] at h
    have := Option.some.inj h
    subst this
    refine ⟨by simp [hl], fun k => ?_⟩
    rw [getD_set _ _ _ _ (by omega)]
    split
    · exact Nat.mod_lt _ (by rw [U64_eq]; norm_num)
    · exact hv k
  · rw [res_add_none res i v (by omega)] at h
    exact absurd h (by simp)

/-- An addition to a counter is a `reduce` with the array that holds the addend alone. -/
theorem res_add_eq_reduce (res : List Nat) (i v : Nat) (hr : counters res) :
    res_add res i v = (res_add Results i v).map (reduce res) := by
  obtain ⟨hl, hv⟩ := hr
  have hl40 : res.length = 40 := hl
  by_cases hi : i < 40
  · rw [res_add_some res i v hl40 hi, res_add_some Results i v Results_length hi]
    show _ = some _
    apply congrArg some
    have hl1 : (res.set i ((res.getD i 0 + v) % U64)).length = 40 := by simp [hl40]
    have hl2 : (Results.set i ((Results.getD i 0 + v) % U64)).length = 40 := by
      simp [Results_length]
    apply list_ext_getD_n _ _ 40 hl1 (length_reduce_same _ _ 40 hl40 hl2)
    intro k hk
    rw [getD_reduce _ _ 40 k hl40 hl2 hk, getD_set _ _ _ _ (by omega),
      getD_set _ _ _ _ (by rw [Results_length]; omega), getD_Results, getD_Results]
    by_cases e : k = i
    · rw [if_pos e, if_pos e, e, Nat.zero_add, Nat.add_mod_mod]
    · rw [if_neg e, if_neg e, Nat.add_zero, Nat.mod_eq_of_lt (hv k)]
  · rw [res_add_none res i v (by omega), res_add_none Results i v (by omega)]
    rfl

/-! ## The stack of the sequential sub-walker -/

theorem stack_at_eq (stack : List Nat) (i : Nat) (hl : stack.length = 50) (hi : i < 50) :
    stack_at stack i = some (stack.getD i 0) := by
  unfold stack_at
  rw [if_pos (by rw [show STACK_SIZE = 50 from rfl]; exact hi)]
  simp [List.getD_eq_getElem?_getD, List.getElem?_eq_getElem, hl, hi]

theorem stack_at_none (stack : List Nat) (i : Nat) (hi : 50 ≤ i) : stack_at stack i = none := by
  unfold stack_at
  rw [if_neg (by rw [show STACK_SIZE = 50 from rfl]; omega)]

theorem stack_set_eq (stack : List Nat) (i p : Nat) (hl : stack.length = 50) (hi : i < 50) :
    stack_set stack i p = some (stack.set i p) := by
  unfold stack_set
  rw [if_pos ⟨by rw [show STACK_SIZE = 50 from rfl]; exact hi, by omega⟩]

theorem stack_set_none (stack : List Nat) (i p : Nat) (hi : 50 ≤ i) :
    stack_set stack i p = none := by
  unfold stack_set
  rw [if_neg (fun h => by have := h.1; rw [show STACK_SIZE = 50 from rfl] at this; omega)]

theorem slot_set_eq (slots : List (Option monoid)) (p : Nat) (m : monoid)
    (hp : p < slots.length) : slot_set slots p m = some (slots.set p (some m)) := by
  unfold slot_set
  rw [if_pos hp]

theorem slot_at_set_self (slots : List (Option monoid)) (p : Nat) (m : monoid)
    (hp : p < slots.length) : slot_at (slots.set p (some m)) p = some m := by
  unfold slot_at
  rw [List.get?_eq_getElem?, List.getElem?_set_self hp]
  rfl

theorem slot_at_set_other (slots : List (Option monoid)) (p q : Nat) (m : monoid)
    (hne : p ≠ q) : slot_at (slots.set p (some m)) q = slot_at slots q := by
  unfold slot_at
  rw [List.get?_eq_getElem?, List.get?_eq_getElem?, List.getElem?_set_ne hne]

theorem all_some_append {α β : Type} (f : α → Option β) (l1 l2 : List α) :
    all_some f (l1 ++ l2) =
      match all_some f l1 with
      | none => none
      | some b1 =>
        match all_some f l2 with
        | none => none
        | some b2 => some (b1 ++ b2) := by
  induction l1 with
  | nil =>
    simp only [List.nil_append, all_some]
    cases all_some f l2 <;> rfl
  | cons a as ih =>
    simp only [List.cons_append, all_some]
    cases f a with
    | none => rfl
    | some b =>
      simp only []
      show (match all_some f (as ++ l2) with
        | none => none
        | some bs => some (b :: bs)) = _
      rw [ih]
      cases all_some f as with
      | none => rfl
      | some bs =>
        simp only []
        cases all_some f l2 <;> rfl

theorem all_some_length {α β : Type} (f : α → Option β) (l : List α) (bs : List β)
    (h : all_some f l = some bs) : bs.length = l.length := by
  induction l generalizing bs with
  | nil =>
    simp only [all_some] at h
    rw [← Option.some.inj h]
    rfl
  | cons a as ih =>
    simp only [all_some] at h
    cases hf : f a with
    | none => rw [hf] at h; exact absurd h (by simp)
    | some b =>
      rw [hf] at h
      cases hr : all_some f as with
      | none => rw [hr] at h; exact absurd h (by simp)
      | some bs1 =>
        rw [hr] at h
        rw [← Option.some.inj h, List.length_cons, List.length_cons, ih bs1 hr]

/-- One pass of the `for` loop of `walk_children_stack` keeps the memory well formed. -/
theorem pushing_step (st : walk_state) (F : List monoid) (current : Nat) (m : monoid)
    (cs : List monoid) (c : monoid) (h : Pushing st F current m cs)
    (hsp : st.stack_pointer + 1 < 50) :
    st.stack.getD (st.stack_pointer + 1) 0 ≠ current ∧
      Pushing
        { slots := st.slots.set (st.stack.getD (st.stack_pointer + 1) 0) (some c),
          stack := st.stack.set st.stack_pointer (st.stack.getD (st.stack_pointer + 1) 0),
          stack_pointer := st.stack_pointer + 1, res := st.res }
        F current m (cs ++ [c]) := by
  have hne : st.stack.getD (st.stack_pointer + 1) 0 ≠ current :=
    h.cur_fresh _ hsp (by omega)
  have hgs : ∀ i, (st.stack.set st.stack_pointer (st.stack.getD (st.stack_pointer + 1) 0)).getD i 0
      = if i = st.stack_pointer then st.stack.getD (st.stack_pointer + 1) 0
        else st.stack.getD i 0 := fun i => getD_set _ _ _ _ (by rw [h.stack_len]; omega)
  refine ⟨hne, ⟨by simp [h.stack_len], by simp [h.slots_len], ?_, h.cur_lt, ?_, hsp, ?_, ?_, ?_, ?_⟩⟩
  · intro i hi
    show (st.stack.set _ _).getD i 0 < 50
    rw [hgs]
    split
    · exact h.ptr_lt _ hsp
    · exact h.ptr_lt i hi
  · show st.stack_pointer + 1 = F.length + (cs ++ [c]).length
    rw [h.sp_eq, List.length_append, List.length_singleton]
    omega
  · intro i j hi hj hi2 hj2 hij
    have hi3 : i ≠ st.stack_pointer + 1 := hi2
    have hj3 : j ≠ st.stack_pointer + 1 := hj2
    show (st.stack.set _ _).getD i 0 ≠ (st.stack.set _ _).getD j 0
    rw [hgs, hgs]
    by_cases e1 : i = st.stack_pointer
    · rw [if_pos e1]
      have e2 : j ≠ st.stack_pointer := by omega
      rw [if_neg e2]
      exact h.inj _ _ hsp hj (by omega) e2 (fun e => hj3 e.symm)
    · rw [if_neg e1]
      by_cases e2 : j = st.stack_pointer
      · rw [if_pos e2]
        exact h.inj _ _ hi hsp e1 (by omega) hi3
      · rw [if_neg e2]
        exact h.inj _ _ hi hj e1 e2 hij
  · intro i hi hi2
    have hi3 : i ≠ st.stack_pointer + 1 := hi2
    show (st.stack.set _ _).getD i 0 ≠ current
    rw [hgs]
    by_cases e1 : i = st.stack_pointer
    · rw [if_pos e1]; exact hne
    · rw [if_neg e1]; exact h.cur_fresh i hi e1
  · show slot_at (st.slots.set _ _) current = some m
    rw [slot_at_set_other _ _ _ _ hne]
    exact h.cur_slot
  · intro i f hf
    show slot_at (st.slots.set _ _) ((st.stack.set _ _).getD i 0) = some f
    rw [hgs]
    have hlen : (F ++ cs).length = st.stack_pointer := by
      rw [List.length_append, h.sp_eq]
    by_cases e1 : i = st.stack_pointer
    · rw [if_pos e1]
      rw [← List.append_assoc, List.get?_eq_getElem?, List.getElem?_append_right (by omega),
        show i - (F ++ cs).length = 0 by omega] at hf
      have : f = c := by simpa using hf.symm
      rw [this]
      exact slot_at_set_self _ _ _ (by rw [h.slots_len]; exact h.ptr_lt _ hsp)
    · rw [if_neg e1]
      have hilt : i < st.stack_pointer := by
        have := List.get?_eq_some.1 hf
        obtain ⟨hh, -⟩ := this
        rw [← List.append_assoc, List.length_append, List.length_singleton, hlen] at hh
        omega
      rw [← List.append_assoc, List.get?_eq_getElem?,
        List.getElem?_append_left (by omega), ← List.get?_eq_getElem?] at hf
      rw [slot_at_set_other _ _ _ _
        (h.inj _ _ hsp (by omega) (by omega) (by omega) (by omega))]
      exact h.frame i f hf

/-- The `for` loop of `walk_children_stack` pushes the children of `m`. -/
theorem push_list_some (F : List monoid) (current : Nat) (m : monoid) (gens : List Nat) :
    ∀ (cs0 cs : List monoid) (st : walk_state) (nbr : Nat), Pushing st F current m cs0 →
      F.length + cs0.length + gens.length ≤ 49 → nbr + gens.length < U64 →
      all_some (remove_generator m) gens = some cs →
      ∃ st1, push_list current m gens st nbr = some (st1, nbr + gens.length) ∧
        Pushing st1 F current m (cs0 ++ cs) ∧ st1.res = st.res := by
  induction gens with
  | nil =>
    intro cs0 cs st nbr h _ _ hall
    simp only [all_some] at hall
    rw [← Option.some.inj hall, List.append_nil]
    exact ⟨st, rfl, h, rfl⟩
  | cons g gs ih =>
    intro cs0 cs st nbr h hcap hnbr hall
    simp only [all_some] at hall
    cases hr : remove_generator m g with
    | none => rw [hr] at hall; exact absurd hall (by simp)
    | some c =>
      rw [hr] at hall
      cases hrest : all_some (remove_generator m) gs with
      | none => rw [hrest] at hall; exact absurd hall (by simp)
      | some cs1 =>
        rw [hrest] at hall
        have hcs : cs = c :: cs1 := (Option.some.inj hall).symm
        have hsp := h.sp_eq
        rw [List.length_cons] at hcap hnbr
        have hsp1 : st.stack_pointer + 1 < 50 := by omega
        obtain ⟨hne, hP⟩ := pushing_step st F current m cs0 c h hsp1
        have e1 : (st.stack_pointer + 1) % U64 = st.stack_pointer + 1 :=
          Nat.mod_eq_of_lt (by rw [U64_eq]; omega)
        have e2 : (nbr + 1) % U64 = nbr + 1 := Nat.mod_eq_of_lt (by omega)
        obtain ⟨st1, h1, h2, h3⟩ := ih (cs0 ++ [c]) cs1 _ (nbr + 1) hP
          (by rw [List.length_append, List.length_singleton]; omega) (by omega) hrest
        refine ⟨st1, ?_, ?_, h3⟩
        · simp only [push_list, e1, e2, stack_at_eq _ _ h.stack_len hsp1,
            stack_set_eq _ _ _ h.stack_len h.sp_lt, if_neg hne, hr,
            slot_set_eq _ _ _ (show st.stack.getD (st.stack_pointer + 1) 0 < st.slots.length by
              rw [h.slots_len]; exact h.ptr_lt _ hsp1)]
          rw [h1, List.length_cons]
          congr 2
          omega
        · rw [hcs, show cs0 ++ c :: cs1 = cs0 ++ [c] ++ cs1 by simp]
          exact h2

/-- The `for` loop of `walk_children_stack` fails when a child cannot be derived. -/
theorem push_list_none (F : List monoid) (current : Nat) (m : monoid) (gens : List Nat) :
    ∀ (cs0 : List monoid) (st : walk_state) (nbr : Nat), Pushing st F current m cs0 →
      F.length + cs0.length + gens.length ≤ 49 → nbr + gens.length < U64 →
      all_some (remove_generator m) gens = none →
      push_list current m gens st nbr = none := by
  induction gens with
  | nil =>
    intro cs0 st nbr _ _ _ hall
    exact absurd hall (by simp [all_some])
  | cons g gs ih =>
    intro cs0 st nbr h hcap hnbr hall
    have hsp := h.sp_eq
    rw [List.length_cons] at hcap hnbr
    have hsp1 : st.stack_pointer + 1 < 50 := by omega
    have e1 : (st.stack_pointer + 1) % U64 = st.stack_pointer + 1 :=
      Nat.mod_eq_of_lt (by rw [U64_eq]; omega)
    have e2 : (nbr + 1) % U64 = nbr + 1 := Nat.mod_eq_of_lt (by omega)
    simp only [all_some] at hall
    cases hr : remove_generator m g with
    | none =>
      have hne : st.stack.getD (st.stack_pointer + 1) 0 ≠ current :=
        h.cur_fresh _ hsp1 (by omega)
      simp only [push_list, e1, stack_at_eq _ _ h.stack_len hsp1,
        stack_set_eq _ _ _ h.stack_len h.sp_lt, if_neg hne, hr]
    | some c =>
      rw [hr] at hall
      obtain ⟨hne, hP⟩ := pushing_step st F current m cs0 c h hsp1
      cases hrest : all_some (remove_generator m) gs with
      | some cs1 => rw [hrest] at hall; exact absurd hall (by simp)
      | none =>
        have := ih (cs0 ++ [c]) _ (nbr + 1) hP
          (by rw [List.length_append, List.length_singleton]; omega) (by omega) hrest
        simp only [push_list, e1, e2, stack_at_eq _ _ h.stack_len hsp1,
          stack_set_eq _ _ _ h.stack_len h.sp_lt, if_neg hne, hr,
          slot_set_eq _ _ _ (show st.stack.getD (st.stack_pointer + 1) 0 < st.slots.length by
            rw [h.slots_len]; exact h.ptr_lt _ hsp1)]
        exact this

theorem get?_last (F : List monoid) (m : monoid) : (F ++ [m]).get? F.length = some m := by
  rw [List.get?_eq_getElem?, List.getElem?_append_right (le_refl _), Nat.sub_self]
  rfl

theorem get?_init (F : List monoid) (G : List monoid) (i : Nat) (f : monoid)
    (h : F.get? i = some f) : (F ++ G).get? i = some f := by
  have hlt : i < F.length := (List.get?_eq_some.1 h).1
  rw [List.get?_eq_getElem?, List.getElem?_append_left hlt, ← List.get?_eq_getElem?]
  exact h

/-- Popping the top frame: the memory at the start of the `for` loop. -/
theorem frames_pop (st : walk_state) (F : List monoid) (m : monoid) (r : List Nat)
    (h : Frames st (F ++ [m])) :
    F.length < 50 ∧ slot_at st.slots (st.stack.getD F.length 0) = some m ∧
      Pushing { slots := st.slots, stack := st.stack, stack_pointer := F.length, res := r }
        F (st.stack.getD F.length 0) m [] ∧
      Frames { slots := st.slots, stack := st.stack, stack_pointer := F.length, res := r } F := by
  have hlen := h.len_le
  rw [List.length_append, List.length_singleton] at hlen
  have hF : F.length < 50 := by omega
  have hm := h.frame F.length m (get?_last F m)
  refine ⟨hF, hm, ⟨h.stack_len, h.slots_len, h.ptr_lt, h.ptr_lt _ hF, by simp, hF, ?_, ?_, hm, ?_⟩,
    ⟨h.stack_len, h.slots_len, h.ptr_lt, h.inj, by omega, rfl, ?_⟩⟩
  · intro i j hi hj _ _ hij
    exact h.inj i j hi hj hij
  · intro i hi hne
    exact h.inj i F.length hi hF hne
  · intro i f hf
    rw [List.append_nil] at hf
    exact h.frame i f (get?_init F [m] i f hf)
  · intro i f hf
    exact h.frame i f (get?_init F [m] i f hf)

/-- After the `for` loop, `stack[stack_pointer] = current` restores distinct pointers. -/
theorem pushing_final (st : walk_state) (F : List monoid) (current : Nat) (m : monoid)
    (cs : List monoid) (r : List Nat) (h : Pushing st F current m cs) :
    Frames { slots := st.slots, stack := st.stack.set st.stack_pointer current,
             stack_pointer := st.stack_pointer, res := r } (F ++ cs) := by
  have hgs : ∀ i, (st.stack.set st.stack_pointer current).getD i 0
      = if i = st.stack_pointer then current else st.stack.getD i 0 :=
    fun i => getD_set _ _ _ _ (by rw [h.stack_len]; exact h.sp_lt)
  have hsp := h.sp_eq
  have hlt := h.sp_lt
  refine ⟨by simp [h.stack_len], h.slots_len, ?_, ?_, ?_, ?_, ?_⟩
  · intro i hi
    show (st.stack.set _ _).getD i 0 < 50
    rw [hgs]
    split
    · exact h.cur_lt
    · exact h.ptr_lt i hi
  · intro i j hi hj hij
    show (st.stack.set _ _).getD i 0 ≠ (st.stack.set _ _).getD j 0
    rw [hgs, hgs]
    by_cases e1 : i = st.stack_pointer
    · rw [if_pos e1, if_neg (by omega)]
      exact fun e => h.cur_fresh j hj (by omega) e.symm
    · rw [if_neg e1]
      by_cases e2 : j = st.stack_pointer
      · rw [if_pos e2]
        exact h.cur_fresh i hi e1
      · rw [if_neg e2]
        exact h.inj i j hi hj e1 e2 hij
  · rw [List.length_append]; omega
  · show st.stack_pointer = (F ++ cs).length
    rw [List.length_append]; exact hsp
  · intro i f hf
    show slot_at st.slots ((st.stack.set _ _).getD i 0) = some f
    have hilt : i < (F ++ cs).length := (List.get?_eq_some.1 hf).1
    rw [List.length_append] at hilt
    rw [hgs, if_neg (by omega)]
    exact h.frame i f hf

theorem children_visited_def (m : monoid) :
    children_visited m = (children m).bind (visited m (SIZE + 1)) := rfl

/-- One pass of the `while` loop on a monoid that is expanded. -/
theorem walk_while_expand (bound fuel : Nat) (st : walk_state) (F : List monoid) (m : monoid)
    (h : Frames st (F ++ [m])) (hexp : m.genus < (bound + U64 - 1) % U64) :
    walk_while bound (fuel + 1) st =
      match children_visited m with
      | none => none
      | some gens =>
        match push_list (st.stack.getD F.length 0) m gens
            { slots := st.slots, stack := st.stack, stack_pointer := F.length, res := st.res }
            0 with
        | none => none
        | some (st1, nbr) =>
          match stack_set st1.stack st1.stack_pointer (st.stack.getD F.length 0),
              slot_at st1.slots (st.stack.getD F.length 0) with
          | some stack2, some cur2 =>
            match res_add st1.res cur2.genus nbr with
            | none => none
            | some res2 =>
              walk_while bound fuel
                { slots := st1.slots, stack := stack2,
                  stack_pointer := st1.stack_pointer, res := res2 }
          | _, _ => none := by
  obtain ⟨hF, hm, -, -⟩ := frames_pop st F m st.res h
  have hsp : st.stack_pointer = F.length + 1 := by
    rw [h.sp_eq, List.length_append, List.length_singleton]
  have hsp0 : st.stack_pointer ≠ 0 := by omega
  have hsp1 : st.stack_pointer - 1 = F.length := by omega
  simp only [walk_while]
  rw [if_neg hsp0]
  simp only [hsp1, stack_at_eq _ _ h.stack_len hF, hm]
  rw [if_pos hexp, children_visited_def]
  cases hc : children m with
  | none => rfl
  | some it =>
    simp only [Option.some_bind]
    rw [walk_for_eq _ m _ it
      { slots := st.slots, stack := st.stack, stack_pointer := F.length, res := st.res } 0 hm]
    cases visited m (SIZE + 1) it with
    | none => rfl
    | some gens => rfl

/-- One pass of the `while` loop on a monoid that is not expanded. -/
theorem walk_while_count (bound fuel : Nat) (st : walk_state) (F : List monoid) (m : monoid)
    (h : Frames st (F ++ [m])) (hexp : ¬ m.genus < (bound + U64 - 1) % U64) :
    walk_while bound (fuel + 1) st =
      match (children_count m).bind (count m) with
      | none => none
      | some c =>
        match res_add st.res m.genus c with
        | none => none
        | some res2 =>
          walk_while bound fuel
            { slots := st.slots, stack := st.stack, stack_pointer := F.length, res := res2 } := by
  obtain ⟨hF, hm, -, -⟩ := frames_pop st F m st.res h
  have hsp : st.stack_pointer = F.length + 1 := by
    rw [h.sp_eq, List.length_append, List.length_singleton]
  have hsp0 : st.stack_pointer ≠ 0 := by omega
  have hsp1 : st.stack_pointer - 1 = F.length := by omega
  simp only [walk_while]
  rw [if_neg hsp0]
  simp only [hsp1, stack_at_eq _ _ h.stack_len hF, hm]
  rw [if_neg hexp]

/-- The `while` loop ends on an empty stack. -/
theorem walk_while_done (bound fuel : Nat) (st : walk_state) (h : Frames st []) :
    walk_while bound (fuel + 1) st = some st.res := by
  simp only [walk_while]
  rw [if_pos (by rw [h.sp_eq]; rfl)]

theorem all_some_mem {α β : Type} (f : α → Option β) (l : List α) (bs : List β)
    (h : all_some f l = some bs) (b : β) (hb : b ∈ bs) : ∃ a, a ∈ l ∧ f a = some b := by
  induction l generalizing bs with
  | nil =>
    simp only [all_some] at h
    rw [← Option.some.inj h] at hb
    exact absurd hb (List.not_mem_nil _)
  | cons a as ih =>
    simp only [all_some] at h
    cases hf : f a with
    | none => rw [hf] at h; exact absurd h (by simp)
    | some b1 =>
      rw [hf] at h
      cases hr : all_some f as with
      | none => rw [hr] at h; exact absurd h (by simp)
      | some bs1 =>
        rw [hr] at h
        rw [← Option.some.inj h, List.mem_cons] at hb
        rcases hb with e | e
        · exact ⟨a, List.mem_cons_self _ _, by rw [hf, e]⟩
        · obtain ⟨a2, h1, h2⟩ := ih bs1 hr e
          exact ⟨a2, List.mem_cons_of_mem _ h1, h2⟩

theorem foldl_reduce_length (vs : List (List Nat)) :
    ∀ u : List Nat, u.length = 40 → (∀ v ∈ vs, v.length = 40) →
      (vs.foldl reduce u).length = 40 := by
  induction vs with
  | nil => intro u hu _; exact hu
  | cons v vs ih =>
    intro u hu hv
    rw [List.foldl_cons]
    exact ih _ (length_reduce_same _ _ 40 hu (hv v (List.mem_cons_self _ _)))
      (fun w hw => hv w (List.mem_cons_of_mem _ hw))

theorem res_add_Results_length (i v : Nat) (u : List Nat) (h : res_add Results i v = some u) :
    u.length = 40 := (counters_res_add Results u i v counters_Results h).1

/-- The reference walk returns an array of `MAX_GENUS` counters. -/
theorem tree_walk_length (bound d : Nat) :
    ∀ (m : monoid) (v : List Nat), tree_walk bound d m = some v → v.length = 40 := by
  induction d with
  | zero => intro m v h; exact absurd h (by simp [tree_walk])
  | succ d ih =>
    intro m v h
    simp only [tree_walk] at h
    split at h
    · split at h
      · exact absurd h (by simp)
      · split at h
        · exact absurd h (by simp)
        · split at h
          · exact absurd h (by simp)
          · rename_i cs _ vs hvs
            split at h
            · exact absurd h (by simp)
            · rename_i u hu
              rw [← Option.some.inj h]
              apply foldl_reduce_length _ _ (res_add_Results_length _ _ _ hu)
              intro w hw
              obtain ⟨c, -, hc⟩ := all_some_mem _ _ _ hvs w hw
              exact ih c w hc
    · split at h
      · exact absurd h (by simp)
      · exact res_add_Results_length _ _ _ h

theorem foldl_reduce_comm (vs : List (List Nat)) :
    ∀ (u v : List Nat), u.length = 40 → v.length = 40 → (∀ w ∈ vs, w.length = 40) →
      reduce (vs.foldl reduce u) v = vs.foldl reduce (reduce u v) := by
  induction vs with
  | nil => intro u v _ _ _; rfl
  | cons w vs ih =>
    intro u v hu hv hw
    have hw0 := hw w (List.mem_cons_self _ _)
    rw [List.foldl_cons, List.foldl_cons,
      ih (reduce u w) v (length_reduce_same _ _ 40 hu hw0) hv
        (fun x hx => hw x (List.mem_cons_of_mem _ hx)),
      reduce_assoc u w v 40 hu hw0 hv, reduce_comm w v 40 hw0 hv,
      ← reduce_assoc u v w 40 hu hv hw0]

/-- Adding the contributions of the children from the last to the first gives
the same array as the reference, which adds them from the first on. -/
theorem foldr_reduce_eq (vs : List (List Nat)) :
    ∀ (res u : List Nat), res.length = 40 → u.length = 40 → (∀ w ∈ vs, w.length = 40) →
      vs.foldr (fun v r => reduce r v) (reduce res u) = reduce res (vs.foldl reduce u) := by
  induction vs with
  | nil => intro res u _ _ _; rfl
  | cons w vs ih =>
    intro res u hr hu hw
    have hw0 := hw w (List.mem_cons_self _ _)
    have hws : ∀ x ∈ vs, x.length = 40 := fun x hx => hw x (List.mem_cons_of_mem _ hx)
    rw [List.foldr_cons, ih res u hr hu hws, List.foldl_cons,
      reduce_assoc res _ w 40 hr (foldl_reduce_length vs u hu hws) hw0,
      foldl_reduce_comm vs u w hu hw0 hws]

theorem all_some_split {α β : Type} (f : α → Option β) (l : List α) :
    ∀ (l1 : List β) (c : β) (l2 : List β), all_some f l = some (l1 ++ c :: l2) →
      ∃ g1 x g2, l = g1 ++ x :: g2 ∧ g1.length = l1.length ∧ f x = some c := by
  induction l with
  | nil =>
    intro l1 c l2 h
    simp only [all_some] at h
    have := Option.some.inj h
    exact absurd this.symm (by simp)
  | cons a as ih =>
    intro l1 c l2 h
    simp only [all_some] at h
    cases hf : f a with
    | none => rw [hf] at h; exact absurd h (by simp)
    | some b =>
      rw [hf] at h
      cases hr : all_some f as with
      | none => rw [hr] at h; exact absurd h (by simp)
      | some bs =>
        rw [hr] at h
        have e : b :: bs = l1 ++ c :: l2 := Option.some.inj h
        cases l1 with
        | nil =>
          have e2 : b :: bs = c :: l2 := e
          injection e2 with e3 e4
          exact ⟨[], a, as, rfl, rfl, by rw [hf, e3]⟩
        | cons b1 l1t =>
          have e2 : b :: bs = b1 :: (l1t ++ c :: l2) := e
          injection e2 with e3 e4
          obtain ⟨g1, x, g2, h1, h2, h3⟩ := ih l1t c l2 (by rw [hr, e4])
          exact ⟨a :: g1, x, g2, by rw [h1]; rfl, by simp [h2], h3⟩

theorem bound_pred (bound : Nat) (h1 : 1 ≤ bound) (h2 : bound ≤ 40) :
    (bound + U64 - 1) % U64 = bound - 1 := by
  have : bound + U64 - 1 = bound - 1 + U64 := by omega
  rw [this, Nat.add_mod_right]
  exact Nat.mod_eq_of_lt (by rw [U64_eq]; omega)

/-- A child of an observed monoid by one of its children generators. -/
theorem child_of_gens (m c : monoid) (x : Nat) (hI : Inv m) (hx : x ∈ child_gens m)
    (h : remove_generator m x = some c) :
    Inv c ∧ c.genus = (m.genus + 1) % U64 ∧ c.conductor = x + 1 ∧
      c.min = (if x = m.min then x + 1 else m.min) ∧ c.decs = removed_decs m.decs x := by
  unfold child_gens at hx
  rw [List.mem_filter, decide_eq_true_iff] at hx
  refine ⟨Inv_child m c x hI hx.2.1 h, ?_⟩
  obtain ⟨-, -, -, rfl⟩ := child_form m c x hI.wf h
  exact ⟨rfl, rfl, rfl, rfl⟩

/-- The frames above `F` are walked from the last to the first. -/
theorem frames_sim (bound d : Nat) (F : List monoid)
    (hd : ∀ (m : monoid) (F : List monoid) (st : walk_state) (o : Option (List Nat)),
      Inv m → 1 ≤ d → bound ≤ m.genus + d → Frames st (F ++ [m]) → counters st.res →
      fits bound d F.length m →
      (∀ v st1, tree_walk bound d m = some v → Frames st1 F → st1.res = reduce st.res v →
        eventually (fun fuel => walk_while bound fuel st1) o) →
      (tree_walk bound d m = none → o = none) →
      eventually (fun fuel => walk_while bound fuel st) o)
    (hd1 : 1 ≤ d) (cs : List monoid) :
    ∀ (st : walk_state) (o : Option (List Nat)),
      (∀ c ∈ cs, Inv c ∧ bound ≤ c.genus + d) → Frames st (F ++ cs) → counters st.res →
      (∀ l1 c l2, cs = l1 ++ c :: l2 → fits bound d (F.length + l1.length) c) →
      (∀ vs st1, all_some (tree_walk bound d) cs = some vs → Frames st1 F →
        st1.res = vs.foldr (fun v r => reduce r v) st.res →
        eventually (fun fuel => walk_while bound fuel st1) o) →
      (all_some (tree_walk bound d) cs = none → o = none) →
      eventually (fun fuel => walk_while bound fuel st) o := by
  induction cs using List.reverseRecOn with
  | nil =>
    intro st o _ hF _ _ hcont _
    rw [List.append_nil] at hF
    exact hcont [] st rfl hF rfl
  | append_singleton l c ih =>
    intro st o hcs hF hres hfits hcont hnone
    have hc := hcs c (List.mem_append_right _ (List.mem_singleton_self c))
    rw [← List.append_assoc] at hF
    have hfc : fits bound d (F ++ l).length c := by
      rw [List.length_append]
      exact hfits l c [] rfl
    apply hd c (F ++ l) st o hc.1 hd1 hc.2 hF hres hfc
    · intro v st1 hv hF1 hr1
      have hvl := tree_walk_length bound d c v hv
      apply ih st1 o (fun c2 h2 => hcs c2 (List.mem_append_left _ h2)) hF1
        (by rw [hr1]; exact counters_reduce _ _ hres.1 hvl)
      · intro l1 c2 l2 e
        exact hfits l1 c2 (l2 ++ [c]) (by rw [e]; simp)
      · intro vs st2 hvs hF2 hr2
        apply hcont (vs ++ [v]) st2
        · rw [all_some_append, hvs]
          simp only [all_some, hv]
        · exact hF2
        · rw [hr2, hr1, List.foldr_append]
          rfl
      · intro hn
        apply hnone
        rw [all_some_append, hn]
    · intro hn
      apply hnone
      rw [all_some_append]
      cases all_some (tree_walk bound d) l with
      | none => rfl
      | some vs => simp only [all_some, hn]

theorem children_visited_gens (m : monoid) (hI : Inv m) (gens : List Nat)
    (h : children_visited m = some gens) : gens = child_gens m ∧ iter_bound m < NBLOCKS := by
  rw [children_visited_char m hI] at h
  by_cases hb : iter_bound m < NBLOCKS
  · rw [if_pos hb] at h
    exact ⟨(Option.some.inj h).symm, hb⟩
  · rw [if_neg hb] at h
    exact absurd h (by simp)

theorem child_gens_length_le (m : monoid) : (child_gens m).length ≤ 128 := by
  unfold child_gens
  have := List.length_filter_le
    (fun i => decide (m.conductor ≤ i ∧ m.decs.getD i 0 = 1)) (List.range SIZE)
  rw [List.length_range, SIZE_eq] at this
  exact this

/-- The sequential sub-walker on the top frame `m` adds the array of the
reference walk to `res` and leaves the frames below. -/
theorem stack_sim (bound : Nat) (hb1 : 1 ≤ bound) (hb2 : bound ≤ 40) (d : Nat) :
    ∀ (m : monoid) (F : List monoid) (st : walk_state) (o : Option (List Nat)),
      Inv m → 1 ≤ d → bound ≤ m.genus + d → Frames st (F ++ [m]) → counters st.res →
      fits bound d F.length m →
      (∀ v st1, tree_walk bound d m = some v → Frames st1 F → st1.res = reduce st.res v →
        eventually (fun fuel => walk_while bound fuel st1) o) →
      (tree_walk bound d m = none → o = none) →
      eventually (fun fuel => walk_while bound fuel st) o := by
  induction d with
  | zero => intro m F st o _ h1; omega
  | succ d ih =>
    intro m F st o hI _ hgd hF hres hfit hcont hnone
    have hbp := bound_pred bound hb1 hb2
    obtain ⟨hFl, hm, hPush, hFr⟩ := frames_pop st F m st.res hF
    by_cases hexp : m.genus < (bound + U64 - 1) % U64
    · -- the monoid is expanded
      have hg39 : m.genus < 39 := by rw [hbp] at hexp; omega
      have hd1 : 1 ≤ d := by rw [hbp] at hexp; omega
      have hstep := fun fuel => walk_while_expand bound fuel st F m hF hexp
      cases hcv : children_visited m with
      | none =>
        have ho : o = none := hnone (by simp only [tree_walk, if_pos hexp, hcv])
        rw [ho]
        exact eventually_step _ (fun _ => none) none
          (fun fuel => by rw [hstep fuel, hcv]) (eventually_const none)
      | some gens =>
        obtain ⟨hge, -⟩ := children_visited_gens m hI gens hcv
        simp only [fits] at hfit
        obtain ⟨hcap, hchild⟩ := hfit hexp
        rw [← hge] at hcap hchild
        have hnbr : 0 + gens.length < U64 := by
          rw [U64_eq]; omega
        cases hall : all_some (remove_generator m) gens with
        | none =>
          have ho : o = none := hnone (by simp only [tree_walk, if_pos hexp, hcv, hall])
          rw [ho]
          have hpl := push_list_none F _ m gens [] _ 0 hPush
            (by rw [List.length_nil]; omega) hnbr hall
          exact eventually_step _ (fun _ => none) none
            (fun fuel => by rw [hstep fuel, hcv]; simp only [hpl]) (eventually_const none)
        | some cs =>
          obtain ⟨st1, hpl, hP1, hr1⟩ := push_list_some F _ m gens [] cs _ 0 hPush
            (by rw [List.length_nil]; omega) hnbr hall
          rw [List.nil_append] at hP1
          rw [Nat.zero_add] at hpl
          have hres1 : counters st1.res := by rw [hr1]; exact hres
          have hra : res_add st1.res m.genus gens.length
              = some (st1.res.set m.genus ((st1.res.getD m.genus 0 + gens.length) % U64)) :=
            res_add_some _ _ _ hres1.1 (by omega)
          have hlenmod : gens.length % U64 = gens.length :=
            Nat.mod_eq_of_lt (by rw [U64_eq]; omega)
          have hu : res_add Results m.genus gens.length
              = some (Results.set m.genus ((Results.getD m.genus 0 + gens.length) % U64)) :=
            res_add_some _ _ _ Results_length (by omega)
          have hred := res_add_eq_reduce st1.res m.genus gens.length hres1
          rw [hra, hu] at hred
          have hred2 := Option.some.inj hred
          have hstep2 : ∀ fuel, walk_while bound (fuel + 1) st = walk_while bound fuel
              { slots := st1.slots,
                stack := st1.stack.set st1.stack_pointer (st.stack.getD F.length 0),
                stack_pointer := st1.stack_pointer,
                res := st1.res.set m.genus ((st1.res.getD m.genus 0 + gens.length) % U64) } := by
            intro fuel
            rw [hstep fuel, hcv]
            simp only [hpl, stack_set_eq _ _ _ hP1.stack_len hP1.sp_lt, hP1.cur_slot, hra]
          apply eventually_step _ _ o hstep2
          have hF2 := pushing_final st1 F _ m cs
            (st1.res.set m.genus ((st1.res.getD m.genus 0 + gens.length) % U64)) hP1
          have hchildren : ∀ c ∈ cs, Inv c ∧ bound ≤ c.genus + d := by
            intro c hc
            obtain ⟨x, hx, hrx⟩ := all_some_mem _ _ _ hall c hc
            rw [hge] at hx
            obtain ⟨hIc, hgc, -⟩ := child_of_gens m c x hI hx hrx
            rw [Nat.mod_eq_of_lt (by rw [U64_eq]; omega)] at hgc
            exact ⟨hIc, by omega⟩
          apply frames_sim bound d F ih hd1 cs _ o hchildren hF2
            (counters_res_add _ _ _ _ hres1 hra)
          · intro l1 c l2 e
            rw [e] at hall
            obtain ⟨g1, x, g2, h1, h2, h3⟩ := all_some_split _ _ _ _ _ hall
            have := hchild g1 x g2 c h1 h3
            rw [h2] at this
            exact this
          · intro vs st2 hvs hF3 hr3
            apply hcont (vs.foldl reduce
              (Results.set m.genus ((Results.getD m.genus 0 + gens.length) % U64))) st2
            · simp only [tree_walk, if_pos hexp, hcv, hall, hvs, hlenmod, hu]
            · exact hF3
            · rw [hr3]
              show List.foldr (fun v r => reduce r v)
                (st1.res.set m.genus ((st1.res.getD m.genus 0 + gens.length) % U64)) vs = _
              rw [hred2, hr1]
              apply foldr_reduce_eq vs st.res _ hres.1
                (res_add_Results_length _ _ _ hu)
              intro w hw
              obtain ⟨c, -, hc⟩ := all_some_mem _ _ _ hvs w hw
              exact tree_walk_length bound d c w hc
          · intro hn
            exact hnone (by simp only [tree_walk, if_pos hexp, hcv, hall, hn])
    · -- the monoid is counted
      have hstep := fun fuel => walk_while_count bound fuel st F m hF hexp
      cases hcc : (children_count m).bind (count m) with
      | none =>
        have ho : o = none := hnone (by simp only [tree_walk, if_neg hexp, hcc])
        rw [ho]
        exact eventually_step _ (fun _ => none) none
          (fun fuel => by rw [hstep fuel, hcc]) (eventually_const none)
      | some c =>
        have hred := res_add_eq_reduce st.res m.genus c hres
        cases hu : res_add Results m.genus c with
        | none =>
          rw [hu] at hred
          have ho : o = none := hnone (by simp only [tree_walk, if_neg hexp, hcc, hu])
          rw [ho]
          exact eventually_step _ (fun _ => none) none
            (fun fuel => by
              rw [hstep fuel, hcc]
              simp only [hred]
              rfl) (eventually_const none)
        | some u =>
          rw [hu] at hred
          have hred2 : res_add st.res m.genus c = some (reduce st.res u) := hred
          have hstep2 : ∀ fuel, walk_while bound (fuel + 1) st = walk_while bound fuel
              { slots := st.slots, stack := st.stack, stack_pointer := F.length,
                res := reduce st.res u } := by
            intro fuel
            rw [hstep fuel, hcc]
            simp only [hred2]
          apply eventually_step _ _ o hstep2
          obtain ⟨-, -, -, hFr2⟩ := frames_pop st F m (reduce st.res u) hF
          exact hcont u _ (by simp only [tree_walk, if_neg hexp, hcc, hu]) hFr2 rfl

theorem getD_range (n i : Nat) (h : i < n) : (List.range n).getD i 0 = i := by
  simp [List.getD_eq_getElem?_getD, List.getElem?_range, h]

/-- The memory of `walk_children_stack` on entry. -/
theorem frames_init (m : monoid) (res : List Nat) :
    Frames { slots := some m :: List.replicate (STACK_SIZE - 1) none,
             stack := List.range STACK_SIZE, stack_pointer := 1, res := res } ([] ++ [m]) := by
  refine ⟨by simp [STACK_SIZE], by simp [STACK_SIZE], ?_, ?_, by simp, rfl, ?_⟩
  · intro i hi
    show (List.range 50).getD i 0 < 50
    rw [getD_range 50 i hi]; exact hi
  · intro i j hi hj hij
    show (List.range 50).getD i 0 ≠ (List.range 50).getD j 0
    rw [getD_range 50 i hi, getD_range 50 j hj]; exact hij
  · intro i f hf
    have hi : i < 1 := by
      have := (List.get?_eq_some.1 hf).1
      simpa using this
    have hi0 : i = 0 := by omega
    subst hi0
    have hf2 : f = m := by simpa using hf.symm
    subst hf2
    rfl

/-- The function `walk_children_stack` adds the array of the reference walk to `res`. -/
theorem walk_children_stack_sim (bound : Nat) (hb1 : 1 ≤ bound) (hb2 : bound ≤ 40) (d : Nat)
    (m : monoid) (res : List Nat) (hI : Inv m) (hd : 1 ≤ d) (hgd : bound ≤ m.genus + d)
    (hres : counters res) (hfit : fits bound d 0 m) :
    eventually (fun fuel => walk_children_stack fuel m bound res)
      ((tree_walk bound d m).map (reduce res)) := by
  unfold walk_children_stack
  apply stack_sim bound hb1 hb2 d m [] _ _ hI hd hgd (frames_init m res) hres hfit
  · intro v st1 hv hF hr
    rw [hv]
    refine ⟨1, fun fuel hf => ?_⟩
    obtain ⟨k, rfl⟩ : ∃ k, fuel = k + 1 := ⟨fuel - 1, by omega⟩
    show walk_while bound (k + 1) st1 = _
    rw [walk_while_done bound k st1 hF, hr]
    rfl
  · intro hn
    rw [hn]
    rfl

theorem foldl_reduce_out (vs : List (List Nat)) :
    ∀ (res u : List Nat), res.length = 40 → u.length = 40 → (∀ w ∈ vs, w.length = 40) →
      vs.foldl reduce (reduce res u) = reduce res (vs.foldl reduce u) := by
  induction vs with
  | nil => intro res u _ _ _; rfl
  | cons w vs ih =>
    intro res u hr hu hw
    have hw0 := hw w (List.mem_cons_self _ _)
    rw [List.foldl_cons, List.foldl_cons, reduce_assoc res u w 40 hr hu hw0,
      ih res (reduce u w) hr (length_reduce_same _ _ 40 hu hw0)
        (fun x hx => hw x (List.mem_cons_of_mem _ hx))]

/-- The `for` loop of `walk_children` fails when a child cannot be derived. -/
theorem spawn_list_none (walk : monoid → List Nat → Option (List Nat)) (m : monoid)
    (gens : List Nat) :
    ∀ (res : List Nat) (nbr : Nat), all_some (remove_generator m) gens = none →
      spawn_list walk m gens res nbr = none := by
  induction gens with
  | nil => intro res nbr h; exact absurd h (by simp [all_some])
  | cons g gs ih =>
    intro res nbr h
    simp only [all_some] at h
    simp only [spawn_list]
    cases hr : remove_generator m g with
    | none => rfl
    | some c =>
      rw [hr] at h
      simp only []
      cases walk c res with
      | none => rfl
      | some res1 =>
        simp only []
        apply ih
        cases hrest : all_some (remove_generator m) gs with
        | none => rfl
        | some cs1 => rw [hrest] at h; exact absurd h (by simp)

/-- The `for` loop of `walk_children` adds the arrays of the sub-walks of the children. -/
theorem spawn_list_sim (walk : Nat → monoid → List Nat → Option (List Nat))
    (tree : monoid → Option (List Nat)) (m : monoid) (gens : List Nat) :
    ∀ (cs : List monoid) (res : List Nat) (nbr : Nat),
      all_some (remove_generator m) gens = some cs → counters res →
      nbr + gens.length < U64 →
      (∀ c v, c ∈ cs → tree c = some v → v.length = 40) →
      (∀ c r, c ∈ cs → counters r →
        eventually (fun fuel => walk fuel c r) ((tree c).map (reduce r))) →
      eventually (fun fuel => spawn_list (walk fuel) m gens res nbr)
        (match all_some tree cs with
          | none => none
          | some vs => some (vs.foldl reduce res, nbr + gens.length)) := by
  induction gens with
  | nil =>
    intro cs res nbr hall _ _ _ _
    simp only [all_some] at hall
    rw [← Option.some.inj hall]
    exact ⟨0, fun fuel _ => rfl⟩
  | cons g gs ih =>
    intro cs res nbr hall hres hnbr hlen hwalk
    simp only [all_some] at hall
    cases hr : remove_generator m g with
    | none => rw [hr] at hall; exact absurd hall (by simp)
    | some c =>
      rw [hr] at hall
      cases hrest : all_some (remove_generator m) gs with
      | none => rw [hrest] at hall; exact absurd hall (by simp)
      | some cs1 =>
        rw [hrest] at hall
        have hcs : cs = c :: cs1 := (Option.some.inj hall).symm
        subst hcs
        rw [List.length_cons] at hnbr
        have e2 : (nbr + 1) % U64 = nbr + 1 := Nat.mod_eq_of_lt (by omega)
        obtain ⟨n1, hn0⟩ := hwalk c res (List.mem_cons_self _ _) hres
        have hn1 : ∀ fuel, n1 ≤ fuel → walk fuel c res = (tree c).map (reduce res) := hn0
        clear hn0
        cases ht : tree c with
        | none =>
          rw [ht] at hn1
          refine ⟨n1, fun fuel hf => ?_⟩
          simp only [spawn_list, hr, all_some, ht]
          rw [hn1 fuel hf]
          rfl
        | some v =>
          rw [ht] at hn1
          have hv := hlen c v (List.mem_cons_self _ _) ht
          obtain ⟨n2, hn3⟩ := ih cs1 (reduce res v) (nbr + 1) hrest
            (counters_reduce _ _ hres.1 hv) (by omega)
            (fun c2 v2 h2 => hlen c2 v2 (List.mem_cons_of_mem _ h2))
            (fun c2 r h2 => hwalk c2 r (List.mem_cons_of_mem _ h2))
          have hn2 : ∀ fuel, n2 ≤ fuel →
              spawn_list (walk fuel) m gs (reduce res v) (nbr + 1) =
                (match all_some tree cs1 with
                  | none => none
                  | some vs => some (vs.foldl reduce (reduce res v), nbr + 1 + gs.length)) := hn3
          clear hn3
          refine ⟨n1 + n2, fun fuel hf => ?_⟩
          simp only [spawn_list, hr, all_some, ht]
          rw [hn1 fuel (by omega)]
          show spawn_list (walk fuel) m gs (reduce res v) ((nbr + 1) % U64) = _
          rw [e2, hn2 fuel (by omega)]
          cases all_some tree cs1 with
          | none => rfl
          | some vs =>
            simp only [List.foldl_cons, List.length_cons]
            congr 2
            omega

theorem spawn_threshold (tg sb : Nat) (h2 : sb ≤ tg) (h3 : tg ≤ 40) :
    (tg + U64 - sb % U64) % U64 = tg - sb := by
  rw [Nat.mod_eq_of_lt (show sb < U64 by rw [U64_eq]; omega)]
  have : tg + U64 - sb = tg - sb + U64 := by rw [U64_eq]; omega
  rw [this, Nat.add_mod_right]
  exact Nat.mod_eq_of_lt (by rw [U64_eq]; omega)

theorem counters_foldl (vs : List (List Nat)) :
    ∀ res : List Nat, counters res → (∀ w ∈ vs, w.length = 40) →
      counters (vs.foldl reduce res) := by
  induction vs with
  | nil => intro res h _; exact h
  | cons w ws ih =>
    intro res h hw
    rw [List.foldl_cons]
    exact ih _ (counters_reduce _ _ h.1 (hw w (List.mem_cons_self _ _)))
      (fun x hx => hw x (List.mem_cons_of_mem _ hx))

/-- One call of `walk_children` on a monoid below the spawn threshold. -/
theorem walk_children_spawn (tg sb fuel : Nat) (m : monoid) (res : List Nat)
    (h : m.genus < (tg + U64 - sb % U64) % U64) :
    walk_children tg sb (fuel + 1) m res =
      match children_visited m with
      | none => none
      | some gens =>
        match spawn_list (walk_children tg sb fuel) m gens res 0 with
        | none => none
        | some (res1, nbr) => res_add res1 m.genus nbr := by
  simp only [walk_children]
  rw [if_pos h, children_visited_def]
  cases children m with
  | none => rfl
  | some it =>
    simp only [Option.some_bind]
    rw [spawn_for_eq]
    cases visited m (SIZE + 1) it with
    | none => rfl
    | some gens => rfl

/-- The function `walk_children` adds the array of the reference walk to `res`. -/
theorem walk_children_sim (tg sb : Nat) (h1 : 1 ≤ sb) (h2 : sb ≤ tg) (h3 : tg ≤ 40)
    (hfits : ∀ (c : monoid) (d : Nat), Inv c → fits tg d 0 c) (d : Nat) :
    ∀ (m : monoid) (res : List Nat), Inv m → 1 ≤ d → tg ≤ m.genus + d → counters res →
      eventually (fun fuel => walk_children tg sb fuel m res)
        ((tree_walk tg d m).map (reduce res)) := by
  have hthr := spawn_threshold tg sb h2 h3
  have hbp := bound_pred tg (by omega) h3
  induction d with
  | zero => intro m res _ hd; omega
  | succ d ih =>
    intro m res hI _ hgd hres
    by_cases hsp : m.genus < (tg + U64 - sb % U64) % U64
    · have hexp : m.genus < (tg + U64 - 1) % U64 := by rw [hbp]; rw [hthr] at hsp; omega
      have hg39 : m.genus < 39 := by rw [hbp] at hexp; omega
      have hd1 : 1 ≤ d := by rw [hbp] at hexp; omega
      have hstep := fun fuel => walk_children_spawn tg sb fuel m res hsp
      cases hcv : children_visited m with
      | none =>
        have ht : tree_walk tg (d + 1) m = none := by simp only [tree_walk, if_pos hexp, hcv]
        rw [ht]
        exact eventually_step _ (fun _ => none) _ (fun fuel => by rw [hstep fuel, hcv])
          (eventually_const none)
      | some gens =>
        obtain ⟨hge, -⟩ := children_visited_gens m hI gens hcv
        have hlen128 := child_gens_length_le m
        rw [← hge] at hlen128
        cases hall : all_some (remove_generator m) gens with
        | none =>
          have ht : tree_walk tg (d + 1) m = none := by
            simp only [tree_walk, if_pos hexp, hcv, hall]
          rw [ht]
          exact eventually_step _ (fun _ => none) _
            (fun fuel => by rw [hstep fuel, hcv]; simp only [spawn_list_none _ m gens res 0 hall])
            (eventually_const none)
        | some cs =>
          have hchildren : ∀ c ∈ cs, Inv c ∧ tg ≤ c.genus + d := by
            intro c hc
            obtain ⟨x, hx, hrx⟩ := all_some_mem _ _ _ hall c hc
            rw [hge] at hx
            obtain ⟨hIc, hgc, -⟩ := child_of_gens m c x hI hx hrx
            rw [Nat.mod_eq_of_lt (by rw [U64_eq]; omega)] at hgc
            exact ⟨hIc, by omega⟩
          have hsl := spawn_list_sim (walk_children tg sb) (tree_walk tg d) m gens cs res 0 hall
            hres (by rw [U64_eq]; omega)
            (fun c v _ hv => tree_walk_length tg d c v hv)
            (fun c r hc hr => ih c r (hchildren c hc).1 hd1 (hchildren c hc).2 hr)
          have hlenmod : gens.length % U64 = gens.length :=
            Nat.mod_eq_of_lt (by rw [U64_eq]; omega)
          have hu : res_add Results m.genus gens.length
              = some (Results.set m.genus ((Results.getD m.genus 0 + gens.length) % U64)) :=
            res_add_some _ _ _ Results_length (by omega)
          have hul := res_add_Results_length _ _ _ hu
          obtain ⟨n, hn0⟩ := hsl
          have hn : ∀ fuel, n ≤ fuel → spawn_list (walk_children tg sb fuel) m gens res 0 =
              (match all_some (tree_walk tg d) cs with
                | none => none
                | some vs => some (vs.foldl reduce res, 0 + gens.length)) := hn0
          clear hn0
          refine ⟨n + 1, fun fuel hf => ?_⟩
          obtain ⟨k, rfl⟩ : ∃ k, fuel = k + 1 := ⟨fuel - 1, by omega⟩
          show walk_children tg sb (k + 1) m res = _
          rw [hstep k, hcv]
          simp only [hn k (by omega)]
          cases hvs : all_some (tree_walk tg d) cs with
          | none =>
            simp only [tree_walk, if_pos hexp, hcv, hall, hvs]
            rfl
          | some vs =>
            have hvl : ∀ w ∈ vs, w.length = 40 := by
              intro w hw
              obtain ⟨c, -, hc⟩ := all_some_mem _ _ _ hvs w hw
              exact tree_walk_length tg d c w hc
            have hcf : counters (vs.foldl reduce res) := counters_foldl vs res hres hvl
            simp only [tree_walk, if_pos hexp, hcv, hall, hvs, hlenmod, hu, Nat.zero_add]
            rw [res_add_eq_reduce _ _ _ hcf, hu]
            show some _ = some _
            apply congrArg some
            rw [foldl_reduce_comm vs res _ hres.1 hul hvl,
              foldl_reduce_out vs res _ hres.1 hul hvl]
    · have hstep : ∀ fuel, walk_children tg sb (fuel + 1) m res
          = walk_children_stack fuel m tg res := by
        intro fuel
        simp only [walk_children]
        rw [if_neg hsp]
      exact eventually_step _ _ _ hstep
        (walk_children_stack_sim tg (by omega) h3 (d + 1) m res hI (by omega) hgd hres
          (hfits m (d + 1) hI))

/-! ## The stack never overflows -/

theorem countP_range_three (p : Nat → Bool) (n a0 a1 a2 : Nat) (h0 : a0 < n) (h1 : a1 < n)
    (h2 : a2 < n) (h01 : a0 ≠ a1) (h02 : a0 ≠ a2) (h12 : a1 ≠ a2) (hp0 : p a0 = true)
    (hp1 : p a1 = true) (hp2 : p a2 = true) : 3 ≤ (List.range n).countP p := by
  have h := countP_range_diff p (fun a => if a = a0 then false else p a) n a0 h0 hp0 (by simp)
    (fun a _ hne => by simp [hne])
  have h3 := countP_range_two (fun a => if a = a0 then false else p a) n a1 a2 h1 h2 h12
    (by simp [hp1, Ne.symm h01]) (by simp [hp2, Ne.symm h02])
  omega

theorem mem_child_gens (m : monoid) (y : Nat) :
    y ∈ child_gens m ↔ (y < 128 ∧ m.conductor ≤ y ∧ m.decs.getD y 0 = 1) := by
  unfold child_gens
  rw [List.mem_filter, List.mem_range, decide_eq_true_iff, SIZE_eq]

theorem child_gens_sorted (m : monoid) : (child_gens m).Pairwise (fun a b => a < b) := by
  unfold child_gens
  exact List.Pairwise.filter _ (List.pairwise_lt_range _)

/-- The number of children is at most `min`. -/
theorem child_gens_length_le_min (m : monoid) (hI : Inv m) :
    (child_gens m).length ≤ m.min := by
  unfold child_gens
  rw [← List.countP_eq_length_filter, SIZE_eq]
  have hc := hI.cond_le
  obtain ⟨k, hk⟩ : ∃ k, 128 = m.conductor + k := ⟨128 - m.conductor, by omega⟩
  rw [hk, countP_range_add]
  have z : (List.range m.conductor).countP
      (fun i => decide (m.conductor ≤ i ∧ m.decs.getD i 0 = 1)) = 0 := by
    rw [List.countP_eq_zero]
    intro a ha
    rw [List.mem_range] at ha
    simp only [decide_eq_true_eq, not_and]
    intro h; omega
  rw [z, Nat.zero_add]
  by_cases hkm : k ≤ m.min
  · exact le_trans (countP_range_le _ _) hkm
  · obtain ⟨j, hj⟩ : ∃ j, k = m.min + j := ⟨k - m.min, by omega⟩
    rw [hj, countP_range_extend]
    · exact countP_range_le _ _
    · intro a h1 h2
      apply decide_eq_false
      intro hh
      have := no_gen_above m hI (m.conductor + a) (by omega) (by omega)
      omega

/-- The multiplicity is at most `genus + 1`. -/
theorem min_le_genus (m : monoid) (hI : Inv m) : m.min ≤ m.genus + 1 := by
  rw [hI.genus_eq]
  unfold gap_count
  have hmp := hI.min_pos
  have hml := hI.min_le
  obtain ⟨k, hk⟩ : ∃ k, m.conductor = 1 + (m.min - 1) + k := ⟨m.conductor - m.min, by omega⟩
  rw [hk, countP_range_add, countP_range_add]
  have e : (List.range (m.min - 1)).countP
      (fun t => decide (1 ≤ 1 + t ∧ m.decs.getD (1 + t) 0 = 0)) = m.min - 1 := by
    apply countP_range_all
    intro a ha
    exact decide_eq_true ⟨by omega, hI.below_min (1 + a) (by omega) (by omega)⟩
  rw [e]
  omega

/-- The generators of a child above the removed one, when the removed
generator is not the multiplicity: generators of the parent, or the removed
generator plus the multiplicity. -/
theorem child_gens_of_child (m c : monoid) (x : Nat) (hI : Inv m) (hx : x ∈ child_gens m)
    (hxm : x ≠ m.min) (h : remove_generator m x = some c) (y : Nat) (hy : y ∈ child_gens c) :
    (y ∈ child_gens m ∧ x < y) ∨ y = x + m.min := by
  obtain ⟨hIc, -, hcc, -, hcd⟩ := child_of_gens m c x hI hx h
  rw [mem_child_gens] at hx hy
  obtain ⟨hx1, hx2, hx3⟩ := hx
  obtain ⟨hy1, hy2, hy3⟩ := hy
  rw [hcc] at hy2
  rw [hcd, child_getD m x hI hx2 y hy1, if_neg (by omega)] at hy3
  have hmp := hI.min_pos
  have hml := hI.min_le
  by_cases hz : m.decs.getD (y - x) 0 = 0
  · rw [if_pos hz, Nat.sub_zero] at hy3
    exact Or.inl ⟨(mem_child_gens m y).2 ⟨hy1, by omega, hy3⟩, by omega⟩
  · rw [if_neg hz] at hy3
    right
    by_contra hne
    have hzmin : m.min ≤ y - x := by
      by_contra hlt
      exact hz (hI.below_min (y - x) (by omega) (by omega))
    have h3 : 3 ≤ m.decs.getD y 0 := by
      rw [hI.pairs y hy1]
      unfold pair_count
      have hp0 : decide (m.decs.getD 0 0 ≠ 0 ∧ m.decs.getD (y - 0) 0 ≠ 0) = true :=
        decide_eq_true ⟨by rw [hI.zero]; omega,
          by rw [Nat.sub_zero]; have := hI.above y (by omega) hy1; omega⟩
      have hp1 : decide (m.decs.getD m.min 0 ≠ 0 ∧ m.decs.getD (y - m.min) 0 ≠ 0) = true :=
        decide_eq_true ⟨by have := hI.at_min (by omega); omega,
          by have := hI.above (y - m.min) (by omega) (by omega); omega⟩
      by_cases hxz : x ≤ y - x
      · apply countP_range_three _ _ 0 m.min x (by omega) (by omega) (by omega) (by omega)
          (by omega) (by omega) hp0 hp1
        exact decide_eq_true ⟨by rw [hx3]; omega, hz⟩
      · apply countP_range_three _ _ 0 m.min (y - x) (by omega) (by omega) (by omega) (by omega)
          (by omega) (by omega) hp0 hp1
        have e : y - (y - x) = x := by omega
        exact decide_eq_true ⟨hz, by rw [e, hx3]; omega⟩
    omega

/-- A child derived by a generator other than the multiplicity has at most
one child more than the generators of its parent above the removed one. -/
theorem child_gens_length_child (m c : monoid) (x : Nat) (l1 l2 : List Nat) (hI : Inv m)
    (hs : child_gens m = l1 ++ x :: l2) (hxm : x ≠ m.min)
    (h : remove_generator m x = some c) : (child_gens c).length ≤ l2.length + 1 := by
  have hx : x ∈ child_gens m := by rw [hs]; simp
  have hsorted := child_gens_sorted m
  rw [hs, List.pairwise_append] at hsorted
  obtain ⟨-, -, h12⟩ := hsorted
  have hsub : child_gens c ⊆ (x + m.min) :: l2 := by
    intro y hy
    rcases child_gens_of_child m c x hI hx hxm h y hy with ⟨h1, h2⟩ | h1
    · rw [hs, List.mem_append, List.mem_cons] at h1
      rcases h1 with h3 | h3 | h3
      · have := h12 y h3 x (List.mem_cons_self _ _)
        omega
      · omega
      · exact List.mem_cons_of_mem _ h3
    · rw [h1]; exact List.mem_cons_self _ _
  have hnd : (child_gens c).Nodup := (child_gens_sorted c).imp (fun h => Nat.ne_of_lt h)
  have := (List.Nodup.subperm hnd hsub).length_le
  simpa using this

/-- A sub-walk from a monoid with `min < conductor` fits above `base` frames
when its children do. -/
theorem fits_of_small (bound : Nat) (d : Nat) :
    ∀ (base : Nat) (m : monoid), Inv m → m.min < m.conductor →
      base + (child_gens m).length ≤ 49 → fits bound d base m := by
  induction d with
  | zero => intro _ _ _ _ _; trivial
  | succ d ih =>
    intro base m hI hmc hcap
    simp only [fits]
    intro _
    refine ⟨hcap, ?_⟩
    intro l1 x l2 c hs hr
    have hx : x ∈ child_gens m := by rw [hs]; simp
    have hx2 := (mem_child_gens m x).1 hx
    have hxm : x ≠ m.min := by omega
    obtain ⟨hIc, -, hcc, hcm, -⟩ := child_of_gens m c x hI hx hr
    rw [if_neg hxm] at hcm
    have hlen := child_gens_length_child m c x l1 l2 hI hs hxm hr
    have hL : (child_gens m).length = l1.length + (l2.length + 1) := by
      rw [hs, List.length_append, List.length_cons]
    exact ih (base + l1.length) c hIc (by rw [hcm, hcc]; omega) (by omega)

/-- Every sub-walk entered on an empty stack stays inside the array `stack`. -/
theorem fits_zero (bound : Nat) (hb1 : 1 ≤ bound) (hb2 : bound ≤ 40) (d : Nat) :
    ∀ (m : monoid), Inv m → fits bound d 0 m := by
  induction d with
  | zero => intro _ _; trivial
  | succ d ih =>
    intro m hI
    simp only [fits]
    intro hexp
    rw [bound_pred bound hb1 hb2] at hexp
    have hk := child_gens_length_le_min m hI
    have hmg := min_le_genus m hI
    refine ⟨by omega, ?_⟩
    intro l1 x l2 c hs hr
    have hx : x ∈ child_gens m := by rw [hs]; simp
    have hx2 := (mem_child_gens m x).1 hx
    obtain ⟨hIc, -, hcc, hcm, -⟩ := child_of_gens m c x hI hx hr
    cases l1 with
    | nil => exact ih c hIc
    | cons a l1t =>
      have hsorted := child_gens_sorted m
      rw [hs, List.pairwise_append] at hsorted
      obtain ⟨-, -, h12⟩ := hsorted
      have hax := h12 a (List.mem_cons_self _ _) x (List.mem_cons_self _ _)
      have ha : a ∈ child_gens m := by rw [hs]; simp
      have ha2 := (mem_child_gens m a).1 ha
      have hml := hI.min_le
      have hxm : x ≠ m.min := by omega
      rw [if_neg hxm] at hcm
      have hlen := child_gens_length_child m c x (a :: l1t) l2 hI hs hxm hr
      have hL : (child_gens m).length = (a :: l1t).length + (l2.length + 1) := by
        rw [hs, List.length_append, List.length_cons, List.length_cons]
      exact fits_of_small bound d _ c hIc (by rw [hcm, hcc]; omega) (by omega)

/-! ## The tree of children -/

theorem all_some_forall2 {α β : Type} (f : α → Option β) (P : α → β → Prop) :
    ∀ l : List α, (∀ a ∈ l, ∃ b, f a = some b ∧ P a b) →
      ∃ bs, all_some f l = some bs ∧ l.filterMap f = bs ∧ List.Forall₂ P l bs := by
  intro l
  induction l with
  | nil => intro _; exact ⟨[], rfl, rfl, List.Forall₂.nil⟩
  | cons a as ih =>
    intro h
    obtain ⟨b, hb, hP⟩ := h a (List.mem_cons_self _ _)
    obtain ⟨bs, h1, h2, h3⟩ := ih (fun x hx => h x (List.mem_cons_of_mem _ hx))
    refine ⟨b :: bs, ?_, ?_, List.Forall₂.cons hP h3⟩
    · simp only [all_some, hb, h1]
    · rw [List.filterMap_cons, hb, h2]

theorem children_of_spec (m : monoid) (hI : Inv m) :
    ∃ cs, all_some (remove_generator m) (child_gens m) = some cs ∧ children_of m = cs ∧
      List.Forall₂ (fun x c => remove_generator m x = some c) (child_gens m) cs := by
  apply all_some_forall2
  intro x hx
  obtain ⟨h1, -, h3⟩ := (mem_child_gens m x).1 hx
  exact ⟨_, remove_generator_some m x hI h1 h3, remove_generator_some m x hI h1 h3⟩

theorem mem_children_of (m c : monoid) :
    c ∈ children_of m ↔ ∃ x, x ∈ child_gens m ∧ remove_generator m x = some c := by
  unfold children_of
  rw [List.mem_filterMap]

theorem length_children_of (m : monoid) (hI : Inv m) :
    (children_of m).length = (child_gens m).length := by
  obtain ⟨cs, -, h2, h3⟩ := children_of_spec m hI
  rw [h2]; exact h3.length_eq.symm

theorem child_sharp (m c : monoid) (x : Nat) (hI : Inv m) (hx : x ∈ child_gens m)
    (h : remove_generator m x = some c) : sharp c := by
  obtain ⟨h1, h2, h3⟩ := (mem_child_gens m x).1 hx
  obtain ⟨-, -, hc, -, hd⟩ := child_of_gens m c x hI hx h
  right
  rw [hc, hd, Nat.add_sub_cancel]
  by_contra hne
  exact ((child_elem m x hI h2 h1 h3 x h1).1 hne).2 rfl

theorem sharp_init : sharp init_full_N := Or.inl rfl

theorem level_one (m : monoid) : level 1 m = children_of m := by
  show (children_of m).flatMap (level 0) = children_of m
  have : level 0 = fun c => [c] := rfl
  rw [this]
  induction children_of m with
  | nil => rfl
  | cons a as ih => rw [List.flatMap_cons, ih]; rfl

theorem level_succ_right (t : Nat) :
    ∀ m : monoid, level (t + 1) m = (level t m).flatMap children_of := by
  induction t with
  | zero =>
    intro m
    rw [level_one]
    show children_of m = [m].flatMap children_of
    rw [List.flatMap_singleton]
  | succ t ih =>
    intro m
    show (children_of m).flatMap (level (t + 1)) = ((children_of m).flatMap (level t)).flatMap _
    rw [List.flatMap_assoc]
    congr 1
    funext c
    exact ih c

/-- Every descendant of an observed monoid at depth `t` satisfies the invariant, has a
sharp conductor and has genus `t` more. -/
theorem level_inv (t : Nat) :
    ∀ m : monoid, Inv m → sharp m → m.genus + t < U64 →
      ∀ c ∈ level t m, Inv c ∧ sharp c ∧ c.genus = m.genus + t := by
  induction t with
  | zero =>
    intro m hI hs _ c hc
    have : c = m := by simpa [level] using hc
    subst this
    exact ⟨hI, hs, rfl⟩
  | succ t ih =>
    intro m hI hs hg c hc
    rw [level_succ_right, List.mem_flatMap] at hc
    obtain ⟨p, hp, hcp⟩ := hc
    obtain ⟨hpI, -, hpg⟩ := ih m hI hs (by omega) p hp
    obtain ⟨x, hx, hrem⟩ := (mem_children_of p c).1 hcp
    obtain ⟨hcI, hcg, -⟩ := child_of_gens p c x hpI hx hrem
    refine ⟨hcI, child_sharp p c x hpI hx hrem, ?_⟩
    rw [hcg, hpg, Nat.mod_eq_of_lt (by omega)]; omega

/-! ## The reference walk counts the levels of the tree -/

theorem foldl_reduce_getD (i : Nat) (hi : i < 40) (n : monoid → Nat) :
    ∀ (cs : List monoid) (vs : List (List Nat)) (u : List Nat),
      List.Forall₂ (fun c v => v.length = 40 ∧ v.getD i 0 = n c % U64) cs vs →
      u.length = 40 → u.getD i 0 < U64 →
      (vs.foldl reduce u).length = 40 ∧
        (vs.foldl reduce u).getD i 0 = (u.getD i 0 + (cs.map n).sum) % U64 := by
  intro cs vs u h
  induction h generalizing u with
  | nil =>
    intro hu hlt
    refine ⟨hu, ?_⟩
    rw [List.foldl_nil, List.map_nil, List.sum_nil, Nat.add_zero, Nat.mod_eq_of_lt hlt]
  | @cons c v cs vs hcv _ ih =>
    intro hu hlt
    have hl : (reduce u v).length = 40 := length_reduce_same u v 40 hu hcv.1
    have hg : (reduce u v).getD i 0 = (u.getD i 0 + v.getD i 0) % U64 :=
      getD_reduce u v 40 i hu hcv.1 hi
    have hpos : 0 < U64 := by rw [U64_eq]; norm_num
    obtain ⟨h1, h2⟩ := ih (reduce u v) hl (by rw [hg]; exact Nat.mod_lt _ hpos)
    refine ⟨h1, ?_⟩
    rw [List.foldl_cons, h2, hg, hcv.2, List.map_cons, List.sum_cons]
    rw [Nat.mod_add_mod, Nat.add_assoc, Nat.add_left_comm, Nat.mod_add_mod, Nat.add_left_comm]

theorem sum_map_zero {α : Type} (l : List α) : (l.map (fun _ => 0)).sum = 0 := by
  induction l with
  | nil => rfl
  | cons a as ih => rw [List.map_cons, List.sum_cons, ih]

/-- The reference walk from `m` with bound `bound` returns, at every index `i` from
`m.genus` to `bound - 1`, the number of descendants of `m` at depth
`i - m.genus + 1`, and `0` at every other index. -/
theorem tree_walk_levels (bound : Nat) (hb1 : 1 ≤ bound) (hb2 : bound ≤ 40)
    (hok : ∀ c, Inv c → sharp c → c.genus < bound → iter_bound c < NBLOCKS) (d : Nat) :
    ∀ m, Inv m → sharp m → m.genus < bound → bound ≤ m.genus + d →
      ∃ v, tree_walk bound d m = some v ∧ v.length = 40 ∧
        ∀ i, i < 40 → v.getD i 0 =
          (if m.genus ≤ i ∧ i < bound then (level (i - m.genus + 1) m).length else 0) % U64 := by
  induction d with
  | zero => intro m _ _ h1 h2; omega
  | succ d ih =>
    intro m hI hs hg hd
    have hib := hok m hI hs hg
    obtain ⟨cs, hcs, hfm, hf2⟩ := children_of_spec m hI
    have hlen : cs.length = (child_gens m).length := hf2.length_eq.symm
    have hl1 : level 1 m = cs := by rw [level_one, hfm]
    have hgl : (child_gens m).length < U64 := by
      have := child_gens_length_le m
      rw [U64_eq]; omega
    by_cases hlt : m.genus < bound - 1
    · have hexp : m.genus < (bound + U64 - 1) % U64 := by
        rw [bound_pred bound hb1 hb2]; exact hlt
      have hcv : children_visited m = some (child_gens m) := by
        rw [children_visited_char m hI, if_pos hib]
      have hch : ∀ c ∈ cs, ∃ v, tree_walk bound d c = some v ∧ (v.length = 40 ∧
          ∀ i, i < 40 → v.getD i 0 =
            (if m.genus + 1 ≤ i ∧ i < bound then (level (i - (m.genus + 1) + 1) c).length
              else 0) % U64) := by
        intro c hc
        rw [← hfm] at hc
        obtain ⟨x, hx, hrem⟩ := (mem_children_of m c).1 hc
        obtain ⟨hcI, hcg, -⟩ := child_of_gens m c x hI hx hrem
        have hcg2 : c.genus = m.genus + 1 := by
          have hlt2 : m.genus + 1 < U64 := by rw [U64_eq]; omega
          rw [hcg, Nat.mod_eq_of_lt hlt2]
        obtain ⟨v, h1, h2, h3⟩ := ih c hcI (child_sharp m c x hI hx hrem) (by omega) (by omega)
        refine ⟨v, h1, h2, ?_⟩
        intro i hi
        rw [h3 i hi, hcg2]
      obtain ⟨vs, hvs, -, hv2⟩ := all_some_forall2 _ _ cs hch
      have hg40 : m.genus < 40 := by omega
      have hu := res_add_some Results m.genus ((child_gens m).length % U64) Results_length hg40
      have hul : (Results.set m.genus ((Results.getD m.genus 0 +
          (child_gens m).length % U64) % U64)).length = 40 := by
        rw [List.length_set, Results_length]
      have hvl : ∀ v ∈ vs, v.length = 40 := by
        intro v hv
        obtain ⟨c, -, h⟩ := all_some_mem _ _ _ hvs v hv
        exact tree_walk_length bound d c v h
      refine ⟨_, by simp only [tree_walk, if_pos hexp, hcv, hcs, hvs, hu],
        foldl_reduce_length vs _ hul hvl, ?_⟩
      intro i hi
      have hv3 : List.Forall₂ (fun c v => v.length = 40 ∧ v.getD i 0 =
          (fun c : monoid => if m.genus + 1 ≤ i ∧ i < bound then
            (level (i - (m.genus + 1) + 1) c).length else 0) c % U64) cs vs :=
        hv2.imp (fun c v h => ⟨h.1, h.2 i hi⟩)
      have hui : (Results.set m.genus ((Results.getD m.genus 0 +
          (child_gens m).length % U64) % U64)).getD i 0 =
          if i = m.genus then (child_gens m).length % U64 else 0 := by
        rw [getD_set _ _ _ _ (by rw [Results_length]; exact hg40), getD_Results, getD_Results,
          Nat.zero_add, Nat.mod_mod]
      have hpos : 0 < U64 := by rw [U64_eq]; norm_num
      have hult : (Results.set m.genus ((Results.getD m.genus 0 +
          (child_gens m).length % U64) % U64)).getD i 0 < U64 := by
        rw [hui]; split
        · exact Nat.mod_lt _ hpos
        · exact hpos
      rw [(foldl_reduce_getD i hi _ cs vs _ hv3 hul hult).2, hui]
      by_cases hig : i = m.genus
      · have hc1 : ¬ (m.genus + 1 ≤ i ∧ i < bound) := by omega
        have hc2 : m.genus ≤ i ∧ i < bound := by omega
        rw [if_pos hig, if_pos hc2]
        simp only [if_neg hc1]
        rw [sum_map_zero, Nat.add_zero, Nat.mod_mod, hig, Nat.sub_self, Nat.zero_add, hl1, hlen]
      · rw [if_neg hig, Nat.zero_add]
        by_cases hc1 : m.genus + 1 ≤ i ∧ i < bound
        · have hc2 : m.genus ≤ i ∧ i < bound := by omega
          rw [if_pos hc2]
          simp only [if_pos hc1]
          have e1 : i - m.genus + 1 = (i - (m.genus + 1) + 1) + 1 := by omega
          rw [e1]
          show _ = ((children_of m).flatMap (level (i - (m.genus + 1) + 1))).length % U64
          rw [List.length_flatMap, hfm]
          rfl
        · have hc2 : ¬ (m.genus ≤ i ∧ i < bound) := by omega
          rw [if_neg hc2]
          simp only [if_neg hc1]
          rw [sum_map_zero]
    · have hexp : ¬ (m.genus < (bound + U64 - 1) % U64) := by
        rw [bound_pred bound hb1 hb2]; exact hlt
      have hcc : (children_count m).bind (count m) = some (child_gens m).length := by
        rw [children_count_count_char m hI, if_pos hib]
      have hg40 : m.genus < 40 := by omega
      have hu := res_add_some Results m.genus (child_gens m).length Results_length hg40
      refine ⟨Results.set m.genus ((Results.getD m.genus 0 + (child_gens m).length) % U64),
        by simp only [tree_walk, if_neg hexp, hcc, hu], ?_, ?_⟩
      · rw [List.length_set, Results_length]
      · intro i hi
        rw [getD_set _ _ _ _ (by rw [Results_length]; exact hg40), getD_Results, Nat.zero_add]
        by_cases hig : i = m.genus
        · have hc2 : m.genus ≤ i ∧ i < bound := by omega
          rw [if_pos hig, if_pos hc2, hig, Nat.sub_self, Nat.zero_add, hl1, hlen]
        · have hc2 : ¬ (m.genus ≤ i ∧ i < bound) := by omega
          rw [if_neg hig, if_neg hc2, getD_Results]
          rfl

/-! ## The conductor is at most twice the genus -/

theorem countP_range_sum (p : Nat → Bool) (n : Nat) :
    (List.range n).countP p = ∑ i ∈ Finset.range n, if p i = true then 1 else 0 := by
  induction n with
  | zero => rfl
  | succ n ih =>
    rw [List.range_succ, List.countP_append, ih, Finset.sum_range_succ]
    congr 1
    by_cases h : p n = true <;> simp [h]

theorem countP_range_reflect (p : Nat → Bool) (n : Nat) :
    (List.range n).countP p = (List.range n).countP (fun a => p (n - 1 - a)) := by
  rw [countP_range_sum, countP_range_sum]
  exact (Finset.sum_range_reflect (fun i => if p i = true then 1 else 0) n).symm

theorem countP_range_mono (p q : Nat → Bool) (n : Nat)
    (h : ∀ a, a < n → p a = true → q a = true) :
    (List.range n).countP p ≤ (List.range n).countP q :=
  List.countP_mono_left (fun a ha => h a (List.mem_range.1 ha))

theorem countP_range_not (p q : Nat → Bool) (n : Nat)
    (h : ∀ a, a < n → (p a = true ↔ q a = false)) :
    (List.range n).countP p + (List.range n).countP q = n := by
  induction n with
  | zero => rfl
  | succ n ih =>
    have ih2 := ih (fun a ha => h a (by omega))
    rw [List.range_succ, List.countP_append, List.countP_append]
    have hn := h n (by omega)
    by_cases hp : p n = true
    · have hq : q n = false := hn.1 hp
      simp only [List.countP_cons, List.countP_nil, hp, hq]
      simp; omega
    · have hq : q n = true := by
        cases hqn : q n
        · exact absurd (hn.2 hqn) hp
        · rfl
      simp only [List.countP_cons, List.countP_nil, hp, hq]
      simp; omega

/-- A sharp conductor is `1` or at most twice the genus: of two indices
`a` and `conductor - 1 - a`, one is a gap. -/
theorem cond_le_two_genus (m : monoid) (hI : Inv m) (hs : sharp m) :
    m.conductor = 1 ∨ m.conductor ≤ 2 * m.genus := by
  rcases hs with h1 | h0
  · exact Or.inl h1
  · right
    have hz := hI.zero
    have hc1 := hI.cond_pos
    have hc2 := hI.cond_le
    have hne1 : m.conductor - 1 ≠ 0 := by
      intro h; rw [h, hz] at h0; exact absurd h0 (by decide)
    have hpc := hI.pairs (m.conductor - 1) (by omega)
    rw [h0] at hpc
    have hsum := countP_range_not (fun a => decide (m.decs.getD a 0 ≠ 0))
      (fun a => decide (1 ≤ a ∧ m.decs.getD a 0 = 0)) m.conductor (by
        intro a _
        simp only [decide_eq_true_eq, decide_eq_false_iff_not]
        constructor
        · intro h g; exact h g.2
        · intro h g
          apply h
          refine ⟨?_, g⟩
          by_contra h1
          have : a = 0 := by omega
          rw [this, hz] at g; exact absurd g (by decide))
    have hle : (List.range m.conductor).countP (fun a => decide (m.decs.getD a 0 ≠ 0)) ≤
        (List.range m.conductor).countP (fun a => decide (1 ≤ a ∧ m.decs.getD a 0 = 0)) := by
      rw [countP_range_reflect]
      apply countP_range_mono
      intro a ha hp
      simp only [decide_eq_true_eq] at hp ⊢
      have hda : m.decs.getD a 0 = 0 := by
        by_contra hna
        have hpos : 1 ≤ pair_count m.decs (m.conductor - 1) := by
          unfold pair_count
          by_cases hle : a ≤ m.conductor - 1 - a
          · apply countP_range_pos _ _ a (by omega)
            simp only [decide_eq_true_eq]
            exact ⟨hna, hp⟩
          · apply countP_range_pos _ _ (m.conductor - 1 - a) (by omega)
            simp only [decide_eq_true_eq]
            refine ⟨hp, ?_⟩
            have e : m.conductor - 1 - (m.conductor - 1 - a) = a := by omega
            rw [e]; exact hna
        omega
      refine ⟨?_, hda⟩
      by_contra h1
      have : a = 0 := by omega
      rw [this, hz] at hda; exact absurd hda (by decide)
    have hg : m.genus = (List.range m.conductor).countP
        (fun a => decide (1 ≤ a ∧ m.decs.getD a 0 = 0)) := hI.genus_eq
    omega

/-- With sharp conductor and genus at most `37`, the iterator bound is a block
of the array. -/
theorem iter_bound_ok (m : monoid) (hI : Inv m) (hs : sharp m) (hg : m.genus ≤ 37) :
    iter_bound m < NBLOCKS := by
  rw [iter_bound_eq m hI, NBLOCKS_eq]
  have h1 := cond_le_two_genus m hI hs
  have h2 := min_le_genus m hI
  have h3 := hI.min_le
  omega

/-! ## The set of gaps -/

theorem mem_gapset (m : monoid) (i : Nat) :
    i ∈ gapset m ↔ i < m.conductor ∧ m.decs.getD i 0 = 0 := by
  unfold gapset
  rw [Finset.mem_filter, Finset.mem_range]

theorem gapset_card (m : monoid) (hI : Inv m) : (gapset m).card = m.genus := by
  rw [hI.genus_eq]
  unfold gapset gap_count
  rw [Finset.card_filter, countP_range_sum]
  apply Finset.sum_congr rfl
  intro i _
  by_cases h : m.decs.getD i 0 = 0
  · have h1 : 1 ≤ i := by
      by_contra h1
      have : i = 0 := by omega
      rw [this, hI.zero] at h; exact absurd h (by decide)
    have h2 : decide (1 ≤ i ∧ m.decs.getD i 0 = 0) = true := decide_eq_true ⟨h1, h⟩
    rw [if_pos h, if_pos h2]
  · have h2 : ¬ (decide (1 ≤ i ∧ m.decs.getD i 0 = 0) = true) := by
      intro h3; exact h (of_decide_eq_true h3).2
    rw [if_neg h, if_neg h2]

theorem pair_count_pos (d : List Nat) (a b : Nat) (ha : d.getD a 0 ≠ 0) (hb : d.getD b 0 ≠ 0) :
    1 ≤ pair_count d (a + b) := by
  unfold pair_count
  by_cases hle : a ≤ b
  · apply countP_range_pos _ _ a (by omega)
    simp only [decide_eq_true_eq]
    have e : a + b - a = b := by omega
    rw [e]; exact ⟨ha, hb⟩
  · apply countP_range_pos _ _ b (by omega)
    simp only [decide_eq_true_eq]
    have e : a + b - b = a := by omega
    rw [e]; exact ⟨hb, ha⟩

/-- The gaps of an observed monoid are the gaps of a numerical monoid of its genus. -/
theorem is_gap_set_gapset (m : monoid) (hI : Inv m) : is_gap_set (gapset m) m.genus := by
  refine ⟨gapset_card m hI, ?_, ?_⟩
  · rw [mem_gapset, hI.zero]
    intro h; exact absurd h.2 (by decide)
  · intro a b ha hb hab
    rw [mem_gapset] at ha hb hab
    have hc := hI.cond_le
    have ha1 : m.decs.getD a 0 ≠ 0 := fun h => ha ⟨by omega, h⟩
    have hb1 : m.decs.getD b 0 ≠ 0 := fun h => hb ⟨by omega, h⟩
    have h1 := pair_count_pos m.decs a b ha1 hb1
    have h2 := hI.pairs (a + b) (by omega)
    omega

theorem gapset_child (m c : monoid) (x : Nat) (hI : Inv m) (hx : x ∈ child_gens m)
    (h : remove_generator m x = some c) : gapset c = insert x (gapset m) := by
  obtain ⟨h1, h2, h3⟩ := (mem_child_gens m x).1 hx
  obtain ⟨-, -, hc, -, hd⟩ := child_of_gens m c x hI hx h
  ext i
  rw [Finset.mem_insert, mem_gapset, mem_gapset, hc, hd]
  constructor
  · rintro ⟨hi, h0⟩
    by_cases hix : i = x
    · exact Or.inl hix
    · right
      have hm0 : m.decs.getD i 0 = 0 := by
        by_contra hne
        exact ((child_elem m x hI h2 h1 h3 i (by omega)).2 ⟨hne, hix⟩) h0
      refine ⟨?_, hm0⟩
      by_contra hge
      have := hI.above i (by omega) (by omega)
      omega
  · rintro (hix | ⟨hi, h0⟩)
    · subst hix
      refine ⟨by omega, ?_⟩
      by_contra hne
      exact ((child_elem m i hI h2 h1 h3 i h1).1 hne).2 rfl
    · refine ⟨by omega, ?_⟩
      by_contra hne
      exact ((child_elem m x hI h2 h1 h3 i (by omega)).1 hne).1 h0

theorem gapset_insert_inj (m m2 : monoid) (x x2 : Nat) (hx : m.conductor ≤ x)
    (hx2 : m2.conductor ≤ x2) (h : insert x (gapset m) = insert x2 (gapset m2)) :
    x = x2 ∧ gapset m = gapset m2 := by
  have hxn : x ∉ gapset m := by rw [mem_gapset]; intro h; omega
  have hxn2 : x2 ∉ gapset m2 := by rw [mem_gapset]; intro h; omega
  have e : x = x2 := by
    have a1 : x ∈ insert x2 (gapset m2) := by rw [← h]; exact Finset.mem_insert_self _ _
    have a2 : x2 ∈ insert x (gapset m) := by rw [h]; exact Finset.mem_insert_self _ _
    rw [Finset.mem_insert, mem_gapset] at a1 a2
    rcases a1 with a1 | a1
    · exact a1
    · rcases a2 with a2 | a2
      · exact a2.symm
      · omega
  refine ⟨e, ?_⟩
  subst e
  rw [← Finset.erase_insert hxn, h, Finset.erase_insert hxn2]

/-- Every gap of a numerical monoid of genus `g` is below `2 * g`. -/
theorem max_gap_lt (s : Finset ℕ) (g F : Nat) (hs : is_gap_set s g) (hF : F ∈ s) :
    F + 1 ≤ 2 * g := by
  obtain ⟨hcard, h0, hadd⟩ := hs
  have hsub : Finset.range (F + 1) ⊆ s ∪ s.image (fun a => F - a) := by
    intro a ha
    rw [Finset.mem_range] at ha
    rw [Finset.mem_union, Finset.mem_image]
    by_cases has : a ∈ s
    · exact Or.inl has
    · right
      refine ⟨F - a, ?_, by omega⟩
      by_contra hn
      have := hadd a (F - a) has hn
      have e : a + (F - a) = F := by omega
      rw [e] at this
      exact this hF
  have h1 := Finset.card_le_card hsub
  have h2 := Finset.card_union_le s (s.image (fun a => F - a))
  have h3 : (s.image (fun a => F - a)).card ≤ s.card := Finset.card_image_le
  rw [Finset.card_range] at h1
  omega

/-! ## Every numerical monoid is in the tree, once -/

theorem is_gap_set_erase (s : Finset ℕ) (g F : Nat) (hs : is_gap_set s (g + 1)) (hF : F ∈ s)
    (hmax : ∀ y ∈ s, y ≤ F) : is_gap_set (s.erase F) g := by
  obtain ⟨hcard, h0, hadd⟩ := hs
  refine ⟨by rw [Finset.card_erase_of_mem hF, hcard]; rfl, ?_, ?_⟩
  · intro h; exact h0 (Finset.mem_of_mem_erase h)
  · intro a b ha hb hab
    rw [Finset.mem_erase] at ha hb hab
    have hle := hmax _ hab.2
    by_cases has : a ∈ s
    · have : a = F := by by_contra hne; exact ha ⟨hne, has⟩
      have hb0 : b = 0 := by omega
      exact hab.1 (by omega)
    · by_cases hbs : b ∈ s
      · have : b = F := by by_contra hne; exact hb ⟨hne, hbs⟩
        exact hab.1 (by omega)
      · exact hadd a b has hbs hab.2

/-- The parent step: a numerical monoid of genus `g + 1 ≤ 38` with largest gap `F`
is the child by `F` of the observed monoid whose gaps are the other gaps. -/
theorem gap_set_child (s : Finset ℕ) (g F : Nat) (hg : g + 1 ≤ 38) (hs : is_gap_set s (g + 1))
    (hF : F ∈ s) (hmax : ∀ y ∈ s, y ≤ F) (m : monoid) (hI : Inv m) (hsh : sharp m)
    (hm : gapset m = s.erase F) :
    ∃ c, c ∈ children_of m ∧ gapset c = s := by
  have hF128 : F + 1 ≤ 2 * (g + 1) := max_gap_lt s (g + 1) F hs hF
  have hF1 : 1 ≤ F := by
    by_contra h
    have : F = 0 := by omega
    rw [this] at hF; exact hs.2.1 hF
  have hcF : m.conductor ≤ F := by
    rcases hsh with h1 | h0
    · omega
    · have hc1 := hI.cond_pos
      have hin : m.conductor - 1 ∈ gapset m := by
        rw [mem_gapset]; exact ⟨by omega, h0⟩
      rw [hm, Finset.mem_erase] at hin
      have := hmax _ hin.2
      have := hin.1
      omega
  have hnot : ∀ a, m.decs.getD a 0 ≠ 0 → a ≠ F → a ∉ s := by
    intro a ha hne has
    have : a ∈ gapset m := by rw [hm, Finset.mem_erase]; exact ⟨hne, has⟩
    rw [mem_gapset] at this
    exact ha this.2
  have hdF : m.decs.getD F 0 = 1 := by
    rw [hI.pairs F (by omega)]
    unfold pair_count
    have hcount := countP_range_diff
      (fun a => decide (m.decs.getD a 0 ≠ 0 ∧ m.decs.getD (F - a) 0 ≠ 0)) (fun _ => false)
      (F / 2 + 1) 0 (by omega) (by
        have := hI.above F hcF (by omega)
        have hz := hI.zero
        simp only [decide_eq_true_eq, Nat.sub_zero]
        omega) rfl (by
        intro a ha hne
        simp only [decide_eq_false_iff_not]
        rintro ⟨h1, h2⟩
        have n1 := hnot a h1 (by omega)
        have n2 := hnot (F - a) h2 (by omega)
        have := hs.2.2 a (F - a) n1 n2
        have e : a + (F - a) = F := by omega
        rw [e] at this
        exact this hF)
    rw [hcount]
    have : (List.range (F / 2 + 1)).countP (fun _ => false) = 0 := by
      rw [List.countP_eq_zero]; intro a _; simp
    rw [this]
  have hx : F ∈ child_gens m := (mem_child_gens m F).2 ⟨by omega, hcF, hdF⟩
  have hrem := remove_generator_some m F hI (by omega) hdF
  refine ⟨_, (mem_children_of m _).2 ⟨F, hx, hrem⟩, ?_⟩
  rw [gapset_child m _ F hI hx hrem, hm, Finset.insert_erase hF]

theorem forall2_map_eq {α β γ : Type} (f : α → γ) (g : β → γ) (l1 : List α) (l2 : List β)
    (h : List.Forall₂ (fun a b => g b = f a) l1 l2) : l2.map g = l1.map f := by
  induction h with
  | nil => rfl
  | cons hab _ ih => rw [List.map_cons, List.map_cons, hab, ih]

theorem children_gapsets (p : monoid) (hI : Inv p) :
    (children_of p).map gapset = (child_gens p).map (fun x => insert x (gapset p)) := by
  obtain ⟨cs, -, hfm, hf2⟩ := all_some_forall2 (remove_generator p)
    (fun x c => gapset c = insert x (gapset p)) (child_gens p) (by
      intro x hx
      obtain ⟨h1, -, h3⟩ := (mem_child_gens p x).1 hx
      have hrem := remove_generator_some p x hI h1 h3
      exact ⟨_, hrem, gapset_child p _ x hI hx hrem⟩)
  have : children_of p = cs := hfm
  rw [this]
  exact forall2_map_eq _ _ _ _ hf2

theorem gapset_init : gapset init_full_N = ∅ := by
  ext i
  rw [mem_gapset]
  constructor
  · rintro ⟨h1, h2⟩
    have : i = 0 := by
      have : init_full_N.conductor = 1 := rfl
      omega
    rw [this] at h2
    exact absurd h2 (by decide)
  · intro h; exact absurd h (Finset.not_mem_empty i)

/-- The monoids at depth `t ≤ 38` of the tree from the root `N` have pairwise
different sets of gaps, and these are the sets of gaps of the numerical
monoids of genus `t`. -/
theorem level_gapsets (t : Nat) (ht : t ≤ 38) :
    ((level t init_full_N).map gapset).Nodup ∧
      ∀ s, is_gap_set s t ↔ ∃ c, c ∈ level t init_full_N ∧ gapset c = s := by
  induction t with
  | zero =>
    refine ⟨by simp [level], ?_⟩
    intro s
    constructor
    · intro h
      refine ⟨init_full_N, by simp [level], ?_⟩
      rw [gapset_init]
      exact (Finset.card_eq_zero.1 h.1).symm
    · rintro ⟨c, hc, rfl⟩
      have : c = init_full_N := by simpa [level] using hc
      rw [this]
      exact is_gap_set_gapset init_full_N Inv_init
  | succ t ih =>
    obtain ⟨ihn, ihs⟩ := ih (by omega)
    have hU : (0 : Nat) + t < U64 := by rw [U64_eq]; omega
    have hinv := level_inv t init_full_N Inv_init sharp_init hU
    have hg0 : init_full_N.genus = 0 := rfl
    constructor
    · rw [level_succ_right, List.map_flatMap, List.nodup_flatMap]
      constructor
      · intro p hp
        obtain ⟨hpI, -, -⟩ := hinv p hp
        rw [children_gapsets p hpI]
        apply List.Nodup.map_on
        · intro x hx y hy hxy
          have hx1 := ((mem_child_gens p x).1 hx).2.1
          have hy1 := ((mem_child_gens p y).1 hy).2.1
          exact (gapset_insert_inj p p x y hx1 hy1 hxy).1
        · exact (child_gens_sorted p).imp (fun h => Nat.ne_of_lt h)
      · have hpw := List.pairwise_map.1 ihn
        refine hpw.imp_of_mem ?_
        intro p q hp hq hne
        obtain ⟨hpI, -, -⟩ := hinv p hp
        obtain ⟨hqI, -, -⟩ := hinv q hq
        show List.Disjoint (List.map gapset (children_of p)) (List.map gapset (children_of q))
        rw [children_gapsets p hpI, children_gapsets q hqI]
        intro s h1 h2
        rw [List.mem_map] at h1 h2
        obtain ⟨x, hx, rfl⟩ := h1
        obtain ⟨y, hy, hxy⟩ := h2
        have hx1 := ((mem_child_gens p x).1 hx).2.1
        have hy1 := ((mem_child_gens q y).1 hy).2.1
        exact hne (gapset_insert_inj q p y x hy1 hx1 hxy).2.symm
    · intro s
      constructor
      · intro hs
        have hne : s.Nonempty := by
          rw [← Finset.card_pos, hs.1]; omega
        have hF := Finset.max'_mem s hne
        have hmax : ∀ y ∈ s, y ≤ s.max' hne := fun y hy => Finset.le_max' s y hy
        obtain ⟨p, hp, hpg⟩ := (ihs (s.erase (s.max' hne))).1
          (is_gap_set_erase s t _ hs hF hmax)
        obtain ⟨hpI, hps, -⟩ := hinv p hp
        obtain ⟨c, hc, hcs⟩ := gap_set_child s t _ (by omega) hs hF hmax p hpI hps hpg
        refine ⟨c, ?_, hcs⟩
        rw [level_succ_right, List.mem_flatMap]
        exact ⟨p, hp, hc⟩
      · rintro ⟨c, hc, rfl⟩
        have hU2 : (0 : Nat) + (t + 1) < U64 := by rw [U64_eq]; omega
        obtain ⟨hcI, -, hcg⟩ := level_inv (t + 1) init_full_N Inv_init sharp_init hU2 c hc
        have := is_gap_set_gapset c hcI
        rw [hcg, hg0, Nat.zero_add] at this
        exact this

/-! ## The results of the root procedure -/

theorem children_init : children_of init_full_N = [N1] := by decide

theorem level_succ_init (t : Nat) : level (t + 1) init_full_N = level t N1 := by
  show (children_of init_full_N).flatMap (level t) = level t N1
  rw [children_init, List.flatMap_singleton]

theorem Inv_N1 : Inv N1 := Inv_of_reachable N1 reachable_N1

theorem sharp_N1 : sharp N1 := Or.inr (by decide)

/-- The numerical monoids of genus `g ≤ 38` are as many as the monoids at depth `g`
of the tree. -/
theorem gap_sets_finset (g : Nat) (hg : g ≤ 38) :
    ∃ F : Finset (Finset ℕ), (∀ s, s ∈ F ↔ is_gap_set s g) ∧
      F.card = (level g init_full_N).length := by
  obtain ⟨hn, hs⟩ := level_gapsets g hg
  refine ⟨((level g init_full_N).map gapset).toFinset, ?_, ?_⟩
  · intro s
    rw [List.mem_toFinset, List.mem_map, hs s]
  · rw [List.toFinset_card_of_nodup hn, List.length_map]

theorem root_walk_eq (tg sb fuel : Nat) :
    root_walk tg sb fuel = walk_children tg sb fuel N1 (Results.set 0 1) := by
  have h : res_add Results 0 1 = some (Results.set 0 1) := by decide
  simp only [root_walk, remove_N_1, h]

theorem counters_set_one : counters (Results.set 0 1) :=
  counters_res_add Results _ 0 1 counters_Results (by decide)

/-- For a genus bound `G` from `2` to `38`, the reference walk from `N1` succeeds, and
added to the results `1, 0, 0, ..` it gives at every index `i < G` the number of
monoids at depth `i + 1` of the tree from the root `N`. -/
theorem root_levels (G : Nat) (hG1 : 2 ≤ G) (hG2 : G ≤ 38) :
    ∃ v, tree_walk G G N1 = some v ∧ (reduce (Results.set 0 1) v).length = 40 ∧
      ∀ i, i < G → (reduce (Results.set 0 1) v).getD i 0 =
        (level (i + 1) init_full_N).length % U64 := by
  have hg1 : N1.genus = 1 := rfl
  obtain ⟨v, hv, hl, hvi⟩ := tree_walk_levels G (by omega) (by omega)
    (fun c hI hs hg => iter_bound_ok c hI hs (by omega)) G N1 Inv_N1 sharp_N1
    (by omega) (by omega)
  have hr0 : (Results.set 0 1).length = 40 := by decide
  refine ⟨v, hv, length_reduce_same _ _ 40 hr0 hl, ?_⟩
  intro i hi
  rw [getD_reduce _ _ 40 i hr0 hl (by omega), hvi i (by omega), hg1,
    getD_set _ _ _ _ (by decide), getD_Results, level_succ_init]
  by_cases h0 : i = 0
  · subst h0
    have hc : ¬ (1 ≤ 0 ∧ 0 < G) := by omega
    rw [if_pos rfl, if_neg hc]
    rfl
  · have hc : 1 ≤ i ∧ i < G := by omega
    have e : i - 1 + 1 = i := by omega
    rw [if_neg h0, if_pos hc, Nat.zero_add, Nat.mod_mod, e]

/-! ## The walkers -/

/-- C10: for every observed monoid `m` with `m.genus < G`, the spawning walker
`walk_children(m)`, with the contributions of the spawned calls summed as the
reducer sums them, gives for every large enough fuel the same results as the
sequential `walk_children_stack(m, G)`: both add to `res` the array of the
reference walk, or both fail on the same out-of-bounds read.  This holds for
every `G ≤ MAX_GENUS` and every `stack_bound` from `1` to `G`, so the output
does not depend on where the walk switches to the sequential sub-walker. -/
theorem walk_children_eq_sequential (tg sb : Nat) (h1 : 1 ≤ sb) (h2 : sb ≤ tg)
    (h3 : tg ≤ MAX_GENUS) (m : monoid) (hr : reachable m) (hg : m.genus < tg) (res : List Nat)
    (hres : counters res) :
    ∃ n, ∀ fuel, n ≤ fuel →
      walk_children tg sb fuel m res = walk_children_stack fuel m tg res ∧
      walk_children_stack fuel m tg res = (tree_walk tg (tg - m.genus) m).map (reduce res) := by
  have hI := Inv_of_reachable m hr
  have h40 : tg ≤ 40 := h3
  obtain ⟨n1, hn1⟩ := walk_children_sim tg sb h1 h2 h40
    (fun c d hc => fits_zero tg (by omega) h40 d c hc) (tg - m.genus) m res hI (by omega)
    (by omega) hres
  obtain ⟨n2, hn2⟩ := walk_children_stack_sim tg (by omega) h40 (tg - m.genus) m res hI
    (by omega) (by omega) hres (fits_zero tg (by omega) h40 _ m hI)
  refine ⟨n1 + n2, fun fuel hf => ?_⟩
  have e1 : walk_children tg sb fuel m res = _ := hn1 fuel (by omega)
  have e2 : walk_children_stack fuel m tg res = _ := hn2 fuel (by omega)
  exact ⟨by rw [e1, e2], e2⟩

/-- C10 with `G = 5` and `stack_bound = 2` at `N1` (genus 1): the walk spawns
at genus 1 and 2, runs the sequential sub-walker from genus 3, and gives the
same results `1, 2, 4, 7, 12` as the sequential sub-walker alone. -/
theorem walk_children_eq_sequential_witness :
    1 ≤ 2 ∧ 2 ≤ 5 ∧ 5 ≤ MAX_GENUS ∧ reachable N1 ∧ N1.genus < 5 ∧
      counters (Results.set 0 1) ∧
      ∃ n, ∀ fuel, n ≤ fuel →
        walk_children 5 2 fuel N1 (Results.set 0 1) =
          walk_children_stack fuel N1 5 (Results.set 0 1) ∧
        walk_children_stack fuel N1 5 (Results.set 0 1) =
          some ([1, 2, 4, 7, 12] ++ List.replicate 35 0) := by
  refine ⟨by decide, by decide, by decide, reachable_N1, by decide, counters_set_one, ?_⟩
  obtain ⟨n, hn⟩ := walk_children_eq_sequential 5 2 (by decide) (by decide) (by decide) N1
    reachable_N1 (by decide) (Results.set 0 1) counters_set_one
  refine ⟨n, fun fuel hf => ⟨(hn fuel hf).1, ?_⟩⟩
  rw [(hn fuel hf).2]
  decide

/-! ## The results of the root procedure -/

/-- C1, as the code has it: for every genus bound `G` from `1` to `38` and every
`stack_bound` from `1` to `G`, the root procedure (results all zero,
`results[0]` incremented, then the walk from `N1 = remove_generator(N, 1)`)
returns, and so does the same procedure run through
`walk_children_stack(N1, G)`, with the same results; for every `i < G`,
`results[i]` is the number of numerical monoids of genus `i + 1`, as an
`unsigned long`. -/
theorem results_count_monoids (G sb : Nat) (hG1 : 1 ≤ G) (hG2 : G ≤ 38) (h1 : 1 ≤ sb)
    (h2 : sb ≤ G) :
    ∃ res : List Nat,
      (∃ n, ∀ fuel, n ≤ fuel → root_walk G sb fuel = some res ∧
        walk_children_stack fuel N1 G (Results.set 0 1) = some res) ∧
      res.length = MAX_GENUS ∧
      ∀ i, i < G → ∃ F : Finset (Finset ℕ),
        (∀ s, s ∈ F ↔ is_gap_set s (i + 1)) ∧ res.getD i 0 = F.card % U64 := by
  have hg1 : N1.genus = 1 := rfl
  have h40 : G ≤ 40 := by omega
  have hroot : ∃ v, tree_walk G G N1 = some v ∧
      (reduce (Results.set 0 1) v).length = 40 ∧
      ∀ i, i < G → (reduce (Results.set 0 1) v).getD i 0 =
        (level (i + 1) init_full_N).length % U64 := by
    by_cases hG : 2 ≤ G
    · exact root_levels G hG hG2
    · have e : G = 1 := by omega
      subst e
      refine ⟨Results.set 1 2, by decide, by decide, ?_⟩
      intro i hi
      have e : i = 0 := by omega
      subst e
      decide
  obtain ⟨v, hv, hl, hvi⟩ := hroot
  obtain ⟨n1, hn1⟩ := walk_children_sim G sb h1 h2 h40
    (fun c d hc => fits_zero G (by omega) h40 d c hc) G N1 (Results.set 0 1)
    Inv_N1 (by omega) (by omega) counters_set_one
  obtain ⟨n2, hn2⟩ := walk_children_stack_sim G (by omega) h40 G N1
    (Results.set 0 1) Inv_N1 (by omega) (by omega) counters_set_one
    (fits_zero G (by omega) h40 _ N1 Inv_N1)
  refine ⟨reduce (Results.set 0 1) v, ⟨n1 + n2, fun fuel hf => ?_⟩, hl, ?_⟩
  · have e1 : walk_children G sb fuel N1 (Results.set 0 1) = _ := hn1 fuel (by omega)
    have e2 : walk_children_stack fuel N1 G (Results.set 0 1) = _ := hn2 fuel (by omega)
    rw [root_walk_eq, e1, e2, hv]
    exact ⟨rfl, rfl⟩
  · intro i hi
    obtain ⟨F, hF, hc⟩ := gap_sets_finset (i + 1) (by omega)
    exact ⟨F, hF, by rw [hvi i hi, hc]⟩

/-- C1, as the code has it, at `G = 5` and `stack_bound = 2`: the results are
`1, 2, 4, 7, 12`, the numbers of numerical monoids of genus `1, 2, 3, 4, 5`. -/
theorem results_count_monoids_witness :
    1 ≤ 5 ∧ 5 ≤ 38 ∧ 1 ≤ 2 ∧ 2 ≤ 5 ∧
      ∃ res : List Nat,
        (∃ n, ∀ fuel, n ≤ fuel → root_walk 5 2 fuel = some res ∧
          walk_children_stack fuel N1 5 (Results.set 0 1) = some res) ∧
        res.length = MAX_GENUS ∧
        (∀ i, i < 5 → ∃ F : Finset (Finset ℕ),
          (∀ s, s ∈ F ↔ is_gap_set s (i + 1)) ∧ res.getD i 0 = F.card % U64) ∧
        res = [1, 2, 4, 7, 12] ++ List.replicate 35 0 := by
  refine ⟨by decide, by decide, by decide, by decide, ?_⟩
  obtain ⟨res, ⟨n, hn⟩, hl, hF⟩ :=
    results_count_monoids 5 2 (by decide) (by decide) (by decide) (by decide)
  refine ⟨res, ⟨n, hn⟩, hl, hF, ?_⟩
  have h1 : walk_children_stack (n + 40) N1 5 (Results.set 0 1) = some res :=
    (hn (n + 40) (by omega)).2
  obtain ⟨n2, hn2⟩ := walk_children_stack_sim 5 (by decide) (by decide) 4 N1
    (Results.set 0 1) Inv_N1 (by decide) (by decide) counters_set_one
    (fits_zero 5 (by decide) (by decide) _ N1 Inv_N1)
  have h2 : walk_children_stack (n + n2) N1 5 (Results.set 0 1) = _ := hn2 (n + n2) (by omega)
  have h3 : walk_children_stack (n + n2) N1 5 (Results.set 0 1) = some res :=
    (hn (n + n2) (by omega)).2
  have h4 : (tree_walk 5 4 N1).map (reduce (Results.set 0 1)) =
      some ([1, 2, 4, 7, 12] ++ List.replicate 35 0) := by decide
  rw [h3, h4] at h2
  exact Option.some.inj h2

/-- C1 fails as stated: the root procedure with `G = 5` (through `walk_children`
with `stack_bound = 2`, and through `walk_children_stack(N1, 5)`) ends with
`results[0..5) = 1, 2, 4, 7, 12`, not `1, 1, 2, 4, 7`; `results[1] = 2`, while
there is one numerical monoid of genus `1`, the one whose only gap is `1`,
and none but the one without gaps of genus `0`. -/
theorem results_shifted_by_one :
    ∃ res : List Nat, root_walk 5 2 40 = some res ∧
      walk_children_stack 40 N1 5 (Results.set 0 1) = some res ∧
      res.take 5 = [1, 2, 4, 7, 12] ∧ res.getD 1 0 = 2 ∧
      (∀ s, is_gap_set s 1 ↔ s = {1}) ∧ (∀ s, is_gap_set s 0 ↔ s = ∅) := by
  refine ⟨[1, 2, 4, 7, 12] ++ List.replicate 35 0, by decide, by decide, by decide, by decide,
    ?_, ?_⟩
  · intro s
    rw [(level_gapsets 1 (by decide)).2 s, level_succ_init]
    have hg : gapset N1 = {1} := by decide
    constructor
    · rintro ⟨c, hc, rfl⟩
      have : c = N1 := by simpa [level] using hc
      rw [this, hg]
    · intro h
      exact ⟨N1, by simp [level], by rw [hg, h]⟩
  · intro s
    rw [(level_gapsets 0 (by decide)).2 s]
    constructor
    · rintro ⟨c, hc, rfl⟩
      have : c = init_full_N := by simpa [level] using hc
      rw [this, gapset_init]
    · intro h
      exact ⟨init_full_N, by simp [level], by rw [gapset_init, h]⟩

/-! ## The unrolled switch and the plain loop -/

theorem plain_loop_eq_case_unroll (src : List Nat) (b k : Nat) (hk : k < 16) (n : Nat) :
    ∀ (i fuel : Nat) (dst : List Nat), b < i → i + n = 8 → n + 1 ≤ fuel →
      plain_loop src b k fuel i dst = case_unroll src n (i - 1) (16 * (i - b) - k) dst := by
  induction n with
  | zero =>
    intro i fuel dst _ hi hf
    obtain ⟨f, rfl⟩ : ∃ f, fuel = f + 1 := ⟨fuel - 1, by omega⟩
    have hc : ¬ (i < NBLOCKS) := by rw [NBLOCKS_eq]; omega
    simp only [plain_loop, case_unroll]
    rw [if_neg hc]
  | succ n ih =>
    intro i fuel dst hb hi hf
    obtain ⟨f, rfl⟩ : ∃ f, fuel = f + 1 := ⟨fuel - 1, by omega⟩
    have hc : i < NBLOCKS := by rw [NBLOCKS_eq]; omega
    have hsh : (i - b) <<< 4 = 16 * (i - b) := by rw [Nat.shiftLeft_eq]; omega
    have hd : k ≤ (i - b) <<< 4 := by rw [hsh]; omega
    have e1 : (i + 1) % U64 = i + 1 := Nat.mod_eq_of_lt (by rw [U64_eq]; omega)
    have e2 : i - 1 + 1 = i := by omega
    have e3 : 16 * (i - b) - k + 16 = 16 * (i + 1 - b) - k := by omega
    have e4 : i = i + 1 - 1 := by omega
    simp only [plain_loop, case_unroll]
    rw [if_pos hc, if_pos hd, hsh, e1, e2, e3]
    cases load_unaligned_epi8 src (16 * (i - b) - k) with
    | none => rfl
    | some s =>
      simp only [Option.bind_eq_bind, Option.some_bind]
      cases sub_clamp dst i s with
      | none => rfl
      | some d1 =>
        simp only [Option.some_bind]
        rw [ih (i + 1) f d1 (by omega) (by omega) (by omega)]
        rfl

/-- The switch and the plain loop compute the same array. -/
theorem unrolled_switch_eq_plain (src : List Nat) (b k : Nat) (hb : b < 8) (hk : k < 16)
    (dst : List Nat) : unrolled_switch src b k dst = plain_loop_stmt src b k dst := by
  unfold unrolled_switch plain_loop_stmt
  have e1 : (b + 1) % U64 = b + 1 := Nat.mod_eq_of_lt (by rw [U64_eq]; omega)
  have h1 : b < b + 1 := by omega
  have h2 : b + 1 + (7 - b) = 8 := by omega
  have h3 : 7 - b + 1 ≤ NBLOCKS + 1 := by rw [NBLOCKS_eq]; omega
  have e2 : b + 1 - 1 = b := by omega
  have e3 : 16 * (b + 1 - b) - k = 16 - k := by
    have : b + 1 - b = 1 := by omega
    rw [this]
  rw [e1, plain_loop_eq_case_unroll src b k hk (7 - b) (b + 1) (NBLOCKS + 1) dst h1 h2 h3,
    unroll_cases_eq, e2, e3]
  by_cases h7 : b < 7
  · rw [if_pos h7]
  · have e7 : 7 - b = 0 := by omega
    rw [if_neg h7, e7]
    rfl

/-- What the switch does to `dst`, block by block. -/
theorem unrolled_switch_blocks (src dst : List Nat) (hs : src.length = 128)
    (hd : dst.length = 128) (b k : Nat) (hb : b < 8) (hk : k < 16) :
    ∃ r, unrolled_switch src b k dst = some r ∧ r.length = 128 ∧
      (∀ i, b + 1 ≤ i → i < 8 →
        nth_block r i = some (sub_epi8 ((dst.drop (16 * i)).take 16)
          (and_epi8 (cmpneq_epi8 ((src.drop ((i - b) * 16 - k)).take 16) zero) block1))) ∧
      (∀ i, i ≤ b → nth_block r i = nth_block dst i) := by
  have h7 : b < 7 ∨ b = 7 := by omega
  obtain ⟨r, h1, h2, h3⟩ := case_unroll_spec src hs (7 - b) b (16 - k) dst hd (by omega)
    (by omega)
  have hsw : unrolled_switch src b k dst = some r := by
    unfold unrolled_switch
    rw [unroll_cases_eq]
    by_cases hlt : b < 7
    · rw [if_pos hlt]; exact h1
    · have e7 : 7 - b = 0 := by omega
      rw [e7] at h1
      rw [if_neg hlt]
      exact h1
  refine ⟨r, hsw, h2, ?_, ?_⟩
  · intro i hi1 hi2
    have hi4 : i <<< 4 = 16 * i := by rw [Nat.shiftLeft_eq]; omega
    unfold nth_block
    rw [if_pos (by rw [NBLOCKS_eq]; exact hi2), hi4]
    apply congrArg some
    have hl1 : ((r.drop (16 * i)).take 16).length = 16 := length_take_drop _ _ (by omega)
    have hl2 : ((dst.drop (16 * i)).take 16).length = 16 := length_take_drop _ _ (by omega)
    have hl3 : ((src.drop ((i - b) * 16 - k)).take 16).length = 16 :=
      length_take_drop _ _ (by omega)
    have hl4 := length_clamp _ hl3
    apply list_ext_getD
    · rw [hl1]; simp [sub_epi8, hl2, hl4]
    · intro t ht
      rw [hl1] at ht
      unfold sub_epi8
      rw [getD_take_drop _ _ _ ht, getD_zipWith16 _ _ _ _ hl2 hl4 ht, getD_take_drop _ _ _ ht,
        getD_clamp _ _ hl3 ht, getD_take_drop _ _ _ ht, h3 (16 * i + t)]
      have hc : 16 * (b + 1) ≤ 16 * i + t ∧ 16 * i + t < 16 * (b + 1 + (7 - b)) := by omega
      have e : 16 * i + t - 16 * (b + 1) + (16 - k) = (i - b) * 16 - k + t := by omega
      rw [if_pos hc, e]
  · intro i hi
    have hi4 : i <<< 4 = 16 * i := by rw [Nat.shiftLeft_eq]; omega
    unfold nth_block
    rw [hi4]
    have hl1 : ((r.drop (16 * i)).take 16).length = 16 := length_take_drop _ _ (by omega)
    have hl2 : ((dst.drop (16 * i)).take 16).length = 16 := length_take_drop _ _ (by omega)
    have : (r.drop (16 * i)).take 16 = (dst.drop (16 * i)).take 16 := by
      apply list_ext_getD
      · rw [hl1, hl2]
      · intro t ht
        rw [hl1] at ht
        rw [getD_take_drop _ _ _ ht, getD_take_drop _ _ _ ht, h3 (16 * i + t)]
        have hc : ¬ (16 * (b + 1) ≤ 16 * i + t ∧ 16 * i + t < 16 * (b + 1 + (7 - b))) := by
          omega
        rw [if_neg hc]
    rw [this]

/-! ## Monoids whose iterator reads outside the array -/

theorem countP_range_false (n : Nat) : (List.range n).countP (fun _ => false) = 0 := by
  rw [List.countP_eq_zero]; intro a _; simp

/-- An element that is no sum of two positive elements is a generator. -/
theorem gen_of_no_pair (m : monoid) (hI : Inv m) (i : Nat) (hi : i < 128) (h1 : 1 ≤ i)
    (he : m.decs.getD i 0 ≠ 0)
    (hp : ∀ a, m.min ≤ a → a ≤ i / 2 → m.decs.getD a 0 = 0 ∨ m.decs.getD (i - a) 0 = 0) :
    m.decs.getD i 0 = 1 := by
  rw [hI.pairs i hi]
  unfold pair_count
  have hcount := countP_range_diff
    (fun a => decide (m.decs.getD a 0 ≠ 0 ∧ m.decs.getD (i - a) 0 ≠ 0)) (fun _ => false)
    (i / 2 + 1) 0 (by omega) (by
      have hz := hI.zero
      simp only [decide_eq_true_eq, Nat.sub_zero]
      exact ⟨by omega, he⟩) rfl (by
      intro a ha hne
      simp only [decide_eq_false_iff_not]
      rintro ⟨h2, h3⟩
      by_cases hm : a < m.min
      · exact h2 (hI.below_min a (by omega) hm)
      · rcases hp a (by omega) (by omega) with h | h
        · exact h2 h
        · exact h3 h)
  rw [hcount, countP_range_false]

theorem all_some_none_of_mem {α β : Type} (f : α → Option β) (l : List α) (a : α)
    (ha : a ∈ l) (h : f a = none) : all_some f l = none := by
  induction l with
  | nil => exact absurd ha (List.not_mem_nil a)
  | cons x xs ih =>
    rcases List.mem_cons.1 ha with e | e
    · subst e
      simp only [all_some, h]
    · have := ih e
      simp only [all_some, this]
      cases f x <;> rfl

/-- A failing sub-walk of a child makes the sub-walk of the parent fail. -/
theorem tree_walk_none_child (bound d : Nat) (m c : monoid) (x : Nat) (hI : Inv m)
    (hexp : m.genus < (bound + U64 - 1) % U64)
    (hx : x ∈ child_gens m) (h : remove_generator m x = some c)
    (hc : tree_walk bound d c = none) : tree_walk bound (d + 1) m = none := by
  · by_cases hib : iter_bound m < NBLOCKS
    · have hcv : children_visited m = some (child_gens m) := by
        rw [children_visited_char m hI, if_pos hib]
      obtain ⟨cs, hcs, hfm, -⟩ := children_of_spec m hI
      have hmem : c ∈ cs := by rw [← hfm]; exact (mem_children_of m c).2 ⟨x, hx, h⟩
      have hall := all_some_none_of_mem (tree_walk bound d) cs c hmem hc
      simp only [tree_walk, if_pos hexp, hcv, hcs, hall]
    · have hcv : children_visited m = none := by
        rw [children_visited_char m hI, if_neg hib]
      simp only [tree_walk, if_pos hexp, hcv]

/-- The monoid of genus 38 reached by removing `1, .., 37`, then `75`: conductor 76,
min 38, iterator bound 8. -/
theorem bad38 :
    ∃ m37 m38, ordinary 37 = some m37 ∧ reachable m37 ∧ m37.genus = 37 ∧
      75 ∈ child_gens m37 ∧ remove_generator m37 75 = some m38 ∧ reachable m38 ∧
      m38.genus = 38 ∧ m38.conductor = 76 ∧ m38.min = 38 ∧ iter_bound m38 = 8 := by
  obtain ⟨m37, h1, h2, h3, h4, h5⟩ := ordinary_reachable 37 (by decide)
  have hI := Inv_of_reachable m37 h2
  have h75 : m37.decs.getD 75 0 = 1 := by
    apply gen_of_no_pair m37 hI 75 (by decide) (by decide)
    · have := hI.above 75 (by omega) (by decide); omega
    · intro a ha1 ha2
      omega
  have hx : 75 ∈ child_gens m37 := (mem_child_gens m37 75).2 ⟨by decide, by omega, h75⟩
  have hrem := remove_generator_some m37 75 hI (by decide) h75
  obtain ⟨hcI, hcg, hcc, hcm, -⟩ := child_of_gens m37 _ 75 hI hx hrem
  have hmin : (if 75 = m37.min then 75 + 1 else m37.min) = 38 := by
    rw [h4]; decide
  refine ⟨m37, _, h1, h2, h5, hx, hrem, reachable.child m37 _ 75 h2 (by omega) hrem, ?_, rfl,
    hmin, ?_⟩
  · show (m37.genus + 1) % U64 = 38
    rw [h5]; decide
  · rw [iter_bound_eq _ hcI]
    show (75 + 1 + (if 75 = m37.min then 75 + 1 else m37.min) + 15) / 16 = 8
    rw [hmin]

/-- The monoid of genus 39 reached by removing `1, .., 37`, then `39`, then `77`:
conductor 78, min 38, iterator bound 8. -/
theorem bad39 :
    ∃ m37 m38 m39, ordinary 37 = some m37 ∧ remove_generator m37 39 = some m38 ∧
      remove_generator m38 77 = some m39 ∧ reachable m39 ∧
      m39.genus = 39 ∧ m39.conductor = 78 ∧ m39.min = 38 ∧ iter_bound m39 = 8 := by
  obtain ⟨m37, h1, h2, h3, h4, h5⟩ := ordinary_reachable 37 (by decide)
  have hI := Inv_of_reachable m37 h2
  have h39 : m37.decs.getD 39 0 = 1 := by
    apply gen_of_no_pair m37 hI 39 (by decide) (by decide)
    · have := hI.above 39 (by omega) (by decide); omega
    · intro a ha1 ha2
      omega
  have hx : 39 ∈ child_gens m37 := (mem_child_gens m37 39).2 ⟨by decide, by omega, h39⟩
  have hrem := remove_generator_some m37 39 hI (by decide) h39
  obtain ⟨hcI, hcg, hcc, hcm, hcd⟩ := child_of_gens m37 _ 39 hI hx hrem
  have hmin : (if 39 = m37.min then 39 + 1 else m37.min) = 38 := by
    rw [h4]; decide
  have hr38 := reachable.child m37 _ 39 h2 (by omega) hrem
  -- the second removal
  have h77 : (removed_decs m37.decs 39).getD 77 0 = 1 := by
    have hz : (removed_decs m37.decs 39).getD 39 0 = 0 := by
      by_contra hne
      exact ((child_elem m37 39 hI (by omega) (by decide) h39 39 (by decide)).1 hne).2 rfl
    apply gen_of_no_pair _ hcI 77 (by decide) (by decide)
    · have := hcI.above 77 (by show 39 + 1 ≤ 77; decide) (by decide)
      have e : (removed_decs m37.decs 39).getD 77 0 = _ := rfl
      omega
    · intro a ha1 ha2
      have hm : 38 ≤ a := by
        have : (if 39 = m37.min then 39 + 1 else m37.min) ≤ a := ha1
        rw [hmin] at this; exact this
      have e : a = 38 := by omega
      right
      subst e
      exact hz
  have hrem2 := remove_generator_some _ 77 hcI (by decide) h77
  have hx2 : 77 ∈ child_gens
      { decs := removed_decs m37.decs 39, conductor := 39 + 1,
        min := if 39 = m37.min then 39 + 1 else m37.min, genus := (m37.genus + 1) % U64 } :=
    (mem_child_gens _ 77).2 ⟨by decide, by show 39 + 1 ≤ 77; decide, h77⟩
  obtain ⟨hdI, -⟩ := child_of_gens _ _ 77 hcI hx2 hrem2
  have hmin2 : (if 77 = (if 39 = m37.min then 39 + 1 else m37.min) then 77 + 1
      else (if 39 = m37.min then 39 + 1 else m37.min)) = 38 := by
    rw [hmin]; decide
  refine ⟨m37, _, _, h1, hrem, hrem2,
    reachable.child _ _ 77 hr38 (by show 39 + 1 ≤ 77; decide) hrem2, ?_, rfl, hmin2, ?_⟩
  · show ((m37.genus + 1) % U64 + 1) % U64 = 39
    rw [h5]; decide
  · rw [iter_bound_eq _ hdI]
    show (77 + 1 + (if 77 = (if 39 = m37.min then 39 + 1 else m37.min) then 77 + 1
      else (if 39 = m37.min then 39 + 1 else m37.min)) + 15) / 16 = 8
    rw [hmin2]

/-! ## The walk to genus 40 reads outside the array -/

theorem ordinary_step (n : Nat) (hn : n + 1 ≤ 127) :
    ∃ m c, ordinary n = some m ∧ ordinary (n + 1) = some c ∧ reachable m ∧ m.genus = n ∧
      (n + 1) ∈ child_gens m ∧ remove_generator m (n + 1) = some c := by
  obtain ⟨m, h1, h2, h3, h4, h5⟩ := ordinary_reachable n (by omega)
  obtain ⟨c, g1, -⟩ := ordinary_reachable (n + 1) hn
  have hI := Inv_of_reachable m h2
  have hgen := ordinary_gen m hI (by omega) (by omega)
  rw [h3] at hgen
  have hx : (n + 1) ∈ child_gens m := (mem_child_gens m _).2 ⟨by omega, by omega, hgen⟩
  refine ⟨m, c, h1, g1, h2, h5, hx, ?_⟩
  have : ordinary (n + 1) = (ordinary n).bind (fun m => remove_generator m (n + 1)) := rfl
  rw [h1, g1] at this
  exact this.symm

theorem tree_walk_bad38 (m38 : monoid) (hg : m38.genus = 38)
    (hb : iter_bound m38 = 8) (d : Nat) : tree_walk 40 d m38 = none := by
  cases d with
  | zero => rfl
  | succ d =>
    have hexp : m38.genus < (40 + U64 - 1) % U64 := by
      rw [bound_pred 40 (by decide) (by decide), hg]; decide
    have hcv : children_visited m38 = none :=
      children_visited_oob m38 (by rw [hb]; decide)
    simp only [tree_walk, if_pos hexp, hcv]

/-- With bound `40`, the reference walk fails from every monoid `{0, n+1, n+2, ..}`,
`n ≤ 37`: the monoid of genus 38 with conductor 76 and min 38 is among its
descendants. -/
theorem tree_walk_ordinary_none (k : Nat) :
    ∀ (n : Nat) (m : monoid), n + k = 37 → ordinary n = some m →
      ∀ d, tree_walk 40 d m = none := by
  induction k with
  | zero =>
    intro n m hn hm d
    have e : n = 37 := by omega
    subst e
    obtain ⟨m37, m38, h1, h2, h3, h4, h5, h6, h7, h8, h9, h10⟩ := bad38
    have : m = m37 := Option.some.inj (hm.symm.trans h1)
    subst this
    cases d with
    | zero => rfl
    | succ d =>
      have hexp : m.genus < (40 + U64 - 1) % U64 := by
        rw [bound_pred 40 (by decide) (by decide), h3]; decide
      exact tree_walk_none_child 40 d m m38 75 (Inv_of_reachable m h2) hexp h4 h5
        (tree_walk_bad38 m38 h7 h10 d)
  | succ k ih =>
    intro n m hn hm d
    obtain ⟨m0, c, h1, h2, h3, h4, h5, h6⟩ := ordinary_step n (by omega)
    have : m = m0 := Option.some.inj (hm.symm.trans h1)
    subst this
    cases d with
    | zero => rfl
    | succ d =>
      have hexp : m.genus < (40 + U64 - 1) % U64 := by
        rw [bound_pred 40 (by decide) (by decide), h4]; omega
      exact tree_walk_none_child 40 d m c (n + 1) (Inv_of_reachable m h3) hexp h5 h6
        (ih (n + 1) c (by omega) h2 d)

theorem ordinary_one : ordinary 1 = some N1 := by
  show (some init_full_N).bind (fun m => remove_generator m 1) = some N1
  exact remove_N_1

/-- The program with its constants `target_genus = 40` and `stack_bound = 11`
reads outside `decs`: for every large enough fuel, `main` fails. -/
theorem main_reads_outside : ∃ n, ∀ fuel, n ≤ fuel → main fuel = none := by
  obtain ⟨n, hn⟩ := walk_children_sim 40 11 (by decide) (by decide) (by decide)
    (fun c d hc => fits_zero 40 (by decide) (by decide) d c hc) 39 N1 (Results.set 0 1)
    Inv_N1 (by decide) (by decide) counters_set_one
  refine ⟨n, fun fuel hf => ?_⟩
  have e : walk_children 40 11 fuel N1 (Results.set 0 1) = _ := hn fuel hf
  show root_walk 40 11 fuel = none
  rw [root_walk_eq, e, tree_walk_ordinary_none 36 1 N1 (by decide) ordinary_one 39]
  rfl

/-! ## The spawn test when `stack_bound` exceeds the genus bound -/

theorem sorted_head (l : List Nat) (c : Nat) (hs : l.Pairwise (fun a b => a < b))
    (hc : c ∈ l) (hle : ∀ y ∈ l, c ≤ y) : ∃ t, l = c :: t := by
  cases l with
  | nil => exact absurd hc (List.not_mem_nil c)
  | cons x t =>
    rcases List.mem_cons.1 hc with e | e
    · exact ⟨t, by rw [e]⟩
    · have h1 := (List.pairwise_cons.1 hs).1 c e
      have h2 := hle x (List.mem_cons_self _ _)
      omega

/-- When the spawn threshold is above 56, `walk_children` spawns from
`{0, n+1, n+2, ..}` to its first child down to `{0, 57, 58, ..}`, whose
iterator reads outside `decs`: no fuel gives a result. -/
theorem walk_children_wrap_none (tg sb : Nat) (hw : 57 ≤ (tg + U64 - sb % U64) % U64)
    (k : Nat) :
    ∀ (n : Nat) (m : monoid) (fuel : Nat) (res : List Nat), n + k = 56 →
      ordinary n = some m → walk_children tg sb fuel m res = none := by
  induction k with
  | zero =>
    intro n m fuel res hn hm
    have e : n = 56 := by omega
    subst e
    obtain ⟨m0, h1, h2, h3, h4, h5⟩ := ordinary_reachable 56 (by decide)
    have : m = m0 := Option.some.inj (hm.symm.trans h1)
    subst this
    cases fuel with
    | zero => rfl
    | succ fuel =>
      have hI := Inv_of_reachable m h2
      have hb : NBLOCKS ≤ iter_bound m := by
        rw [iter_bound_eq m hI, h3, h4]; decide
      rw [walk_children_spawn tg sb fuel m res (by omega), children_visited_oob m hb]
  | succ k ih =>
    intro n m fuel res hn hm
    obtain ⟨m0, c, h1, h2, h3, h4, h5, h6⟩ := ordinary_step n (by omega)
    have : m = m0 := Option.some.inj (hm.symm.trans h1)
    subst this
    obtain ⟨m1, g1, -, g3, g4, -⟩ := ordinary_reachable n (by omega)
    have : m = m1 := Option.some.inj (hm.symm.trans g1)
    subst this
    cases fuel with
    | zero => rfl
    | succ fuel =>
      have hI := Inv_of_reachable m h3
      have hb : iter_bound m < NBLOCKS := by
        rw [iter_bound_eq m hI, g3, g4, NBLOCKS_eq]; omega
      obtain ⟨t, ht⟩ := sorted_head (child_gens m) (n + 1) (child_gens_sorted m) h5
        (fun y hy => by have := ((mem_child_gens m y).1 hy).2.1; omega)
      rw [walk_children_spawn tg sb fuel m res (by omega), children_visited_eq m hI hb, ht]
      simp only [spawn_list, h6, ih (n + 1) c fuel res (by omega) h2]

theorem root_walk_wrap_none (tg sb : Nat) (hw : 57 ≤ (tg + U64 - sb % U64) % U64)
    (fuel : Nat) : root_walk tg sb fuel = none := by
  rw [root_walk_eq]
  exact walk_children_wrap_none tg sb hw 55 1 N1 fuel _ (by decide) ordinary_one

/-! ## The assertions and the bytes of `remove_generator` -/

/-- C14: for every monoid `src` with `src.decs[0] = 1` and every `g < SIZE` with
`src.decs[g] = 1`, `remove_generator(src, g)` returns (no `assert` fails) a
`dst` with `dst.decs[g] = 0`, hence `dst.decs[dst.conductor - 1] = 0`. -/
theorem closing_assert_holds (src : monoid) (g : Nat) (hw : src.wf) (h0 : src.decs.getD 0 0 = 1)
    (hg : g < SIZE) (h1 : src.decs.getD g 0 = 1) :
    ∃ dst, remove_generator src g = some dst ∧ dst.decs.getD g 0 = 0 ∧
      dst.conductor - 1 = g ∧ dst.decs.getD (dst.conductor - 1) 0 = 0 := by
  rw [SIZE_eq] at hg
  have hz : (removed_decs src.decs g).getD g 0 = 0 := by
    rw [getD_removed_decs _ _ _ hg, if_neg (Nat.lt_irrefl g), Nat.sub_self, h0, h1]
    rfl
  have hne : src.decs.getD 0 0 ≠ 0 := by rw [h0]; decide
  have hr := remove_generator_eq src g hw
  rw [if_pos ⟨hg, h1, hne⟩] at hr
  refine ⟨_, hr, hz, Nat.add_sub_cancel g 1, ?_⟩
  show (removed_decs src.decs g).getD (g + 1 - 1) 0 = 0
  rw [Nat.add_sub_cancel]
  exact hz

/-- C14 at the root `N` and `g = 1`. -/
theorem closing_assert_holds_witness :
    init_full_N.wf ∧ init_full_N.decs.getD 0 0 = 1 ∧ 1 < SIZE ∧ init_full_N.decs.getD 1 0 = 1 ∧
      ∃ dst, remove_generator init_full_N 1 = some dst ∧ dst.decs.getD 1 0 = 0 ∧
        dst.conductor - 1 = 1 ∧ dst.decs.getD (dst.conductor - 1) 0 = 0 :=
  ⟨wf_init, by decide, by decide, by decide,
    closing_assert_holds init_full_N 1 wf_init (by decide) (by decide) (by decide)⟩

/-! ## No generator from `conductor + min` on -/

/-- C16: in every observed monoid `M`, every index `i` of the array with
`i ≥ M.conductor + M.min` has `M.decs[i] ≥ 2`, so it is no generator; every
children generator lies below block `bound` of the iterators. -/
theorem no_generator_above (M : monoid) (h : reachable M) :
    (∀ i, M.conductor + M.min ≤ i → i < SIZE → 2 ≤ M.decs.getD i 0 ∧ M.decs.getD i 0 ≠ 1) ∧
      ∀ i, M.conductor ≤ i → i < SIZE → M.decs.getD i 0 = 1 → i < 16 * iter_bound M := by
  have hI := Inv_of_reachable M h
  have hS := SIZE_eq
  constructor
  · intro i h1 h2
    have := no_gen_above M hI i h1 (by omega)
    exact ⟨this, by omega⟩
  · intro i h1 h2 h3
    rw [iter_bound_eq M hI]
    by_contra hge
    have := no_gen_above M hI i (by omega) (by omega)
    omega

/-- C16 at `N1 = {0, 2, 3, ..}`: `conductor + min = 4` and `decs[4] = 2`. -/
theorem no_generator_above_witness :
    reachable N1 ∧ N1.conductor + N1.min = 4 ∧ N1.decs.getD 4 0 = 2 ∧
      (∀ i, N1.conductor + N1.min ≤ i → i < SIZE →
        2 ≤ N1.decs.getD i 0 ∧ N1.decs.getD i 0 ≠ 1) :=
  ⟨reachable_N1, by decide, by decide, (no_generator_above N1 reachable_N1).1⟩

/-! ## Small counts, no underflow -/

/-- C17: every observed monoid `M` has `M.decs[i] ≤ i / 2 + 1 ≤ 64` for every
`i < SIZE`; and in `remove_generator(src, g)` with `src` observed and `g` a
generator at or above the conductor, every lane `i` that is decremented
(`i ≥ g` and `src.decs[i - g] != 0`) has `src.decs[i] ≥ 1`, so that the
wrapping byte subtraction of the code is the saturating decrement by the
mask. -/
theorem small_counts_no_underflow (M : monoid) (h : reachable M) :
    (∀ i, i < SIZE → M.decs.getD i 0 ≤ i / 2 + 1 ∧ i / 2 + 1 ≤ 64) ∧
      ∀ g, M.conductor ≤ g → g < SIZE → M.decs.getD g 0 = 1 →
        ∃ dst, remove_generator M g = some dst ∧
          ∀ i, i < SIZE →
            (g ≤ i → M.decs.getD (i - g) 0 ≠ 0 → 1 ≤ M.decs.getD i 0) ∧
            dst.decs.getD i 0 =
              (M.decs.getD i 0 + 256 -
                (if g ≤ i ∧ M.decs.getD (i - g) 0 ≠ 0 then 1 else 0)) % 256 ∧
            dst.decs.getD i 0 =
              M.decs.getD i 0 - (if g ≤ i ∧ M.decs.getD (i - g) 0 ≠ 0 then 1 else 0) := by
  have hI := Inv_of_reachable M h
  have hS := SIZE_eq
  constructor
  · intro i hi
    have h1 := hI.pairs i (by omega)
    have h2 := pair_count_le M.decs i
    omega
  · intro g hc hg h1
    rw [hS] at hg
    refine ⟨_, remove_generator_some M g hI hg h1, ?_⟩
    intro i hi
    rw [hS] at hi
    have hab : g ≤ i → 1 ≤ M.decs.getD i 0 := fun hgi => hI.above i (by omega) hi
    have hby := getD_lt_of_bytes M.decs hI.wf.2.1 i
    refine ⟨fun hgi _ => hab hgi, ?_, ?_⟩
    · show (removed_decs M.decs g).getD i 0 = _
      rw [getD_removed_decs _ _ _ hi]
      by_cases c : i < g
      · have c2 : ¬ (g ≤ i ∧ M.decs.getD (i - g) 0 ≠ 0) := by omega
        rw [if_pos c, if_neg c2, Nat.sub_zero, Nat.add_mod_right, Nat.mod_eq_of_lt hby]
      · rw [if_neg c]
        by_cases z : M.decs.getD (i - g) 0 = 0
        · have c2 : ¬ (g ≤ i ∧ M.decs.getD (i - g) 0 ≠ 0) := fun hh => hh.2 z
          rw [if_pos z, if_neg c2]
        · have c2 : g ≤ i ∧ M.decs.getD (i - g) 0 ≠ 0 := ⟨by omega, z⟩
          rw [if_neg z, if_pos c2]
    · show (removed_decs M.decs g).getD i 0 = _
      rw [child_getD M g hI hc i hi]
      by_cases c : i < g
      · have c2 : ¬ (g ≤ i ∧ M.decs.getD (i - g) 0 ≠ 0) := by omega
        rw [if_pos c, if_neg c2, Nat.sub_zero]
      · rw [if_neg c]
        by_cases z : M.decs.getD (i - g) 0 = 0
        · have c2 : ¬ (g ≤ i ∧ M.decs.getD (i - g) 0 ≠ 0) := fun hh => hh.2 z
          rw [if_pos z, if_neg c2]
        · have c2 : g ≤ i ∧ M.decs.getD (i - g) 0 ≠ 0 := ⟨by omega, z⟩
          rw [if_neg z, if_pos c2]

/-- C17 at `N1 = {0, 2, 3, ..}` and `g = 2`: lane `4` goes from `2` to `1`. -/
theorem small_counts_no_underflow_witness :
    reachable N1 ∧ N1.decs.getD 4 0 = 2 ∧
      ∃ dst, remove_generator N1 2 = some dst ∧ dst.decs.getD 4 0 = 1 := by
  obtain ⟨dst, h1, h2⟩ :=
    (small_counts_no_underflow N1 reachable_N1).2 2 (by decide) (by decide) (by decide)
  refine ⟨reachable_N1, by decide, dst, h1, ?_⟩
  rw [(h2 4 (by decide)).2.2]
  decide

/-! ## The unrolled switch -/

/-- C18: with `NBLOCKS = 8`, for every start block `b < 8` and offset `k < 16`,
the fall-through switch of `remove_generator` returns the same array as the
plain loop; it replaces block `i` of `dst`, for every `i` in `[b + 1, NBLOCKS)`,
by that block minus the 0/1 clamp of the sixteen bytes of `src` at offset
`(i - b) * 16 - k`, leaves the blocks `0 .. b` as they are, and every such
read lies inside `src`. -/
theorem switch_eq_plain_loop (src dst : List Nat) (hs : src.length = SIZE)
    (hd : dst.length = SIZE) (b k : Nat) (hb : b < NBLOCKS) (hk : k < 16) :
    NBLOCKS = 8 ∧
      ∃ r, unrolled_switch src b k dst = some r ∧ plain_loop_stmt src b k dst = some r ∧
        (∀ i, b + 1 ≤ i → i < NBLOCKS →
          k ≤ (i - b) * 16 ∧ (i - b) * 16 - k + 16 ≤ SIZE ∧
          ∃ s d, load_unaligned_epi8 src ((i - b) * 16 - k) = some s ∧
            nth_block dst i = some d ∧
            nth_block r i = some (sub_epi8 d (and_epi8 (cmpneq_epi8 s zero) block1))) ∧
        (∀ i, i ≤ b → nth_block r i = nth_block dst i) := by
  have hS := SIZE_eq
  have hN := NBLOCKS_eq
  rw [hS] at hs hd
  rw [hN] at hb
  obtain ⟨r, h1, -, h3, h4⟩ := unrolled_switch_blocks src dst hs hd b k hb hk
  refine ⟨hN, r, h1, by rw [← unrolled_switch_eq_plain src b k hb hk dst]; exact h1, ?_, h4⟩
  intro i hi1 hi2
  rw [hN] at hi2
  have hi4 : i <<< 4 = 16 * i := by rw [Nat.shiftLeft_eq]; omega
  refine ⟨by omega, by omega, _, _, ?_, ?_, h3 i hi1 hi2⟩
  · unfold load_unaligned_epi8
    rw [if_pos (by omega)]
  · unfold nth_block
    rw [if_pos (by omega), hi4]

/-- C18 on the bytes of the root `N`, start block `0` and offset `1`. -/
theorem switch_eq_plain_loop_witness :
    init_full_N.decs.length = SIZE ∧ 0 < NBLOCKS ∧ 1 < 16 ∧
      ∃ r, unrolled_switch init_full_N.decs 0 1 init_full_N.decs = some r ∧
        plain_loop_stmt init_full_N.decs 0 1 init_full_N.decs = some r ∧
        r.getD 16 0 = 8 := by
  obtain ⟨-, r, h1, h2, -⟩ := switch_eq_plain_loop init_full_N.decs init_full_N.decs
    (by decide) (by decide) 0 1 (by decide) (by decide)
  refine ⟨by decide, by decide, by decide, r, h1, h2, ?_⟩
  have : unrolled_switch init_full_N.decs 0 1 init_full_N.decs = some r := h1
  have h3 : (unrolled_switch init_full_N.decs 0 1 init_full_N.decs).map (fun l => l.getD 16 0)
      = some 8 := by decide
  rw [this] at h3
  exact Option.some.inj h3

/-! ## What `remove_generator` checks -/

/-- C15, as the code has it: for every observed monoid `src` and every `g < SIZE`,
when `src.decs[g] != 1` the first `assert` fails; when `src.decs[g] = 1` both
assertions pass and the call returns a `dst` with `dst.conductor = g + 1` and
`dst.decs[g] = 0`; when moreover `g ≥ src.conductor`, `dst` has a consistent
conductor (`dst.decs[dst.conductor - 1] = 0`, `dst.decs[i] ≥ 1` from the
conductor on) and `dst.min` is its smallest positive element (no positive
index below it is an element, it is at most the conductor, and
`dst.decs[dst.min] ≥ 1` when it is an index of the array). -/
theorem remove_generator_guards (src : monoid) (h : reachable src) (g : Nat) (hg : g < SIZE) :
    (src.decs.getD g 0 ≠ 1 → remove_generator src g = none) ∧
      (src.decs.getD g 0 = 1 →
        ∃ dst, remove_generator src g = some dst ∧ dst.conductor = g + 1 ∧
          dst.decs.getD g 0 = 0 ∧
          (src.conductor ≤ g →
            dst.decs.getD (dst.conductor - 1) 0 = 0 ∧
            (∀ i, dst.conductor ≤ i → i < SIZE → 1 ≤ dst.decs.getD i 0) ∧
            1 ≤ dst.min ∧ dst.min ≤ dst.conductor ∧
            (∀ i, 1 ≤ i → i < dst.min → dst.decs.getD i 0 = 0) ∧
            (dst.min < SIZE → 1 ≤ dst.decs.getD dst.min 0))) := by
  have hI := Inv_of_reachable src h
  have hS := SIZE_eq
  rw [hS] at hg
  have h0 : src.decs.getD 0 0 ≠ 0 := by rw [hI.zero]; decide
  constructor
  · intro hne
    rw [remove_generator_eq src g hI.wf, if_neg (fun hh => hne hh.2.1)]
  · intro h1
    have hr := remove_generator_some src g hI hg h1
    have hz : (removed_decs src.decs g).getD g 0 = 0 := by
      rw [getD_removed_decs _ _ _ hg, if_neg (Nat.lt_irrefl g), Nat.sub_self, hI.zero, h1]
      rfl
    refine ⟨_, hr, rfl, hz, ?_⟩
    intro hc
    have hJ := Inv_child src _ g hI hc hr
    rw [hS]
    refine ⟨?_, hJ.above, hJ.min_pos, hJ.min_le, hJ.below_min, hJ.at_min⟩
    show (removed_decs src.decs g).getD (g + 1 - 1) 0 = 0
    rw [Nat.add_sub_cancel]
    exact hz

/-- C15, as the code has it, at the root `N` and `g = 1`. -/
theorem remove_generator_guards_witness :
    reachable init_full_N ∧ 1 < SIZE ∧ init_full_N.decs.getD 1 0 = 1 ∧
      ∃ dst, remove_generator init_full_N 1 = some dst ∧ dst.conductor = 2 ∧
        dst.decs.getD 1 0 = 0 := by
  obtain ⟨dst, h1, h2, h3, -⟩ :=
    (remove_generator_guards init_full_N reachable.root 1 (by decide)).2 (by decide)
  exact ⟨reachable.root, by decide, by decide, dst, h1, h2, h3⟩

/-- C15 fails as stated: on `src = {0, 2, 4, 5, 6, ..}` (`N` with `1` and `3`
removed, conductor 4) and the generator `g = 2` no assertion fails, and the
`dst` returned has conductor `3` with `dst.decs[3] = 0`, and `min = 3`, which
is no element. -/
theorem remove_generator_below_conductor :
    ∃ src dst, remove_generator N1 3 = some src ∧ reachable src ∧ src.conductor = 4 ∧
      2 < SIZE ∧ remove_generator src 2 = some dst ∧ dst.conductor = 3 ∧ 3 < SIZE ∧
      dst.decs.getD 3 0 = 0 ∧ dst.min = 3 := by
  have h1 : ∃ src, remove_generator N1 3 = some src ∧ src.conductor = 4 ∧
      ∃ dst, remove_generator src 2 = some dst ∧ dst.conductor = 3 ∧
        dst.decs.getD 3 0 = 0 ∧ dst.min = 3 := by decide
  obtain ⟨src, hs, hc, dst, hd, h3, h4, h5⟩ := h1
  exact ⟨src, dst, hs, reachable.child N1 src 3 reachable_N1 (by decide) hs, hc, by decide,
    hd, h3, by decide, h4, h5⟩

/-! ## The iterator bound -/

/-- C12 fails in the code: the monoid of genus 39 reached by removing `1, .., 37`,
then `39`, then `77` has conductor 78 and min 38, so its iterator bound is
`(78 + 38 + 15) >> 4 = 8 = NBLOCKS`: block `8` is outside `decs`, and
`children_count(M).count()` and the loop over `children(M)` read it.  With
the constants of the program (`target_genus = 40`, `stack_bound = 11`) the
walk meets such a read: for every large enough fuel `main` fails. -/
theorem iterator_bound_outside :
    NBLOCKS = 8 ∧
      (∃ m37 m38 m39, ordinary 37 = some m37 ∧ remove_generator m37 39 = some m38 ∧
        remove_generator m38 77 = some m39 ∧ reachable m39 ∧ m39.genus = 39 ∧
        m39.conductor = 78 ∧ m39.min = 38 ∧ iter_bound m39 = 8 ∧
        nth_block m39.decs (iter_bound m39) = none ∧
        (children_count m39).bind (count m39) = none ∧ children_visited m39 = none) ∧
      ∃ n, ∀ fuel, n ≤ fuel → main fuel = none := by
  refine ⟨NBLOCKS_eq, ?_, main_reads_outside⟩
  obtain ⟨m37, m38, m39, h1, h2, h3, h4, h5, h6, h7, h8⟩ := bad39
  have hb : NBLOCKS ≤ iter_bound m39 := by rw [h8]; decide
  refine ⟨m37, m38, m39, h1, h2, h3, h4, h5, h6, h7, h8, ?_, children_count_count_oob m39 hb,
    children_visited_oob m39 hb⟩
  rw [h8]
  rfl

/-! ## The sequential sub-walker at the bounds 39 and 40 -/

/-- C11 fails in the code, by the defect of C12: `main` calls
`walk_children_stack(m, 40)` on the monoid `m = {0, 30, 31, ..}` of genus
`29 = 40 - stack_bound`, and for every large enough fuel this call fails,
on a read outside `decs`; and on the monoid of genus 38 reached by removing
`1, .., 37`, then `75` (conductor 76, min 38, iterator bound 8 = `NBLOCKS`)
the calls with bounds `39` and `40` fail with any fuel. -/
theorem walk_stack_reads_outside :
    (∃ m, ordinary 29 = some m ∧ reachable m ∧ m.genus = 29 ∧
        ∀ res, counters res →
          ∃ n, ∀ fuel, n ≤ fuel → walk_children_stack fuel m 40 res = none) ∧
      ∃ m37 m38, ordinary 37 = some m37 ∧ remove_generator m37 75 = some m38 ∧
        reachable m38 ∧ m38.genus = 38 ∧ iter_bound m38 = NBLOCKS ∧
        ∀ fuel res, walk_children_stack fuel m38 39 res = none ∧
          walk_children_stack fuel m38 40 res = none := by
  constructor
  · obtain ⟨m, h1, h2, -, -, h5⟩ := ordinary_reachable 29 (by decide)
    refine ⟨m, h1, h2, h5, fun res hres => ?_⟩
    have hI := Inv_of_reachable m h2
    obtain ⟨n, hn⟩ := walk_children_stack_sim 40 (by decide) (by decide) 11 m res hI
      (by decide) (by rw [h5]) hres (fits_zero 40 (by decide) (by decide) _ m hI)
    refine ⟨n, fun fuel hf => ?_⟩
    have e : walk_children_stack fuel m 40 res = _ := hn fuel hf
    rw [e, tree_walk_ordinary_none 8 29 m (by decide) h1 11]
    rfl
  · obtain ⟨m37, m38, h1, -, -, -, h5, h6, h7, -, -, h10⟩ := bad38
    refine ⟨m37, m38, h1, h5, h6, h7, by rw [h10, NBLOCKS_eq], ?_⟩
    intro fuel res
    have hb : NBLOCKS ≤ iter_bound m38 := by rw [h10]; decide
    cases fuel with
    | zero => exact ⟨rfl, rfl⟩
    | succ fuel =>
      constructor
      · have hexp : ¬ m38.genus < (39 + U64 - 1) % U64 := by
          rw [bound_pred 39 (by decide) (by decide), h7]; decide
        show walk_while 39 (fuel + 1) _ = none
        rw [walk_while_count 39 fuel _ [] m38 (frames_init m38 res) hexp,
          children_count_count_oob m38 hb]
      · have hexp : m38.genus < (40 + U64 - 1) % U64 := by
          rw [bound_pred 40 (by decide) (by decide), h7]; decide
        show walk_while 40 (fuel + 1) _ = none
        rw [walk_while_expand 40 fuel _ [] m38 (frames_init m38 res) hexp,
          children_visited_oob m38 hb]

/-! ## The spawn test -/

/-- C19 fails in the code: the spawn test is `m.genus < target_genus - stack_bound`
on `unsigned long`, and for `stack_bound > target_genus` the difference
wraps: with `G = 10`, `stack_bound = 11` and with `G = 40`, `stack_bound = 41`
it is `2^64 - 1`, the test holds for `N1` (and for every monoid the walk
meets), `walk_children` spawns and never takes the sequential branch: no
fuel gives a result, while `walk_children_stack(N1, 10)` returns.  With
`stack_bound = G = 10` the difference is `0` and the sequential branch is
taken. -/
theorem spawn_test_wraps :
    (10 + U64 - 11 % U64) % U64 = U64 - 1 ∧ (40 + U64 - 41 % U64) % U64 = U64 - 1 ∧
      N1.genus < 10 ∧ N1.genus < U64 - 1 ∧
      (∀ fuel, root_walk 10 11 fuel = none) ∧ (∀ fuel, root_walk 40 41 fuel = none) ∧
      (∃ res n, ∀ fuel, n ≤ fuel →
        walk_children_stack fuel N1 10 (Results.set 0 1) = some res) ∧
      ∀ fuel res, walk_children 10 10 (fuel + 1) N1 res = walk_children_stack fuel N1 10 res := by
  have e1 : (10 + U64 - 11 % U64) % U64 = U64 - 1 := by decide
  have e2 : (40 + U64 - 41 % U64) % U64 = U64 - 1 := by decide
  have e3 : 57 ≤ U64 - 1 := by decide
  refine ⟨e1, e2, by decide, by decide,
    fun fuel => root_walk_wrap_none 10 11 (by rw [e1]; exact e3) fuel,
    fun fuel => root_walk_wrap_none 40 41 (by rw [e2]; exact e3) fuel, ?_, ?_⟩
  · obtain ⟨v, hv, -, -⟩ := root_levels 10 (by decide) (by decide)
    obtain ⟨n, hn⟩ := walk_children_stack_sim 10 (by decide) (by decide) 10 N1
      (Results.set 0 1) Inv_N1 (by decide) (by decide) counters_set_one
      (fits_zero 10 (by decide) (by decide) _ N1 Inv_N1)
    refine ⟨reduce (Results.set 0 1) v, n, fun fuel hf => ?_⟩
    have e : walk_children_stack fuel N1 10 (Results.set 0 1) = _ := hn fuel hf
    rw [e, hv]
    rfl
  · intro fuel res
    have hc : ¬ (N1.genus < (10 + U64 - 10 % U64) % U64) := by decide
    simp only [walk_children]
    rw [if_neg hc]

/-! ## The loops are the iteration of their bodies -/

theorem walk_for_unfold (current fuel : Nat) (it : generator_iter) (st : walk_state)
    (nbr : Nat) :
    walk_for current (fuel + 1) it st nbr =
      if is_finished it then some (st, nbr)
      else
        match for_body current it st nbr with
        | none => none
        | some (it1, st1, nbr1) => walk_for current fuel it1 st1 nbr1 := by
  simp only [walk_for, for_body]
  by_cases hf : is_finished it = true
  · rw [if_pos hf, if_pos hf]
  · rw [if_neg hf, if_neg hf]
    cases stack_at st.stack ((st.stack_pointer + 1) % U64) with
    | none => rfl
    | some top =>
      simp only [Option.bind_eq_bind, Option.some_bind]
      cases stack_set st.stack st.stack_pointer top with
      | none => rfl
      | some stack1 =>
        simp only [Option.some_bind]
        cases slot_at st.slots current with
        | none => rfl
        | some src =>
          simp only [Option.some_bind]
          by_cases htc : top = current
          · simp only [if_pos htc]
            rfl
          · simp only [if_neg htc]
            cases remove_generator src (get_gen it) with
            | none => rfl
            | some dst =>
              simp only [Option.some_bind]
              cases slot_set st.slots top dst with
              | none => rfl
              | some slots1 =>
                simp only [Option.some_bind]
                cases slot_at slots1 current with
                | none => rfl
                | some cur =>
                  simp only [Option.some_bind]
                  cases operator_inc cur it with
                  | none => rfl
                  | some it1 => rfl

/-- The `while` loop ends when `stack_pointer` is `0`. -/
theorem walk_while_stop (bound fuel : Nat) (st : walk_state) (h0 : st.stack_pointer = 0) :
    walk_while bound (fuel + 1) st = some st.res := by
  simp only [walk_while]
  rw [if_pos h0]

/-- A pass of the `while` loop that succeeds is followed by the rest of the loop. -/
theorem walk_while_step (bound fuel : Nat) (st st1 : walk_state) (h0 : st.stack_pointer ≠ 0)
    (hb : while_body bound st = some st1) :
    walk_while bound (fuel + 1) st = walk_while bound fuel st1 := by
  simp only [walk_while]
  rw [if_neg h0]
  unfold while_body at hb
  cases hsa : stack_at st.stack (st.stack_pointer - 1) with
  | none => rw [hsa] at hb; exact absurd hb (by simp)
  | some current =>
    simp only [hsa] at hb ⊢
    cases hsl : slot_at st.slots current with
    | none => rw [hsl] at hb; exact absurd hb (by simp)
    | some cur =>
      simp only [hsl] at hb ⊢
      by_cases hexp : cur.genus < (bound + U64 - 1) % U64
      · rw [if_pos hexp] at hb ⊢
        cases hch : children cur with
        | none => rw [hch] at hb; exact absurd hb (by simp)
        | some it =>
          simp only [hch] at hb ⊢
          cases hwf : walk_for current (SIZE + 1) it
              { slots := st.slots, stack := st.stack, stack_pointer := st.stack_pointer - 1,
                res := st.res } 0 with
          | none => rw [hwf] at hb; exact absurd hb (by simp)
          | some p =>
            obtain ⟨st2, nbr⟩ := p
            simp only [hwf] at hb ⊢
            cases hss : stack_set st2.stack st2.stack_pointer current with
            | none => rw [hss] at hb; exact absurd hb (by simp)
            | some stack2 =>
              cases hs2 : slot_at st2.slots current with
              | none => rw [hss, hs2] at hb; exact absurd hb (by simp)
              | some cur2 =>
                simp only [hss, hs2] at hb ⊢
                cases hra : res_add st2.res cur2.genus nbr with
                | none => rw [hra] at hb; exact absurd hb (by simp)
                | some res2 =>
                  simp only [hra] at hb ⊢
                  rw [← Option.some.inj hb]
      · rw [if_neg hexp] at hb ⊢
        cases hcc : (children_count cur).bind (count cur) with
        | none => rw [hcc] at hb; exact absurd hb (by simp)
        | some c =>
          simp only [hcc] at hb ⊢
          cases hra : res_add st.res cur.genus c with
          | none => rw [hra] at hb; exact absurd hb (by simp)
          | some res2 =>
            simp only [hra] at hb ⊢
            rw [← Option.some.inj hb]

theorem walk_children_stack_init (fuel : Nat) (m : monoid) (bound : Nat) (res : List Nat) :
    walk_children_stack fuel m bound res = walk_while bound fuel (walk_init m res) := rfl

/-! ## The pointers of the stack, pass by pass -/

theorem stack_at_some (stack : List Nat) (i p : Nat) (h : stack_at stack i = some p) :
    i < 50 := by
  unfold stack_at at h
  by_contra hn
  rw [if_neg (by rw [show STACK_SIZE = 50 from rfl]; exact hn)] at h
  exact absurd h (by simp)

/-- One pass of the `for` loop that succeeds: the slot written is
`stack[stack_pointer + 1]`, inside the array and different from `current`;
the child is pushed. -/
theorem for_body_pushing (st : walk_state) (F : List monoid) (current : Nat) (m : monoid)
    (cs : List monoid) (it it1 : generator_iter) (nbr nbr1 : Nat) (st1 : walk_state)
    (h : Pushing st F current m cs)
    (hb : for_body current it st nbr = some (it1, st1, nbr1)) :
    st.stack_pointer + 1 < 50 ∧
      stack_at st.stack ((st.stack_pointer + 1) % U64) =
        some (st.stack.getD (st.stack_pointer + 1) 0) ∧
      st.stack.getD (st.stack_pointer + 1) 0 ≠ current ∧
      ∃ c, remove_generator m (get_gen it) = some c ∧ operator_inc m it = some it1 ∧
        st1 = { slots := st.slots.set (st.stack.getD (st.stack_pointer + 1) 0) (some c),
                stack := st.stack.set st.stack_pointer (st.stack.getD (st.stack_pointer + 1) 0),
                stack_pointer := st.stack_pointer + 1, res := st.res } ∧
        Pushing st1 F current m (cs ++ [c]) := by
  have hsplt := h.sp_lt
  have e1 : (st.stack_pointer + 1) % U64 = st.stack_pointer + 1 :=
    Nat.mod_eq_of_lt (by rw [U64_eq]; omega)
  unfold for_body at hb
  rw [e1] at hb
  cases hsa : stack_at st.stack (st.stack_pointer + 1) with
  | none => rw [hsa] at hb; exact absurd hb (by simp)
  | some top =>
    have hsp1 : st.stack_pointer + 1 < 50 := stack_at_some _ _ _ hsa
    have htop : top = st.stack.getD (st.stack_pointer + 1) 0 := by
      rw [stack_at_eq _ _ h.stack_len hsp1] at hsa
      exact (Option.some.inj hsa).symm
    subst htop
    rw [hsa] at hb
    simp only [stack_set_eq _ _ _ h.stack_len h.sp_lt, h.cur_slot] at hb
    have hne := (pushing_step st F current m cs m h hsp1).1
    rw [if_neg hne] at hb
    cases hr : remove_generator m (get_gen it) with
    | none => rw [hr] at hb; exact absurd hb (by simp)
    | some c =>
      rw [hr] at hb
      simp only [slot_set_eq _ _ _ (show st.stack.getD (st.stack_pointer + 1) 0 < st.slots.length by
        rw [h.slots_len]; exact h.ptr_lt _ hsp1), slot_at_set_other _ _ _ _ hne,
        h.cur_slot] at hb
      cases hi : operator_inc m it with
      | none => rw [hi] at hb; exact absurd hb (by simp)
      | some it2 =>
        rw [hi] at hb
        simp only [Option.some.injEq, Prod.mk.injEq] at hb
        obtain ⟨hb1, hb2, -⟩ := hb
        refine ⟨hsp1, by rw [e1]; exact hsa, hne, c, rfl, by rw [hb1], hb2.symm, ?_⟩
        rw [← hb2]
        exact (pushing_step st F current m cs c h hsp1).2

/-- The `for` loop keeps the memory well formed. -/
theorem walk_for_pushing (F : List monoid) (current : Nat) (m : monoid) (fuel : Nat) :
    ∀ (it : generator_iter) (st : walk_state) (nbr : Nat) (cs : List monoid)
      (st1 : walk_state) (nbr1 : Nat), Pushing st F current m cs →
      walk_for current fuel it st nbr = some (st1, nbr1) →
      ∃ cs1, Pushing st1 F current m cs1 := by
  induction fuel with
  | zero => intro it st nbr cs st1 nbr1 _ h; exact absurd h (by simp [walk_for])
  | succ fuel ih =>
    intro it st nbr cs st1 nbr1 hP h
    rw [walk_for_unfold] at h
    by_cases hf : is_finished it = true
    · rw [if_pos hf] at h
      simp only [Option.some.injEq, Prod.mk.injEq] at h
      rw [← h.1]
      exact ⟨cs, hP⟩
    · rw [if_neg hf] at h
      cases hb : for_body current it st nbr with
      | none => rw [hb] at h; exact absurd h (by simp)
      | some p =>
        obtain ⟨it2, st2, nbr2⟩ := p
        rw [hb] at h
        obtain ⟨-, -, -, c, -, -, -, hP2⟩ :=
          for_body_pushing st F current m cs it it2 nbr nbr2 st2 hP hb
        exact ih it2 st2 nbr2 _ st1 nbr1 hP2 h

theorem for_reach_pushing (F : List monoid) (current : Nat) (m : monoid)
    (it0 : generator_iter) (st0 : walk_state) (hP0 : Pushing st0 F current m [])
    (it : generator_iter) (st : walk_state) (nbr : Nat)
    (h : for_reach current it0 st0 it st nbr) : ∃ cs, Pushing st F current m cs := by
  induction h with
  | start => exact ⟨[], hP0⟩
  | step it st nbr it1 st1 nbr1 _ _ hb ih =>
    obtain ⟨cs, hP⟩ := ih
    obtain ⟨-, -, -, c, -, -, -, hP2⟩ :=
      for_body_pushing st F current m cs it it1 nbr nbr1 st1 hP hb
    exact ⟨_, hP2⟩

theorem frames_split (st : walk_state) (F : List monoid) (h : Frames st F)
    (h0 : st.stack_pointer ≠ 0) : ∃ F1 m1, F = F1 ++ [m1] ∧ F1.length = st.stack_pointer - 1 := by
  have hne : F ≠ [] := by
    intro e
    have := h.sp_eq
    rw [e] at this
    exact h0 this
  refine ⟨F.dropLast, F.getLast hne, (List.dropLast_append_getLast hne).symm, ?_⟩
  rw [List.length_dropLast, h.sp_eq]

/-- One pass of the `while` loop keeps the memory well formed. -/
theorem while_body_frames (bound : Nat) (st st1 : walk_state) (F : List monoid)
    (h : Frames st F) (h0 : st.stack_pointer ≠ 0) (hb : while_body bound st = some st1) :
    ∃ F1, Frames st1 F1 := by
  obtain ⟨F1, m1, rfl, hlen⟩ := frames_split st F h h0
  obtain ⟨hF, hm, hP, hFr⟩ := frames_pop st F1 m1 st.res h
  unfold while_body at hb
  rw [← hlen] at hb
  simp only [stack_at_eq _ _ h.stack_len hF, hm] at hb
  by_cases hexp : m1.genus < (bound + U64 - 1) % U64
  · rw [if_pos hexp] at hb
    cases hch : children m1 with
    | none => rw [hch] at hb; exact absurd hb (by simp)
    | some it =>
      simp only [hch] at hb
      cases hwf : walk_for (st.stack.getD F1.length 0) (SIZE + 1) it
          { slots := st.slots, stack := st.stack, stack_pointer := F1.length,
            res := st.res } 0 with
      | none => rw [hwf] at hb; exact absurd hb (by simp)
      | some p =>
        obtain ⟨st2, nbr⟩ := p
        simp only [hwf] at hb
        obtain ⟨cs, hP2⟩ := walk_for_pushing F1 _ m1 _ it _ 0 [] st2 nbr hP hwf
        rw [stack_set_eq _ _ _ hP2.stack_len hP2.sp_lt, hP2.cur_slot] at hb
        simp only at hb
        cases hra : res_add st2.res m1.genus nbr with
        | none => rw [hra] at hb; exact absurd hb (by simp)
        | some res2 =>
          simp only [hra] at hb
          rw [← Option.some.inj hb]
          exact ⟨F1 ++ cs, pushing_final st2 F1 _ m1 cs res2 hP2⟩
  · rw [if_neg hexp] at hb
    cases hcc : (children_count m1).bind (count m1) with
    | none => rw [hcc] at hb; exact absurd hb (by simp)
    | some c =>
      simp only [hcc] at hb
      cases hra : res_add st.res m1.genus c with
      | none => rw [hra] at hb; exact absurd hb (by simp)
      | some res2 =>
        simp only [hra] at hb
        rw [← Option.some.inj hb]
        exact ⟨F1, (frames_pop st F1 m1 res2 h).2.2.2⟩

theorem frames_walk_init (m : monoid) (res : List Nat) : Frames (walk_init m res) [m] :=
  frames_init m res

/-- Every memory at the test of the `while` loop is well formed. -/
theorem while_reach_frames (bound : Nat) (m : monoid) (res : List Nat) (st : walk_state)
    (h : while_reach bound (walk_init m res) st) : ∃ F, Frames st F := by
  induction h with
  | start => exact ⟨[m], frames_walk_init m res⟩
  | step st st1 _ h0 hb ih =>
    obtain ⟨F, hF⟩ := ih
    exact while_body_frames bound st st1 F hF h0 hb

/-- Every memory at the test of the `for` loop is well formed. -/
theorem for_state_pushing (bound : Nat) (m : monoid) (res : List Nat) (current : Nat)
    (it : generator_iter) (st : walk_state) (nbr : Nat)
    (h : for_state bound m res current it st nbr) :
    ∃ F cur cs, Pushing st F current cur cs := by
  obtain ⟨stw, cur, it0, hw, h0, hsa, hsl, -, -, hfr⟩ := h
  obtain ⟨F, hF⟩ := while_reach_frames bound m res stw hw
  obtain ⟨F1, m1, rfl, hlen⟩ := frames_split stw F hF h0
  obtain ⟨hFl, hm, hP, -⟩ := frames_pop stw F1 m1 stw.res hF
  rw [← hlen, stack_at_eq _ _ hF.stack_len hFl] at hsa
  have hc : stw.stack.getD F1.length 0 = current := Option.some.inj hsa
  rw [hc] at hP
  rw [← hlen] at hfr
  obtain ⟨cs, hP2⟩ := for_reach_pushing F1 current m1 it0 _ hP it st nbr hfr
  exact ⟨F1, m1, cs, hP2⟩

/-! ## Distinct pointers are a permutation of the slots -/

theorem nodup_of_getD_inj (l : List Nat) (n : Nat) (hl : l.length = n)
    (hinj : ∀ i j, i < n → j < n → i ≠ j → l.getD i 0 ≠ l.getD j 0) : l.Nodup := by
  rw [List.nodup_iff_injective_get]
  intro a b hab
  by_contra hne
  have ha : a.1 < n := by rw [← hl]; exact a.2
  have hb : b.1 < n := by rw [← hl]; exact b.2
  have hne2 : a.1 ≠ b.1 := fun e => hne (Fin.ext e)
  apply hinj a.1 b.1 ha hb hne2
  have e1 : l.getD a.1 0 = l.get a := by
    rw [List.getD_eq_getElem?_getD, List.getElem?_eq_getElem a.2]; rfl
  have e2 : l.getD b.1 0 = l.get b := by
    rw [List.getD_eq_getElem?_getD, List.getElem?_eq_getElem b.2]; rfl
  rw [e1, e2, hab]

theorem perm_range_of_inj (l : List Nat) (n : Nat) (hl : l.length = n)
    (hlt : ∀ i, i < n → l.getD i 0 < n)
    (hinj : ∀ i j, i < n → j < n → i ≠ j → l.getD i 0 ≠ l.getD j 0) :
    l.Perm (List.range n) := by
  have hnd := nodup_of_getD_inj l n hl hinj
  apply List.perm_of_nodup_nodup_toFinset_eq hnd (List.nodup_range n)
  apply Finset.eq_of_subset_of_card_le
  · intro x hx
    rw [List.mem_toFinset] at hx ⊢
    obtain ⟨i, hi, rfl⟩ := List.getElem_of_mem hx
    rw [List.mem_range]
    have := hlt i (by rw [← hl]; exact hi)
    rw [List.getD_eq_getElem?_getD, List.getElem?_eq_getElem hi] at this
    exact this
  · rw [List.toFinset_card_of_nodup hnd, List.toFinset_card_of_nodup (List.nodup_range n),
      List.length_range, hl]

/-! ## The iterator, also when its bound is outside the array -/

theorem clamp_of_le (it : generator_iter) (h : it.bound ≤ 7) : clamp it = it := by
  cases it with
  | mk iblock mask gen bound =>
    have hb : bound ≤ 7 := h
    show ({ iblock := iblock, mask := mask, gen := gen, bound := min bound 7 } :
      generator_iter) = _
    rw [Nat.min_eq_left hb]

theorem clamp_bound_of_ge (it : generator_iter) (h : 8 ≤ it.bound) : (clamp it).bound = 7 := by
  show min it.bound 7 = 7
  omega

/-- A call of `operator++` that returns, on an iterator whose bound is outside the
array: it stops on the next index with `P`. -/
theorem operator_inc_loop_oob_spec (P : Nat → Bool) (m : monoid) (fuel : Nat) :
    ∀ (it it1 : generator_iter) (pos : Nat), IterInv P m (clamp it) pos → 8 ≤ it.bound →
      operator_inc_loop m fuel it = some it1 →
      it1.bound = it.bound ∧
        ∃ x, pos ≤ x ∧ P x = true ∧ (∀ y, pos ≤ y → y < x → P y = false) ∧
          it1.gen = x ∧ IterInv P m (clamp it1) (x + 1) := by
  induction fuel with
  | zero => intro it it1 pos _ _ h; exact absurd h (by simp [operator_inc_loop])
  | succ f ih =>
    intro it it1 pos hI h8 h
    have hcb := clamp_bound_of_ge it h8
    have hble : it.iblock ≤ 8 := by have := hI.blk_le; rw [hcb] at this; exact this
    have hpg : 16 * (it.iblock - 1) ≤ pos := hI.pos_ge
    have hpl : pos ≤ 16 * it.iblock := hI.pos_le
    have hbp : 1 ≤ it.iblock := hI.blk_pos
    have hmk : it.mask = bits P pos (16 * it.iblock - pos) := hI.mask_eq
    by_cases hm : it.mask = 0
    · simp only [operator_inc_loop] at h
      rw [if_pos hm, if_neg (by omega)] at h
      cases hnb : nth_block m.decs it.iblock with
      | none => rw [hnb] at h; exact absurd h (by simp)
      | some b0 =>
        have hi8 : it.iblock < 8 := nth_block_some _ _ _ hnb
        obtain ⟨b, hb1, -, -, hmm⟩ := movemask_block m.decs it.iblock hI.len hi8
        rw [hb1] at h
        simp only [Option.bind_eq_bind, Option.some_bind] at h
        have hz : ∀ y, pos ≤ y → y < 16 * it.iblock → P y = false := by
          intro y h1 h2
          have hz := bits_eq_zero P _ pos (by rw [← hmk]; exact hm) (y - pos) (by omega)
          rw [show pos + (y - pos) = y by omega] at hz
          exact hz
        have e1 : (it.iblock + 1) % U64 = it.iblock + 1 :=
          Nat.mod_eq_of_lt (by rw [U64_eq]; omega)
        have e2 : (it.iblock <<< 4) % U64 = 16 * it.iblock := by
          rw [Nat.shiftLeft_eq]
          rw [Nat.mod_eq_of_lt (by rw [U64_eq]; omega)]
          omega
        rw [e1, e2] at h
        have hI1 : IterInv P m
            (clamp { iblock := it.iblock + 1, mask := movemask_epi8 (cmpeq_epi8 b block1),
                     gen := (16 * it.iblock + U64 - 1) % U64, bound := it.bound })
            (16 * it.iblock) := by
          refine ⟨rfl, by show 1 ≤ it.iblock + 1; omega,
            by show _ ≤ 16 * (it.iblock + 1); omega,
            by show 16 * (it.iblock + 1 - 1) ≤ _; omega, ?_, ?_, ?_, hI.len, ?_⟩
          · show movemask_epi8 (cmpeq_epi8 b block1)
              = bits P (16 * it.iblock) (16 * (it.iblock + 1) - 16 * it.iblock)
            rw [hmm, show 16 * (it.iblock + 1) - 16 * it.iblock = 16 by omega]
            apply bits_congr
            intro t _
            exact (hI.later _ (by show 16 * it.iblock ≤ _; omega)).symm
          · show it.iblock + 1 ≤ min it.bound 7 + 1
            omega
          · show min it.bound 7 ≤ 7
            omega
          · intro k hk
            have hk2 : 16 * (it.iblock + 1) ≤ k := hk
            exact hI.later k (by show 16 * it.iblock ≤ k; omega)
        obtain ⟨hb2, x, hx1, hx2, hx3, hx4, hx5⟩ := ih _ it1 (16 * it.iblock) hI1 h8 h
        refine ⟨hb2, x, by omega, hx2, ?_, hx4, hx5⟩
        intro y h1 h2
        by_cases hy : y < 16 * it.iblock
        · exact hz y h1 hy
        · exact hx3 y (by omega) h2
    · obtain ⟨it2, h1, hb, x, hx1, hx2, hx3, hx4, hx5, hx6, -⟩ :=
        operator_inc_nonzero P m (clamp it) pos f hI hm
      simp only [operator_inc_loop] at h h1
      have hm2 : ¬ (clamp it).mask = 0 := hm
      rw [if_neg hm] at h
      rw [if_neg hm2] at h1
      have e1 : it1 = (⟨it.iblock, it.mask >>> (bsfd it.mask + 1),
          (it.gen + (bsfd it.mask + 1)) % U64, it.bound⟩ : generator_iter) :=
        (Option.some.inj h).symm
      have e2 : it2 = clamp it1 := by
        rw [← Option.some.inj h1, e1]
        rfl
      rw [e2] at hx5 hx6
      refine ⟨by rw [e1], x, hx1, hx3, hx4, hx5, hx6⟩

/-- The state built by `children_count`, when it returns. -/
theorem children_count_partial (m : monoid) (hI : Inv m) (it0 : generator_iter)
    (h : children_count m = some it0) :
    it0.bound = iter_bound m ∧
      IterInv (fun k => decide (m.conductor ≤ k ∧ m.decs.getD k 0 = 1)) m (clamp it0)
        (16 * (m.conductor / 16)) := by
  have hbe := iter_bound_eq m hI
  have hlen : m.decs.length = 128 := by have := hI.wf.1; rw [SIZE_eq] at this; exact this
  have hmp := hI.min_pos
  have hsb : m.conductor >>> 4 = m.conductor / 16 := by rw [Nat.shiftRight_eq_div_pow]
  have hc : m.conductor < 128 := by
    by_contra hge
    have hcl := hI.cond_le
    have : nth_block m.decs (m.conductor >>> 4) = none := by
      unfold nth_block
      rw [if_neg (by rw [NBLOCKS_eq, hsb]; omega)]
    simp only [children_count, this, Option.bind_eq_bind, Option.none_bind] at h
    exact absurd h (by simp)
  obtain ⟨b, mk, hb1, hm1, hmm⟩ := movemask_masked m.decs m.conductor hlen hI.wf.2.1 hc
  have e1 : (m.conductor / 16 + 1) % U64 = m.conductor / 16 + 1 :=
    Nat.mod_eq_of_lt (by rw [U64_eq]; omega)
  have e2 : ((m.conductor / 16) <<< 4) % U64 = 16 * (m.conductor / 16) := by
    rw [Nat.shiftLeft_eq, Nat.mod_eq_of_lt (by rw [U64_eq]; omega)]
    omega
  simp only [children_count, hb1, hm1, Option.bind_eq_bind, Option.some_bind] at h
  rw [hsb, e1, e2] at h
  rw [← Option.some.inj h]
  refine ⟨rfl, rfl, by show 1 ≤ m.conductor / 16 + 1; omega,
    by show _ ≤ 16 * (m.conductor / 16 + 1); omega,
    by show 16 * (m.conductor / 16 + 1 - 1) ≤ _; omega, ?_, ?_, ?_, hlen, ?_⟩
  · show movemask_epi8 (cmpeq_epi8 (and_epi8 b mk) block1) = _
    rw [hmm]
    show _ = bits _ _ (16 * (m.conductor / 16 + 1) - 16 * (m.conductor / 16))
    rw [show 16 * (m.conductor / 16 + 1) - 16 * (m.conductor / 16) = 16 by omega]
  · show m.conductor / 16 + 1 ≤ min (iter_bound m) 7 + 1
    omega
  · show min (iter_bound m) 7 ≤ 7
    omega
  · intro k hk
    have hk2 : 16 * (m.conductor / 16 + 1) ≤ k := hk
    apply Bool.decide_congr
    constructor
    · intro h; exact h.2
    · intro h; exact ⟨by omega, h⟩

/-- A call of `operator++` that returns, on an iterator over the children of an
observed monoid: the iterator is finished, or it stands on the next children
generator. -/
theorem operator_inc_partial (m : monoid) (hI : Inv m) (it it1 : generator_iter) (pos : Nat)
    (hb : it.bound = iter_bound m)
    (hInv : IterInv (fun k => decide (m.conductor ≤ k ∧ m.decs.getD k 0 = 1)) m (clamp it) pos)
    (h : operator_inc m it = some it1) :
    it1.bound = it.bound ∧
      (is_finished it1 = true ∨
        (is_finished it1 = false ∧
          ∃ x, pos ≤ x ∧ (m.conductor ≤ x ∧ m.decs.getD x 0 = 1) ∧
            (∀ y, pos ≤ y → y < x → ¬ (m.conductor ≤ y ∧ m.decs.getD y 0 = 1)) ∧
            it1.gen = x ∧
            IterInv (fun k => decide (m.conductor ≤ k ∧ m.decs.getD k 0 = 1)) m (clamp it1)
              (x + 1))) := by
  have hbe := iter_bound_eq m hI
  by_cases h7 : it.bound ≤ 7
  · rw [clamp_of_le it h7] at hInv
    obtain ⟨it2, h2, hb2, hcase⟩ := operator_inc_spec _ m it pos hInv
    have e : it2 = it1 := Option.some.inj (h2.symm.trans h)
    subst e
    refine ⟨hb2, ?_⟩
    rcases hcase with ⟨x, hx1, hx2, hx3, hx4, hx5, hx6, hx7⟩ | ⟨-, hib, -⟩
    · right
      have hx3' := of_decide_eq_true hx3
      have hxlt : x < 16 * it.bound := by
        by_contra hge
        have hx128 : x < 128 := by omega
        have := no_gen_above m hI x (by omega) hx128
        omega
      refine ⟨?_, x, hx1, hx3', ?_, hx5, ?_⟩
      · unfold is_finished
        apply decide_eq_false
        omega
      · intro y h1 h2 hy
        have := hx4 y h1 h2
        rw [decide_eq_true hy] at this
        exact absurd this (by simp)
      · rw [clamp_of_le it2 (by omega)]
        exact hx6
    · left
      unfold is_finished
      apply decide_eq_true
      omega
  · have h8 : 8 ≤ it.bound := by omega
    have hfuel : operator_inc_loop m (it.bound + 1 - it.iblock + 1) it = some it1 := h
    obtain ⟨hb2, x, hx1, hx2, hx3, hx4, hx5⟩ :=
      operator_inc_loop_oob_spec _ m _ it it1 pos hInv h8 hfuel
    refine ⟨hb2, Or.inr ⟨?_, x, hx1, of_decide_eq_true hx2, ?_, hx4, hx5⟩⟩
    · have hble : it1.iblock ≤ (clamp it1).bound + 1 := hx5.blk_le
      rw [clamp_bound_of_ge it1 (by omega)] at hble
      unfold is_finished
      apply decide_eq_false
      omega
    · intro y h1 h2 hy
      have := hx3 y h1 h2
      rw [decide_eq_true hy] at this
      exact absurd this (by simp)

/-- The iterator `children(m)`, when it is built. -/
theorem children_partial (m : monoid) (hI : Inv m) (it0 : generator_iter)
    (h : children m = some it0) :
    it0.bound = iter_bound m ∧
      (is_finished it0 = true ∨
        (is_finished it0 = false ∧
          ∃ x, (m.conductor ≤ x ∧ m.decs.getD x 0 = 1) ∧
            (∀ y, y < x → ¬ (m.conductor ≤ y ∧ m.decs.getD y 0 = 1)) ∧
            it0.gen = x ∧
            IterInv (fun k => decide (m.conductor ≤ k ∧ m.decs.getD k 0 = 1)) m (clamp it0)
              (x + 1))) := by
  unfold children at h
  cases hcc : children_count m with
  | none => rw [hcc] at h; exact absurd h (by simp)
  | some itc =>
    rw [hcc] at h
    simp only [Option.bind_eq_bind, Option.some_bind] at h
    obtain ⟨hb, hInv⟩ := children_count_partial m hI itc hcc
    obtain ⟨hb2, hcase⟩ := operator_inc_partial m hI itc it0 _ hb hInv h
    refine ⟨by rw [hb2, hb], ?_⟩
    rcases hcase with hf | ⟨hf, x, hx1, hx2, hx3, hx4, hx5⟩
    · exact Or.inl hf
    · refine Or.inr ⟨hf, x, hx2, ?_, hx4, hx5⟩
      intro y hy hP
      exact hx3 y (by omega) hy hP

/-! ## The number of frames of the stack -/

theorem sorted_split (l1 l3 : List Nat) (g : Nat)
    (h : (l1 ++ g :: l3).Pairwise (fun a b => a < b)) :
    (∀ a ∈ l1, a < g) ∧ (∀ b ∈ l3, g < b) ∧ l3.Pairwise (fun a b => a < b) := by
  rw [List.pairwise_append] at h
  obtain ⟨-, h2, h3⟩ := h
  rw [List.pairwise_cons] at h2
  exact ⟨fun a ha => h3 a ha g (List.mem_cons_self _ _), h2.1, h2.2⟩

theorem gen_lt_size (m : monoid) (hI : Inv m) (x : Nat) (h : m.decs.getD x 0 = 1) : x < 128 := by
  have hlen : m.decs.length = 128 := by have := hI.wf.1; rw [SIZE_eq] at this; exact this
  by_contra hn
  rw [List.getD_eq_default _ _ (by omega)] at h
  exact absurd h (by decide)

/-- Before the first pass of the `for` loop nothing is pushed. -/
theorem pushed_init (m : monoid) (hI : Inv m) (it0 : generator_iter)
    (h : children m = some it0) : Pushed m it0 [] := by
  obtain ⟨hb, hcase⟩ := children_partial m hI it0 h
  rcases hcase with hf | ⟨hf, x, hx1, hx2, hx3, hx4⟩
  · refine ⟨hb, ⟨[], child_gens m, rfl, rfl, ?_⟩, ?_⟩
    · intro hn; rw [hf] at hn; exact absurd hn (by simp)
    · intro hn; rw [hf] at hn; exact absurd hn (by simp)
  · have hmem : x ∈ child_gens m :=
      (mem_child_gens m x).2 ⟨gen_lt_size m hI x hx1.2, hx1.1, hx1.2⟩
    obtain ⟨t, ht⟩ := sorted_head (child_gens m) x (child_gens_sorted m) hmem (by
      intro y hy
      by_contra hlt
      exact hx2 y (by omega) ((mem_child_gens m y).1 hy).2)
    refine ⟨hb, ⟨[], child_gens m, rfl, rfl, ?_⟩, ?_⟩
    · intro _; exact ⟨t, by rw [hx3]; exact ht⟩
    · intro _; rw [hx3]; exact hx4

/-- One pass of the `for` loop pushes the child by the generator the iterator
stands on. -/
theorem pushed_step (m : monoid) (hI : Inv m) (it it1 : generator_iter) (cs : List monoid)
    (c : monoid) (hP : Pushed m it cs) (hf : is_finished it = false)
    (hr : remove_generator m (get_gen it) = some c) (hi : operator_inc m it = some it1) :
    Pushed m it1 (cs ++ [c]) := by
  obtain ⟨l1, l2, hsplit, hall, hnext⟩ := hP.kids
  obtain ⟨l3, hl3⟩ := hnext hf
  subst hl3
  have hInv := hP.inv hf
  obtain ⟨hb1, hcase⟩ := operator_inc_partial m hI it it1 (it.gen + 1) hP.bound_eq hInv hi
  have hsorted := child_gens_sorted m
  rw [hsplit] at hsorted
  obtain ⟨hs1, hs2, hs3⟩ := sorted_split l1 l3 it.gen hsorted
  have hall2 : all_some (remove_generator m) (l1 ++ [it.gen]) = some (cs ++ [c]) := by
    rw [all_some_append, hall]
    have : all_some (remove_generator m) [it.gen] = some [c] := by
      simp only [all_some]
      rw [show remove_generator m it.gen = some c from hr]
    rw [this]
  have hsplit2 : child_gens m = (l1 ++ [it.gen]) ++ l3 := by
    rw [hsplit, List.append_assoc]; rfl
  rcases hcase with hf1 | ⟨hf1, x, hx1, hx2, hx3, hx4, hx5⟩
  · refine ⟨by rw [hb1]; exact hP.bound_eq, ⟨l1 ++ [it.gen], l3, hsplit2, hall2, ?_⟩, ?_⟩
    · intro hn; rw [hf1] at hn; exact absurd hn (by simp)
    · intro hn; rw [hf1] at hn; exact absurd hn (by simp)
  · have hmem : x ∈ child_gens m :=
      (mem_child_gens m x).2 ⟨gen_lt_size m hI x hx2.2, hx2.1, hx2.2⟩
    have hmem3 : x ∈ l3 := by
      rw [hsplit, List.mem_append, List.mem_cons] at hmem
      rcases hmem with h1 | h1 | h1
      · have := hs1 x h1; omega
      · omega
      · exact h1
    obtain ⟨t, ht⟩ := sorted_head l3 x hs3 hmem3 (by
      intro y hy
      by_contra hlt
      have hgy := hs2 y hy
      have hyc : y ∈ child_gens m := by
        rw [hsplit, List.mem_append, List.mem_cons]; exact Or.inr (Or.inr hy)
      exact hx3 y (by omega) (by omega) ((mem_child_gens m y).1 hyc).2)
    refine ⟨by rw [hb1]; exact hP.bound_eq, ⟨l1 ++ [it.gen], l3, hsplit2, hall2, ?_⟩, ?_⟩
    · intro _; exact ⟨t, by rw [hx4]; exact ht⟩
    · intro _; rw [hx4]; exact hx5

/-- The children pushed are at most the children of `m`, and fewer while the
iterator is not finished. -/
theorem pushed_length (m : monoid) (it : generator_iter) (cs : List monoid)
    (hP : Pushed m it cs) :
    cs.length ≤ (child_gens m).length ∧
      (is_finished it = false → cs.length + 1 ≤ (child_gens m).length) := by
  obtain ⟨l1, l2, hsplit, hall, hnext⟩ := hP.kids
  have hl := all_some_length _ _ _ hall
  rw [hsplit, List.length_append, hl]
  refine ⟨by omega, ?_⟩
  intro hf
  obtain ⟨l3, hl3⟩ := hnext hf
  rw [hl3, List.length_cons]
  omega

/-- Every child pushed is the child of `m` by a generator of `child_gens m`, at
its rank. -/
theorem pushed_split (m : monoid) (it : generator_iter) (cs : List monoid)
    (hP : Pushed m it cs) (c1 : List monoid) (c : monoid) (c2 : List monoid)
    (h : cs = c1 ++ c :: c2) :
    ∃ g1 x g2, child_gens m = g1 ++ x :: g2 ∧ g1.length = c1.length ∧
      remove_generator m x = some c := by
  obtain ⟨l1, l2, hsplit, hall, -⟩ := hP.kids
  rw [h] at hall
  obtain ⟨g1, x, g2, hl, hlen, hx⟩ := all_some_split _ l1 c1 c c2 hall
  refine ⟨g1, x, g2 ++ l2, ?_, hlen, hx⟩
  rw [hsplit, hl, List.append_assoc]
  rfl

/-- One pass of the `for` loop that succeeds keeps the count of the children. -/
theorem for_body_counted (st : walk_state) (F : List monoid) (current : Nat) (m : monoid)
    (hI : Inv m) (cs : List monoid) (it it1 : generator_iter) (nbr nbr1 : Nat)
    (st1 : walk_state) (h : Pushing st F current m cs) (hP : Pushed m it cs)
    (hf : is_finished it = false)
    (hb : for_body current it st nbr = some (it1, st1, nbr1)) :
    ∃ cs1, Pushing st1 F current m cs1 ∧ Pushed m it1 cs1 := by
  obtain ⟨-, -, -, c, hr, hi, -, hP2⟩ :=
    for_body_pushing st F current m cs it it1 nbr nbr1 st1 h hb
  exact ⟨cs ++ [c], hP2, pushed_step m hI it it1 cs c hP hf hr hi⟩

/-- The `for` loop keeps the count of the children. -/
theorem walk_for_counted (F : List monoid) (current : Nat) (m : monoid) (hI : Inv m)
    (fuel : Nat) :
    ∀ (it : generator_iter) (st : walk_state) (nbr : Nat) (cs : List monoid)
      (st1 : walk_state) (nbr1 : Nat), Pushing st F current m cs → Pushed m it cs →
      walk_for current fuel it st nbr = some (st1, nbr1) →
      ∃ cs1 it1, Pushing st1 F current m cs1 ∧ Pushed m it1 cs1 := by
  induction fuel with
  | zero => intro it st nbr cs st1 nbr1 _ _ h; exact absurd h (by simp [walk_for])
  | succ fuel ih =>
    intro it st nbr cs st1 nbr1 hP hQ h
    rw [walk_for_unfold] at h
    by_cases hf : is_finished it = true
    · rw [if_pos hf] at h
      simp only [Option.some.injEq, Prod.mk.injEq] at h
      rw [← h.1]
      exact ⟨cs, it, hP, hQ⟩
    · rw [if_neg hf] at h
      have hf0 : is_finished it = false := by
        cases hv : is_finished it with
        | true => exact absurd hv hf
        | false => rfl
      cases hb : for_body current it st nbr with
      | none => rw [hb] at h; exact absurd h (by simp)
      | some p =>
        obtain ⟨it2, st2, nbr2⟩ := p
        rw [hb] at h
        obtain ⟨cs2, hP2, hQ2⟩ :=
          for_body_counted st F current m hI cs it it2 nbr nbr2 st2 hP hQ hf0 hb
        exact ih it2 st2 nbr2 cs2 st1 nbr1 hP2 hQ2 h

theorem for_reach_counted (F : List monoid) (current : Nat) (m : monoid) (hI : Inv m)
    (it0 : generator_iter) (st0 : walk_state) (hP0 : Pushing st0 F current m [])
    (hQ0 : Pushed m it0 [])
    (it : generator_iter) (st : walk_state) (nbr : Nat)
    (h : for_reach current it0 st0 it st nbr) :
    ∃ cs, Pushing st F current m cs ∧ Pushed m it cs := by
  induction h with
  | start => exact ⟨[], hP0, hQ0⟩
  | step it st nbr it1 st1 nbr1 _ hf hb ih =>
    obtain ⟨cs, hP, hQ⟩ := ih
    exact for_body_counted st F current m hI cs it it1 nbr nbr1 st1 hP hQ hf hb

theorem counted_init (bound : Nat) (hb1 : 1 ≤ bound) (hb2 : bound ≤ 40) (m : monoid)
    (hI : Inv m) (res : List Nat) : Counted bound (walk_init m res) [m] := by
  refine ⟨frames_walk_init m res, ?_⟩
  intro F1 c F2 h
  have hF1 : F1 = [] := by
    cases F1 with
    | nil => rfl
    | cons a t =>
      have := congrArg List.length h
      simp at this
  subst hF1
  have hc : c = m := by
    simp only [List.nil_append, List.cons.injEq] at h
    exact h.1.symm
  subst hc
  exact ⟨hI, fun d => fits_zero bound hb1 hb2 d c hI⟩

theorem counted_prefix (bound : Nat) (F1 : List monoid) (m1 : monoid)
    (h : ∀ A c B, F1 ++ [m1] = A ++ c :: B → Inv c ∧ ∀ d, fits bound d A.length c) :
    ∀ A c B, F1 = A ++ c :: B → Inv c ∧ ∀ d, fits bound d A.length c := by
  intro A c B e
  exact h A c (B ++ [m1]) (by rw [e, List.append_assoc]; rfl)

/-- One pass of the `while` loop keeps the count of the frames. -/
theorem while_body_counted (bound : Nat) (st st1 : walk_state) (F : List monoid)
    (h : Counted bound st F) (h0 : st.stack_pointer ≠ 0)
    (hb : while_body bound st = some st1) : ∃ F1, Counted bound st1 F1 := by
  obtain ⟨hFr0, hfit⟩ := h
  obtain ⟨F1, m1, rfl, hlen⟩ := frames_split st F hFr0 h0
  obtain ⟨hF, hm, hP, hFr⟩ := frames_pop st F1 m1 st.res hFr0
  obtain ⟨hI1, hfit1⟩ := hfit F1 m1 [] rfl
  unfold while_body at hb
  rw [← hlen] at hb
  simp only [stack_at_eq _ _ hFr0.stack_len hF, hm] at hb
  by_cases hexp : m1.genus < (bound + U64 - 1) % U64
  · rw [if_pos hexp] at hb
    cases hch : children m1 with
    | none => rw [hch] at hb; exact absurd hb (by simp)
    | some it =>
      simp only [hch] at hb
      cases hwf : walk_for (st.stack.getD F1.length 0) (SIZE + 1) it
          { slots := st.slots, stack := st.stack, stack_pointer := F1.length,
            res := st.res } 0 with
      | none => rw [hwf] at hb; exact absurd hb (by simp)
      | some p =>
        obtain ⟨st2, nbr⟩ := p
        simp only [hwf] at hb
        obtain ⟨cs, it1, hP2, hQ2⟩ :=
          walk_for_counted F1 _ m1 hI1 _ it _ 0 [] st2 nbr hP (pushed_init m1 hI1 it hch) hwf
        rw [stack_set_eq _ _ _ hP2.stack_len hP2.sp_lt, hP2.cur_slot] at hb
        simp only at hb
        cases hra : res_add st2.res m1.genus nbr with
        | none => rw [hra] at hb; exact absurd hb (by simp)
        | some res2 =>
          simp only [hra] at hb
          rw [← Option.some.inj hb]
          refine ⟨F1 ++ cs, pushing_final st2 F1 _ m1 cs res2 hP2, ?_⟩
          intro A c B e
          rcases List.append_eq_append_iff.1 e with ⟨a1, ha1, ha2⟩ | ⟨c1, hc1, hc2⟩
          · obtain ⟨g1, x, g2, hg, hgl, hx⟩ := pushed_split m1 it1 cs hQ2 a1 c B ha2
            have hxm : x ∈ child_gens m1 := by
              rw [hg]; exact List.mem_append_right _ (List.mem_cons_self _ _)
            refine ⟨(child_of_gens m1 c x hI1 hxm hx).1, ?_⟩
            intro d
            have hf := hfit1 (d + 1)
            simp only [fits] at hf
            have := (hf hexp).2 g1 x g2 c hg hx
            rw [ha1, List.length_append, ← hgl]
            exact this
          · cases c1 with
            | nil =>
              rw [List.nil_append] at hc2
              rw [List.append_nil] at hc1
              obtain ⟨g1, x, g2, hg, hgl, hx⟩ := pushed_split m1 it1 cs hQ2 [] c B hc2.symm
              have hxm : x ∈ child_gens m1 := by
                rw [hg]; exact List.mem_append_right _ (List.mem_cons_self _ _)
              refine ⟨(child_of_gens m1 c x hI1 hxm hx).1, ?_⟩
              intro d
              have hf := hfit1 (d + 1)
              simp only [fits] at hf
              have := (hf hexp).2 g1 x g2 c hg hx
              rw [hgl, List.length_nil, Nat.add_zero, hc1] at this
              exact this
            | cons a t =>
              rw [List.cons_append, List.cons.injEq] at hc2
              exact hfit A c (t ++ [m1]) (by
                rw [hc1, hc2.1, List.append_assoc]; rfl)
  · rw [if_neg hexp] at hb
    cases hcc : (children_count m1).bind (count m1) with
    | none => rw [hcc] at hb; exact absurd hb (by simp)
    | some c =>
      simp only [hcc] at hb
      cases hra : res_add st.res m1.genus c with
      | none => rw [hra] at hb; exact absurd hb (by simp)
      | some res2 =>
        simp only [hra] at hb
        rw [← Option.some.inj hb]
        exact ⟨F1, (frames_pop st F1 m1 res2 hFr0).2.2.2, counted_prefix bound F1 m1 hfit⟩

/-- Every memory at the test of the `while` loop holds frames that fit. -/
theorem while_reach_counted (bound : Nat) (hb1 : 1 ≤ bound) (hb2 : bound ≤ 40) (m : monoid)
    (hI : Inv m) (res : List Nat) (st : walk_state)
    (h : while_reach bound (walk_init m res) st) : ∃ F, Counted bound st F := by
  induction h with
  | start => exact ⟨[m], counted_init bound hb1 hb2 m hI res⟩
  | step st st1 _ h0 hb ih =>
    obtain ⟨F, hF⟩ := ih
    exact while_body_counted bound st st1 F hF h0 hb

/-- Every memory at the test of the `for` loop holds the frames, the children
pushed so far, and room for the children still to come. -/
theorem for_state_counted (bound : Nat) (hb1 : 1 ≤ bound) (hb2 : bound ≤ 40) (m : monoid)
    (hI : Inv m) (res : List Nat) (current : Nat)
    (it : generator_iter) (st : walk_state) (nbr : Nat)
    (h : for_state bound m res current it st nbr) :
    ∃ F cur cs, Pushing st F current cur cs ∧ Pushed cur it cs ∧
      F.length + (child_gens cur).length ≤ 49 := by
  obtain ⟨stw, cur, it0, hw, h0, hsa, hsl, hexp, hch, hfr⟩ := h
  obtain ⟨F, hFr0, hfit⟩ := while_reach_counted bound hb1 hb2 m hI res stw hw
  obtain ⟨F1, m1, rfl, hlen⟩ := frames_split stw F hFr0 h0
  obtain ⟨hFl, hm, hP, -⟩ := frames_pop stw F1 m1 stw.res hFr0
  obtain ⟨hI1, hfit1⟩ := hfit F1 m1 [] rfl
  rw [← hlen, stack_at_eq _ _ hFr0.stack_len hFl] at hsa
  have hc : stw.stack.getD F1.length 0 = current := Option.some.inj hsa
  rw [hc] at hP hm
  have hcur : m1 = cur := Option.some.inj (hm.symm.trans hsl)
  subst hcur
  rw [← hlen] at hfr
  obtain ⟨cs, hP2, hQ2⟩ :=
    for_reach_counted F1 current m1 hI1 it0 _ hP (pushed_init m1 hI1 it0 hch) it st nbr hfr
  have hf := hfit1 1
  simp only [fits] at hf
  exact ⟨F1, m1, cs, hP2, hQ2, (hf hexp).1⟩

/-- The iterator over the children of `N1 = {0, 2, 3, ..}` stands on `2`. -/
theorem children_N1 : children N1 = some { iblock := 1, mask := 1, gen := 2, bound := 1 } := by
  rfl

/-- The first test of the `for` loop of the walk from `N1` with bound `5`. -/
theorem for_state_N1 : for_state 5 N1 [] 0 { iblock := 1, mask := 1, gen := 2, bound := 1 }
    { slots := (walk_init N1 []).slots, stack := (walk_init N1 []).stack, stack_pointer := 0,
      res := [] } 0 :=
  ⟨walk_init N1 [], N1, _, while_reach.start, by decide, by rfl, by rfl, by decide, children_N1,
    for_reach.start⟩

/-! ## The pointer swap of `walk_children_stack` -/

/-- C20: throughout `walk_children_stack(m, bound)`, at the top of each pass of the
`while` loop the `STACK_SIZE` entries of `stack` are pairwise distinct slots,
a permutation of `&m` and the 49 entries of the pool; and at every
`remove_generator(*stack[stack_pointer], *current, g)` call the destination
slot (the pointer read from `stack[stack_pointer + 1]`) is different from
`current` and from every pending frame `stack[j]`, `j < stack_pointer`, so the
pass leaves `*current` and the monoids of the pending frames as they are. -/
theorem stack_slots_distinct (m : monoid) (bound : Nat) (res : List Nat) :
    (∀ st, while_reach bound (walk_init m res) st →
        st.stack.length = STACK_SIZE ∧
        (∀ i j, i < STACK_SIZE → j < STACK_SIZE → i ≠ j →
          st.stack.getD i 0 ≠ st.stack.getD j 0) ∧
        st.stack.Perm (List.range STACK_SIZE)) ∧
      ∀ current it st nbr, for_state bound m res current it st nbr →
        is_finished it = false →
        ∀ top, stack_at st.stack ((st.stack_pointer + 1) % U64) = some top →
          top ≠ current ∧ (∀ j, j < st.stack_pointer → st.stack.getD j 0 ≠ top) ∧
          ∀ it1 st1 nbr1, for_body current it st nbr = some (it1, st1, nbr1) →
            slot_at st1.slots current = slot_at st.slots current ∧
            ∀ j, j < st.stack_pointer →
              st1.stack.getD j 0 = st.stack.getD j 0 ∧
              slot_at st1.slots (st.stack.getD j 0) = slot_at st.slots (st.stack.getD j 0) := by
  have hS : STACK_SIZE = 50 := rfl
  constructor
  · intro st hst
    obtain ⟨F, hF⟩ := while_reach_frames bound m res st hst
    rw [hS]
    exact ⟨hF.stack_len, hF.inj,
      perm_range_of_inj st.stack 50 hF.stack_len hF.ptr_lt hF.inj⟩
  · intro current it st nbr hfs _ top htop
    obtain ⟨F, cur, cs, hP⟩ := for_state_pushing bound m res current it st nbr hfs
    have hsplt := hP.sp_lt
    have e1 : (st.stack_pointer + 1) % U64 = st.stack_pointer + 1 :=
      Nat.mod_eq_of_lt (by rw [U64_eq]; omega)
    rw [e1] at htop
    have hsp1 : st.stack_pointer + 1 < 50 := stack_at_some _ _ _ htop
    rw [stack_at_eq _ _ hP.stack_len hsp1] at htop
    have ht : st.stack.getD (st.stack_pointer + 1) 0 = top := Option.some.inj htop
    have hne : top ≠ current := by
      rw [← ht]; exact hP.cur_fresh _ hsp1 (by omega)
    have hpend : ∀ j, j < st.stack_pointer → st.stack.getD j 0 ≠ top := by
      intro j hj
      rw [← ht]
      exact hP.inj j _ (by omega) hsp1 (by omega) (by omega) (by omega)
    refine ⟨hne, hpend, ?_⟩
    intro it1 st1 nbr1 hb
    obtain ⟨-, -, -, c, -, -, hst1, -⟩ :=
      for_body_pushing st F current cur cs it it1 nbr nbr1 st1 hP hb
    rw [hst1, ht]
    refine ⟨slot_at_set_other _ _ _ _ hne, ?_⟩
    intro j hj
    constructor
    · show (st.stack.set st.stack_pointer top).getD j 0 = st.stack.getD j 0
      rw [getD_set _ _ _ _ (by rw [hP.stack_len]; exact hsplt), if_neg (by omega)]
    · exact slot_at_set_other _ _ _ _ (fun e => hpend j hj e.symm)

/-- C20 at the first test of the `while` loop of the walk from `N1` with bound
`5`: the stack holds the slots `0 .. 49`, pairwise distinct. -/
theorem stack_slots_distinct_witness :
    while_reach 5 (walk_init N1 []) (walk_init N1 []) ∧
      (walk_init N1 []).stack.length = STACK_SIZE ∧
      (∀ i j, i < STACK_SIZE → j < STACK_SIZE → i ≠ j →
        (walk_init N1 []).stack.getD i 0 ≠ (walk_init N1 []).stack.getD j 0) ∧
      (walk_init N1 []).stack.Perm (List.range STACK_SIZE) :=
  ⟨while_reach.start, (stack_slots_distinct N1 5 []).1 _ while_reach.start⟩

/-! ## The stack never overflows -/

/-- C13: for every observed monoid `m` and every `bound` with
`m.genus < bound ≤ MAX_GENUS = 40`, every index of the array `stack` that
`walk_children_stack(m, bound)` uses is below `STACK_SIZE = 50`: at every test
of the `while` loop that passes, the index `stack_pointer - 1` of the pop; at
every pass of the `for` loop, the index `stack_pointer + 1` read and the index
`stack_pointer` written by the swap; and after the `for` loop the index
`stack_pointer` of `stack[stack_pointer] = current`. The accesses succeed. -/
theorem stack_never_overflows (m : monoid) (bound : Nat) (res : List Nat)
    (hr : reachable m) (hb : m.genus < bound) (hG : bound ≤ MAX_GENUS) :
    (∀ st, while_reach bound (walk_init m res) st → st.stack_pointer ≠ 0 →
        st.stack_pointer - 1 < STACK_SIZE ∧
        ∃ current, stack_at st.stack (st.stack_pointer - 1) = some current) ∧
      ∀ current it st nbr, for_state bound m res current it st nbr →
        (is_finished it = false →
          (st.stack_pointer + 1) % U64 < STACK_SIZE ∧ st.stack_pointer < STACK_SIZE ∧
          ∃ top s1, stack_at st.stack ((st.stack_pointer + 1) % U64) = some top ∧
            stack_set st.stack st.stack_pointer top = some s1) ∧
        (is_finished it = true →
          st.stack_pointer < STACK_SIZE ∧
          ∃ s1, stack_set st.stack st.stack_pointer current = some s1) := by
  have hS : STACK_SIZE = 50 := rfl
  have hI := Inv_of_reachable m hr
  have hb1 : 1 ≤ bound := by omega
  have hb2 : bound ≤ 40 := hG
  constructor
  · intro st hst h0
    obtain ⟨F, hF, -⟩ := while_reach_counted bound hb1 hb2 m hI res st hst
    have h1 := hF.len_le
    have h2 := hF.sp_eq
    have hlt : st.stack_pointer - 1 < 50 := by omega
    rw [hS]
    exact ⟨hlt, _, stack_at_eq _ _ hF.stack_len hlt⟩
  · intro current it st nbr hfs
    obtain ⟨F, cur, cs, hP, hQ, hroom⟩ :=
      for_state_counted bound hb1 hb2 m hI res current it st nbr hfs
    have hsp := hP.sp_eq
    have hsplt := hP.sp_lt
    obtain ⟨hl1, hl2⟩ := pushed_length cur it cs hQ
    rw [hS]
    constructor
    · intro hf
      have hl3 := hl2 hf
      have hsp1 : st.stack_pointer + 1 < 50 := by omega
      have e1 : (st.stack_pointer + 1) % U64 = st.stack_pointer + 1 :=
        Nat.mod_eq_of_lt (by rw [U64_eq]; omega)
      rw [e1]
      exact ⟨hsp1, hsplt, _, _, stack_at_eq _ _ hP.stack_len hsp1,
        stack_set_eq _ _ _ hP.stack_len hsplt⟩
    · intro _
      exact ⟨hsplt, _, stack_set_eq _ _ _ hP.stack_len hsplt⟩

/-- C13 at the first pass of the `for` loop of the walk from `N1` with bound `5`:
the swap reads `stack[1]` and writes `stack[0]`. -/
theorem stack_never_overflows_witness :
    reachable N1 ∧ N1.genus < 5 ∧ 5 ≤ MAX_GENUS ∧
      for_state 5 N1 [] 0 { iblock := 1, mask := 1, gen := 2, bound := 1 }
        { slots := (walk_init N1 []).slots, stack := (walk_init N1 []).stack,
          stack_pointer := 0, res := [] } 0 ∧
      is_finished { iblock := 1, mask := 1, gen := 2, bound := 1 } = false ∧
      (0 + 1) % U64 < STACK_SIZE ∧ 0 < STACK_SIZE ∧
      ∃ top s1, stack_at (walk_init N1 []).stack ((0 + 1) % U64) = some top ∧
        stack_set (walk_init N1 []).stack 0 top = some s1 :=
  ⟨reachable_N1, by decide, by decide, for_state_N1, by decide,
    ((stack_never_overflows N1 5 [] reachable_N1 (by decide) (by decide)).2 _ _ _ _
      for_state_N1).1 (by decide)⟩

end NumericMonoid
